import Mathlib

/-!
# Verification of the composer manifest adapters (`manifest.go`)

A shallow embedding of the polymorphic JSON adapters of package `composer`
(`StringOrStrings`, `Bool`, `ValueOrMap`, `BoolOrString`, `IntString`, `Psr`,
`Repositories`) together with a model of the parts of Go's `encoding/json`
they call.

Conventions of the embedding:
* a Go `[]byte` or `string` is a `Bytes = List Nat` (one entry per byte);
* a Go slice is an `Option (List _)`, `none` being the nil slice;
* a Go map with string keys is an `Option (GoMap _)`, `none` being the nil
  map, and a `GoMap` is an association list kept strictly sorted by key;
* a method with a pointer receiver returns the new value of its target
  together with the returned `error` (`none` for a nil error).
-/

namespace Composer

/-! ## Bytes and UTF-8 -/

/-- A Go byte string: `[]byte` and `string` alike. -/
abbrev Bytes := List Nat

/-- The bytes of a string literal (UTF-8). -/
def utf8 (s : String) : Bytes :=
  (s.toList.map fun c =>
    let r := c.toNat
    if r < 0x80 then [r]
    else if r < 0x800 then [0xC0 + r / 64, 0x80 + r % 64]
    else if r < 0x10000 then [0xE0 + r / 4096, 0x80 + r / 64 % 64, 0x80 + r % 64]
    else [0xF0 + r / 262144, 0x80 + r / 4096 % 64, 0x80 + r / 64 % 64, 0x80 + r % 64]).flatten

/-- Go `utf8.EncodeRune`: surrogates and values above U+10FFFF are written as U+FFFD. -/
def encodeRune (r : Nat) : Bytes :=
  if r < 0x80 then [r]
  else if r < 0x800 then [0xC0 + r / 64, 0x80 + r % 64]
  else if 0xD800 ≤ r ∧ r ≤ 0xDFFF then [0xEF, 0xBF, 0xBD]
  else if r < 0x10000 then [0xE0 + r / 4096, 0x80 + r / 64 % 64, 0x80 + r % 64]
  else if r < 0x110000 then
    [0xF0 + r / 262144, 0x80 + r / 4096 % 64, 0x80 + r / 64 % 64, 0x80 + r % 64]
  else [0xEF, 0xBF, 0xBD]

/-- A UTF-8 continuation byte. -/
def isCont (b : Nat) : Bool := 0x80 ≤ b && b ≤ 0xBF

/-- Go `utf8.DecodeRune`: the rune at the head of the bytes and its width.
An invalid or truncated encoding gives `(0xFFFD, 1)`, the empty input `(0xFFFD, 0)`. -/
def decodeRune : Bytes → Nat × Nat
  | [] => (0xFFFD, 0)
  | b0 :: rest =>
    if b0 < 0x80 then (b0, 1)
    else if 0xC2 ≤ b0 ∧ b0 ≤ 0xDF then
      match rest with
      | b1 :: _ =>
        if isCont b1 then ((b0 - 0xC0) * 64 + (b1 - 0x80), 2) else (0xFFFD, 1)
      | [] => (0xFFFD, 1)
    else if 0xE0 ≤ b0 ∧ b0 ≤ 0xEF then
      match rest with
      | b1 :: b2 :: _ =>
        if (if b0 = 0xE0 then 0xA0 else 0x80) ≤ b1 ∧ b1 ≤ (if b0 = 0xED then 0x9F else 0xBF)
            ∧ isCont b2 then
          ((b0 - 0xE0) * 4096 + (b1 - 0x80) * 64 + (b2 - 0x80), 3)
        else (0xFFFD, 1)
      | _ => (0xFFFD, 1)
    else if 0xF0 ≤ b0 ∧ b0 ≤ 0xF4 then
      match rest with
      | b1 :: b2 :: b3 :: _ =>
        if (if b0 = 0xF0 then 0x90 else 0x80) ≤ b1 ∧ b1 ≤ (if b0 = 0xF4 then 0x8F else 0xBF)
            ∧ isCont b2 ∧ isCont b3 then
          ((b0 - 0xF0) * 262144 + (b1 - 0x80) * 4096 + (b2 - 0x80) * 64 + (b3 - 0x80), 4)
        else (0xFFFD, 1)
      | _ => (0xFFFD, 1)
    else (0xFFFD, 1)

/-- Go `utf8.Valid`, with `fuel` bounding the number of runes read. -/
def validRunes : Nat → Bytes → Bool
  | _, [] => true
  | 0, _ :: _ => false
  | fuel + 1, b :: rest =>
    if b < 0x80 then validRunes fuel rest
    else
      let rs := decodeRune (b :: rest)
      if rs.2 = 1 then false else validRunes fuel (rest.drop (rs.2 - 1))

/-- Go `utf8.Valid(s)`. -/
def validUTF8 (s : Bytes) : Bool := validRunes s.length s

/-! ## `encoding/json`: writing strings -/

/-- The lower-case hexadecimal digit of `n < 16`, as in Go's `hex` table. -/
def hexDigit (n : Nat) : Nat := if n < 10 then 48 + n else 87 + n

/-- How `appendString` (with HTML escaping, as `json.Marshal` uses it) writes
one ASCII byte. -/
def quoteByte (b : Nat) : Bytes :=
  if b = 0x22 ∨ b = 0x5C then [0x5C, b]
  else if b = 8 then [0x5C, 0x62]
  else if b = 12 then [0x5C, 0x66]
  else if b = 10 then [0x5C, 0x6E]
  else if b = 13 then [0x5C, 0x72]
  else if b = 9 then [0x5C, 0x74]
  else if b < 0x20 ∨ b = 0x3C ∨ b = 0x3E ∨ b = 0x26 then
    [0x5C, 0x75, 0x30, 0x30, hexDigit (b / 16), hexDigit (b % 16)]
  else [b]

/-- The body of Go's `appendString`: the escaped content of a JSON string,
without the surrounding quotes. `fuel` bounds the number of runes. -/
def appendString : Nat → Bytes → Bytes
  | _, [] => []
  | 0, _ :: _ => []
  | fuel + 1, b :: rest =>
    if b < 0x80 then quoteByte b ++ appendString fuel rest
    else
      let rs := decodeRune (b :: rest)
      if rs.2 = 1 then
        [0x5C, 0x75, 0x66, 0x66, 0x66, 0x64] ++ appendString fuel rest
      else if rs.1 = 0x2028 ∨ rs.1 = 0x2029 then
        [0x5C, 0x75, 0x32, 0x30, 0x32, hexDigit (rs.1 % 16)]
          ++ appendString fuel (rest.drop (rs.2 - 1))
      else (b :: rest).take rs.2 ++ appendString fuel (rest.drop (rs.2 - 1))

/-- Go `json.Marshal(s)` for a `string`: the quoted, escaped literal. -/
def marshalString (s : Bytes) : Bytes := 0x22 :: (appendString s.length s ++ [0x22])

/-! ## `encoding/json`: reading -/

/-- A parsed JSON text. String nodes keep the raw literal next to the decoded
content and number nodes keep their raw literal, because a custom
`UnmarshalJSON` receives the raw bytes of its value. Object members are kept
in document order, duplicates included. -/
inductive JValue where
  | null : JValue
  | bool (b : Bool) : JValue
  | number (raw : Bytes) : JValue
  | str (raw : Bytes) (s : Bytes) : JValue
  | arr (xs : List JValue) : JValue
  | obj (kvs : List (Bytes × JValue)) : JValue

/-- JSON insignificant whitespace: space, tab, line feed, carriage return. -/
def isSpace (b : Nat) : Bool := b = 0x20 || b = 9 || b = 10 || b = 13

/-- Drop leading whitespace. -/
def skipWs : Bytes → Bytes
  | [] => []
  | b :: rest => if isSpace b then skipWs rest else b :: rest

/-- The value of a hexadecimal digit, upper or lower case. -/
def hexVal (b : Nat) : Option Nat :=
  if 48 ≤ b ∧ b ≤ 57 then some (b - 48)
  else if 97 ≤ b ∧ b ≤ 102 then some (b - 87)
  else if 65 ≤ b ∧ b ≤ 70 then some (b - 55)
  else none

/-- Go `getu4` on the four digits after a backslash-u. -/
def hex4 (a b c d : Nat) : Option Nat :=
  match hexVal a, hexVal b, hexVal c, hexVal d with
  | some x, some y, some z, some w => some (x * 4096 + y * 256 + z * 16 + w)
  | _, _, _, _ => none

/-- The low half of a surrogate pair directly after a high half: the escape
`\uXXXX` at the head of the bytes, when it is one in `DC00..DFFF`. -/
def lowSurrogate : Bytes → Option Nat
  | 0x5C :: 0x75 :: a :: b :: c :: d :: _ =>
    match hex4 a b c d with
    | some r => if 0xDC00 ≤ r ∧ r < 0xE000 then some r else none
    | none => none
  | _ => none

/-- Scan and unquote a JSON string literal whose opening quote has been read.
Returns the raw body up to and including the closing quote, the decoded
content and the rest of the input. Follows Go's scanner (a control byte or a
bad escape is a syntax error) and `unquote` (invalid UTF-8 and lone
surrogates become U+FFFD). -/
def parseStr : Nat → Bytes → Option (Bytes × Bytes × Bytes)
  | _, [] => none
  | 0, _ :: _ => none
  | fuel + 1, b :: rest =>
    if b = 0x22 then some ([0x22], [], rest)
    else if b < 0x20 then none
    else if b = 0x5C then
      match rest with
      | [] => none
      | e :: rest1 =>
        if e = 0x75 then
          match rest1 with
          | h1 :: h2 :: h3 :: h4 :: rest2 =>
            match hex4 h1 h2 h3 h4 with
            | none => none
            | some r =>
              if 0xD800 ≤ r ∧ r < 0xDC00 then
                match lowSurrogate rest2 with
                | some r2 =>
                  (parseStr fuel (rest2.drop 6)).map fun t =>
                    (b :: e :: h1 :: h2 :: h3 :: h4 :: (rest2.take 6 ++ t.1),
                      encodeRune ((r - 0xD800) * 1024 + (r2 - 0xDC00) + 0x10000) ++ t.2.1,
                      t.2.2)
                | none =>
                  (parseStr fuel rest2).map fun t =>
                    (b :: e :: h1 :: h2 :: h3 :: h4 :: t.1, encodeRune 0xFFFD ++ t.2.1, t.2.2)
              else
                (parseStr fuel rest2).map fun t =>
                  (b :: e :: h1 :: h2 :: h3 :: h4 :: t.1, encodeRune r ++ t.2.1, t.2.2)
          | _ => none
        else
          let c : Option Nat :=
            if e = 0x22 ∨ e = 0x5C ∨ e = 0x2F then some e
            else if e = 0x62 then some 8
            else if e = 0x66 then some 12
            else if e = 0x6E then some 10
            else if e = 0x72 then some 13
            else if e = 0x74 then some 9
            else none
          match c with
          | none => none
          | some x => (parseStr fuel rest1).map fun t => (b :: e :: t.1, x :: t.2.1, t.2.2)
    else if b < 0x80 then
      (parseStr fuel rest).map fun t => (b :: t.1, b :: t.2.1, t.2.2)
    else
      let rs := decodeRune (b :: rest)
      if rs.2 = 1 then
        (parseStr fuel rest).map fun t => (b :: t.1, encodeRune 0xFFFD ++ t.2.1, t.2.2)
      else
        (parseStr fuel (rest.drop (rs.2 - 1))).map fun t =>
          ((b :: rest).take rs.2 ++ t.1, (b :: rest).take rs.2 ++ t.2.1, t.2.2)

/-- An ASCII decimal digit. -/
def isDigit (b : Nat) : Bool := 48 ≤ b && b ≤ 57

/-- Split off the leading run of decimal digits. -/
def spanDigits : Bytes → Bytes × Bytes
  | [] => ([], [])
  | b :: rest =>
    if isDigit b then ((spanDigits rest).1.cons b, (spanDigits rest).2) else ([], b :: rest)

/-- The integer part of a JSON number: `0`, or a non-zero digit and more digits. -/
def parseInt : Bytes → Option (Bytes × Bytes)
  | [] => none
  | b :: rest =>
    if b = 48 then some ([48], rest)
    else if isDigit b then some (b :: (spanDigits rest).1, (spanDigits rest).2)
    else none

/-- The optional fraction of a JSON number: a dot and at least one digit. -/
def parseFrac : Bytes → Option (Bytes × Bytes)
  | 0x2E :: rest =>
    match spanDigits rest with
    | ([], _) => none
    | (ds, r) => some (0x2E :: ds, r)
  | bs => some ([], bs)

/-- The optional exponent of a JSON number: `e` or `E`, an optional sign and
at least one digit. -/
def parseExp : Bytes → Option (Bytes × Bytes)
  | [] => some ([], [])
  | b :: rest =>
    if b = 0x65 ∨ b = 0x45 then
      match rest with
      | s :: rest1 =>
        if s = 0x2B ∨ s = 0x2D then
          match spanDigits rest1 with
          | ([], _) => none
          | (ds, r) => some (b :: s :: ds, r)
        else
          match spanDigits rest with
          | ([], _) => none
          | (ds, r) => some (b :: ds, r)
      | [] => none
    else some ([], b :: rest)

/-- A JSON number literal at the head of the input: its raw text and the rest. -/
def parseNumber (bs : Bytes) : Option (Bytes × Bytes) :=
  let neg : Bytes × Bytes :=
    match bs with
    | 0x2D :: rest => ([0x2D], rest)
    | _ => ([], bs)
  match parseInt neg.2 with
  | none => none
  | some (i, r1) =>
    match parseFrac r1 with
    | none => none
    | some (f, r2) =>
      match parseExp r2 with
      | none => none
      | some (e, r3) => some (neg.1 ++ i ++ f ++ e, r3)

/-- The bytes `lit` at the head of the input, removed. -/
def stripLit : Bytes → Bytes → Option Bytes
  | [], bs => some bs
  | _ :: _, [] => none
  | l :: lit, b :: bs => if l = b then stripLit lit bs else none

/-- Go's `maxNestingDepth`: opening a container deeper than this is a syntax error. -/
def maxNestingDepth : Nat := 10000

mutual
/-- Parse one JSON value at the head of the input (no leading whitespace);
`depth` counts the containers already open. -/
def parseValue : Nat → Nat → Bytes → Option (JValue × Bytes)
  | 0, _, _ => none
  | _ + 1, _, [] => none
  | fuel + 1, depth, b :: rest =>
    if b = 0x22 then
      (parseStr rest.length rest).map fun t => (JValue.str (0x22 :: t.1) t.2.1, t.2.2)
    else if b = 0x5B then
      if maxNestingDepth ≤ depth then none
      else
        match skipWs rest with
        | [] => none
        | c :: r =>
          if c = 0x5D then some (JValue.arr [], r)
          else (parseElems fuel (depth + 1) (c :: r)).map fun t => (JValue.arr t.1, t.2)
    else if b = 0x7B then
      if maxNestingDepth ≤ depth then none
      else
        match skipWs rest with
        | [] => none
        | c :: r =>
          if c = 0x7D then some (JValue.obj [], r)
          else (parseMembers fuel (depth + 1) (c :: r)).map fun t => (JValue.obj t.1, t.2)
    else if b = 0x74 then
      (stripLit [0x72, 0x75, 0x65] rest).map fun r => (JValue.bool true, r)
    else if b = 0x66 then
      (stripLit [0x61, 0x6C, 0x73, 0x65] rest).map fun r => (JValue.bool false, r)
    else if b = 0x6E then
      (stripLit [0x75, 0x6C, 0x6C] rest).map fun r => (JValue.null, r)
    else
      (parseNumber (b :: rest)).map fun t => (JValue.number t.1, t.2)
/-- Parse the elements of an array up to and including the closing bracket;
the input starts at the first byte of an element. -/
def parseElems : Nat → Nat → Bytes → Option (List JValue × Bytes)
  | 0, _, _ => none
  | fuel + 1, depth, bs =>
    match parseValue fuel depth bs with
    | none => none
    | some (v, r) =>
      match skipWs r with
      | [] => none
      | c :: r1 =>
        if c = 0x5D then some ([v], r1)
        else if c = 0x2C then
          (parseElems fuel depth (skipWs r1)).map fun t => (v :: t.1, t.2)
        else none
/-- Parse the members of an object up to and including the closing brace;
the input starts at the opening quote of a key. -/
def parseMembers : Nat → Nat → Bytes → Option (List (Bytes × JValue) × Bytes)
  | 0, _, _ => none
  | _ + 1, _, [] => none
  | fuel + 1, depth, q :: rest =>
    if q = 0x22 then
      match parseStr rest.length rest with
      | none => none
      | some (_, k, r) =>
        match skipWs r with
        | [] => none
        | c :: r1 =>
          if c = 0x3A then
            match parseValue fuel depth (skipWs r1) with
            | none => none
            | some (v, r2) =>
              match skipWs r2 with
              | [] => none
              | c2 :: r3 =>
                if c2 = 0x7D then some ([(k, v)], r3)
                else if c2 = 0x2C then
                  (parseMembers fuel depth (skipWs r3)).map fun t => ((k, v) :: t.1, t.2)
                else none
          else none
    else none
end

/-- The syntax check and parse that `json.Unmarshal` performs on its whole
input: one value, with optional whitespace around it. `none` is a
`SyntaxError`. The parser is given two units of fuel per byte of input: a
value and the list of elements or members it stands in use one unit each
before a byte is read. Every theorem below that states a successful parse
proves it with this fuel. -/
def parseJSON (data : Bytes) : Option JValue :=
  match parseValue (2 * data.length + 2) 0 (skipWs data) with
  | none => none
  | some (v, r) => if skipWs r = [] then some v else none

/-! ## `encoding/json`: errors and typed stores -/

/-- The Go `error` values that occur. -/
inductive GoError where
  /-- A `*json.SyntaxError`: the input is not one well-formed JSON text. -/
  | malformed : GoError
  /-- A `*json.UnmarshalTypeError`: "json: cannot unmarshal `value` into Go
  value of type `type`". -/
  | unmarshalType (value : String) (type : String) : GoError
  /-- The result of `errors.New(msg)`. -/
  | new (msg : Bytes) : GoError
  deriving DecidableEq, Repr

/-- The word `UnmarshalTypeError` uses for a JSON value. -/
def JValue.kind : JValue → String
  | .null => "null"
  | .bool _ => "bool"
  | .number _ => "number"
  | .str _ _ => "string"
  | .arr _ => "array"
  | .obj _ => "object"

/-- The earliest error of a list of element results (`decodeState.saveError`
keeps the first). -/
def firstError : List (Option GoError) → Option GoError
  | [] => none
  | some e :: _ => some e
  | none :: es => firstError es

/-- Decoding a parsed value into a Go `string` holding `cur`: a string is
stored, `null` changes nothing, anything else is a type error that leaves
the target alone. -/
def storeString (v : JValue) (cur : Bytes) : Bytes × Option GoError :=
  match v with
  | .null => (cur, none)
  | .str _ s => (s, none)
  | .bool _ => (cur, some (.unmarshalType "bool" "string"))
  | .number _ => (cur, some (.unmarshalType "number" "string"))
  | .arr _ => (cur, some (.unmarshalType "array" "string"))
  | .obj _ => (cur, some (.unmarshalType "object" "string"))

/-- Decoding a parsed value into a nil `[]string`: `null` leaves nil, an
array gives a non-nil slice with one entry per element (an element that is
not a string stays `""` and its type error is saved while decoding goes on). -/
def storeStrings (v : JValue) : Option (List Bytes) × Option GoError :=
  match v with
  | .null => (none, none)
  | .arr xs =>
    (some (xs.map fun x => (storeString x []).1), firstError (xs.map fun x => (storeString x []).2))
  | .bool _ => (none, some (.unmarshalType "bool" "[]string"))
  | .number _ => (none, some (.unmarshalType "number" "[]string"))
  | .str _ _ => (none, some (.unmarshalType "string" "[]string"))
  | .obj _ => (none, some (.unmarshalType "object" "[]string"))

/-! ### Go maps with string keys -/

/-- Byte-wise lexicographic order on keys, the order in which `json.Marshal`
writes the keys of a map. -/
def keyLt : Bytes → Bytes → Bool
  | [], [] => false
  | [], _ :: _ => true
  | _ :: _, [] => false
  | a :: as, b :: bs => decide (a < b) || (decide (a = b) && keyLt as bs)

/-- The entries of a non-nil Go `map[string]V`, strictly sorted by key. -/
abbrev GoMap (V : Type) := List (Bytes × V)

/-- Go `m[k] = v`. -/
def mapInsert {V : Type} (k : Bytes) (v : V) : GoMap V → GoMap V
  | [] => [(k, v)]
  | (k1, v1) :: m =>
    if k = k1 then (k, v) :: m
    else if keyLt k k1 then (k, v) :: (k1, v1) :: m
    else (k1, v1) :: mapInsert k v m

/-- Go `v, ok := m[k]`. -/
def mapLookup {V : Type} (k : Bytes) : GoMap V → Option V
  | [] => none
  | (k1, v1) :: m => if k = k1 then some v1 else mapLookup k m

/-- The representation invariant of a `GoMap`: keys strictly increasing. -/
def MapSorted {V : Type} (m : GoMap V) : Prop :=
  m.Pairwise fun a b => keyLt a.1 b.1 = true

/-- The map built from the members of a JSON object read in document order
into `m`, each value converted by `f`; a repeated key keeps its last value. -/
def mapOfMembers {V W : Type} (f : V → W) (kvs : List (Bytes × V)) (m : GoMap W) : GoMap W :=
  kvs.foldl (fun acc kv => mapInsert kv.1 (f kv.2) acc) m

/-- Decoding a parsed value into a `map[string]string` holding `cur`: `null`
sets the map to nil; an object allocates the map if it is nil and stores every
member, a member whose value is not a string being stored as `""` with its
type error saved; anything else is a type error. -/
def storeStringMap (v : JValue) (cur : Option (GoMap Bytes)) :
    Option (GoMap Bytes) × Option GoError :=
  match v with
  | .null => (none, none)
  | .obj kvs =>
    (some (mapOfMembers (fun x => (storeString x []).1) kvs (cur.getD [])),
      firstError (kvs.map fun kv => (storeString kv.2 []).2))
  | .bool _ => (cur, some (.unmarshalType "bool" "map[string]string"))
  | .number _ => (cur, some (.unmarshalType "number" "map[string]string"))
  | .str _ _ => (cur, some (.unmarshalType "string" "map[string]string"))
  | .arr _ => (cur, some (.unmarshalType "array" "map[string]string"))

/-! ### Numbers in generic values -/

/-- The number that a run of decimal digits writes. -/
def digitsValue (ds : Bytes) : Nat := ds.foldl (fun n d => 10 * n + (d - 48)) 0

/-- The bound of `float64`: a decimal value is out of range when its
magnitude reaches `2^1024 - 2^970`, half a unit in the last place beyond the
largest `float64`. It is written as `2^970 * (2^54 - 1)`. -/
def float64Limit : Nat := (2 ^ 97) ^ 10 * (2 ^ 54 - 1)

/-- Whether `strconv.ParseFloat(raw, 64)` takes the JSON number literal `raw`
without a range error, as it documents: the value must lie below
`float64Limit` in magnitude. The literal is `m * 10^p / 10^q`, where `m` is
its digits read as one integer, `q` counts the fraction digits and a negative
exponent, and `p` is a positive exponent; with `m` not zero, `10^309` is
already beyond the bound. -/
def float64Fits (raw : Bytes) : Bool :=
  let body : Bytes :=
    match raw with
    | 0x2D :: rest => rest
    | _ => raw
  let int := spanDigits body
  let frac : Bytes × Bytes :=
    match int.2 with
    | 0x2E :: rest => spanDigits rest
    | rest => ([], rest)
  let exp : Bool × Nat :=
    match frac.2 with
    | _ :: 0x2D :: ds => (true, digitsValue ds)
    | _ :: 0x2B :: ds => (false, digitsValue ds)
    | _ :: ds => (false, digitsValue ds)
    | [] => (false, 0)
  let m := digitsValue (int.1 ++ frac.1)
  let p := if exp.1 then 0 else exp.2
  let q := frac.1.length + (if exp.1 then exp.2 else 0)
  if m = 0 then true
  else if 309 ≤ p then false
  else decide (m * 10 ^ p < float64Limit * 10 ^ q)

mutual
/-- The first number literal of a value, in document order, that `float64`
cannot hold; decoding into an `interface{}` converts every number. -/
def JValue.badNumber : JValue → Option Bytes
  | .number raw => if float64Fits raw then none else some raw
  | .arr xs => badNumberList xs
  | .obj kvs => badNumberMembers kvs
  | _ => none
/-- The first number literal among the elements of an array that `float64`
cannot hold. -/
def badNumberList : List JValue → Option Bytes
  | [] => none
  | x :: xs =>
    match x.badNumber with
    | some raw => some raw
    | none => badNumberList xs
/-- The first number literal among the members of an object that `float64`
cannot hold. -/
def badNumberMembers : List (Bytes × JValue) → Option Bytes
  | [] => none
  | (_, v) :: kvs =>
    match v.badNumber with
    | some raw => some raw
    | none => badNumberMembers kvs
end

/-- The `*json.UnmarshalTypeError` that decoding into an `interface{}` saves
for a number literal outside `float64`. -/
def rangeError (raw : Bytes) : GoError :=
  .unmarshalType ("number " ++ String.mk (raw.map Char.ofNat)) "float64"

/-- Decoding a parsed value into a nil `map[string]interface{}`: the members
of an object, a repeated key keeping its last value. The generic values are
kept as parsed. A number literal that `float64` cannot hold is a type error,
saved while decoding goes on and returned at the end (the map then keeps the
literal where Go stores nil; every caller drops the map on an error). -/
def storeAnyMap (v : JValue) : Option (GoMap JValue) × Option GoError :=
  match v with
  | .null => (none, none)
  | .obj kvs => (some (mapOfMembers id kvs []), (badNumberMembers kvs).map rangeError)
  | .bool _ => (none, some (.unmarshalType "bool" "map[string]interface {}"))
  | .number _ => (none, some (.unmarshalType "number" "map[string]interface {}"))
  | .str _ _ => (none, some (.unmarshalType "string" "map[string]interface {}"))
  | .arr _ => (none, some (.unmarshalType "array" "map[string]interface {}"))

/-- Go `json.Unmarshal(data, &x)`: a syntax error leaves `x` alone, otherwise
the parsed value is stored by `store`. -/
def unmarshal {σ : Type} (store : JValue → σ → σ × Option GoError) (data : Bytes) (cur : σ) :
    σ × Option GoError :=
  match parseJSON data with
  | none => (cur, some .malformed)
  | some v => store v cur

/-! ## `encoding/json`: writing -/

/-- Items separated by commas. -/
def commaSep : List Bytes → Bytes
  | [] => []
  | [x] => x
  | x :: y :: rest => x ++ 0x2C :: commaSep (y :: rest)

/-- Go `json.Marshal(b)` for a `bool`. -/
def marshalBool (b : Bool) : Bytes := if b then utf8 "true" else utf8 "false"

/-- Go `json.Marshal(xs)` for a `[]string`: `null` for the nil slice, else an array. -/
def marshalStrings : Option (List Bytes) → Bytes
  | none => utf8 "null"
  | some xs => 0x5B :: (commaSep (xs.map marshalString) ++ [0x5D])

/-- Go `json.Marshal(m)` for a map with string keys whose values are written
by `enc`: `null` for the nil map, else an object with the keys in sorted order. -/
def marshalMap {V : Type} (enc : V → Bytes) : Option (GoMap V) → Bytes
  | none => utf8 "null"
  | some m => 0x7B :: (commaSep (m.map fun kv => marshalString kv.1 ++ 0x3A :: enc kv.2) ++ [0x7D])

/-! ## The adapters of `manifest.go` -/

/-- Go `type StringOrStrings []string`. -/
abbrev StringOrStrings := Option (List Bytes)

/-- Go `func (l StringOrStrings) MarshalJSON() ([]byte, error)`. -/
def StringOrStrings.MarshalJSON (l : StringOrStrings) : Bytes × Option GoError :=
  (marshalStrings l, none)

/-- Go `func (l *StringOrStrings) UnmarshalJSON(bytes []byte) error`: the new
value of `*l` and the returned error. -/
def StringOrStrings.UnmarshalJSON (l : StringOrStrings) (bytes : Bytes) :
    StringOrStrings × Option GoError :=
  match unmarshal storeString bytes [] with
  | (str, none) => (some [str], none)
  | (_, some _) =>
    match unmarshal (fun v _ => storeStrings v) bytes none with
    | (strs, none) => (strs, none)
    | (_, some _) => (l, some (.new (utf8 "cannot unmarshal " ++ bytes)))

/-- Go `func (b Bool) MarshalJSON() ([]byte, error)`. -/
def Bool.MarshalJSON (b : Bool) : Bytes × Option GoError := (marshalBool b, none)

/-- The six spellings `Bool.UnmarshalJSON` reads as true. -/
def trueTokens : List Bytes :=
  [utf8 "true", utf8 "True", utf8 "\"true\"", utf8 "\"True\"", utf8 "1", utf8 "\"1\""]

/-- The six spellings `Bool.UnmarshalJSON` reads as false. -/
def falseTokens : List Bytes :=
  [utf8 "false", utf8 "False", utf8 "\"false\"", utf8 "\"False\"", utf8 "0", utf8 "\"0\""]

/-- Go `func (b *Bool) UnmarshalJSON(bytes []byte) error`. -/
def Bool.UnmarshalJSON (b : Bool) (bytes : Bytes) : Bool × Option GoError :=
  if bytes ∈ trueTokens then (true, none)
  else if bytes ∈ falseTokens then (false, none)
  else (b, some (.new (utf8 "cannot unmarshal bool " ++ bytes)))

/-- Go `type ValueOrMap struct`. -/
structure ValueOrMap where
  Value : Bytes
  Map : Option (GoMap Bytes)
  deriving DecidableEq, Repr

/-- Go `func (pi ValueOrMap) MarshalJSON() ([]byte, error)`. -/
def ValueOrMap.MarshalJSON (pi : ValueOrMap) : Bytes × Option GoError :=
  if pi.Value ≠ [] then (marshalString pi.Value, none)
  else (marshalMap marshalString pi.Map, none)

/-- Go `func (pi *ValueOrMap) UnmarshalJSON(bytes []byte) error`; both
attempts decode straight into the fields of the target. -/
def ValueOrMap.UnmarshalJSON (pi : ValueOrMap) (bytes : Bytes) : ValueOrMap × Option GoError :=
  match unmarshal storeString bytes pi.Value with
  | (v, none) => ({ pi with Value := v }, none)
  | (v, some _) =>
    match unmarshal storeStringMap bytes pi.Map with
    | (m, none) => ({ Value := v, Map := m }, none)
    | (m, some _) => ({ Value := v, Map := m }, some (.new (utf8 "cannot unmarshal " ++ bytes)))

/-- Go `type BoolOrString struct`. -/
structure BoolOrString where
  Bool : Bool
  String : Bytes
  deriving DecidableEq, Repr

/-- Go `func (bs BoolOrString) MarshalJSON() ([]byte, error)`. -/
def BoolOrString.MarshalJSON (bs : BoolOrString) : Bytes × Option GoError :=
  if bs.String ≠ [] then (marshalString bs.String, none)
  else Bool.MarshalJSON bs.Bool

/-- Go `func (bs *BoolOrString) UnmarshalJSON(bytes []byte) error`. -/
def BoolOrString.UnmarshalJSON (bs : BoolOrString) (bytes : Bytes) :
    BoolOrString × Option GoError :=
  match Bool.UnmarshalJSON bs.Bool bytes with
  | (b, none) => ({ bs with Bool := b }, none)
  | (b, some _) =>
    match unmarshal storeString bytes bs.String with
    | (s, none) => ({ Bool := b, String := s }, none)
    | (s, some _) => ({ Bool := b, String := s }, some (.new (utf8 "cannot unmarshal " ++ bytes)))

/-- Go `type IntString string`. -/
abbrev IntString := Bytes

/-- Go `func (c IntString) MarshalJSON() ([]byte, error)`. -/
def IntString.MarshalJSON (c : IntString) : Bytes × Option GoError := (marshalString c, none)

/-- Go `func (c *IntString) UnmarshalJSON(bytes []byte) error`: every byte
but the double quote is appended to `r`. -/
def IntString.UnmarshalJSON (_c : IntString) (bytes : Bytes) : IntString × Option GoError :=
  (bytes.foldl (fun r b => if b = 0x22 then r else r ++ [b]) [], none)

/-- The outcome of a call that may panic: it returns, leaving the target at
`target` and giving `err`, or it panics. -/
inductive Outcome (σ : Type) where
  | returned (target : σ) (err : Option GoError) : Outcome σ
  | panicked : Outcome σ
  deriving DecidableEq, Repr

/-- Go `type Psr map[string][]string`. -/
abbrev Psr := Option (GoMap (Option (List Bytes)))

/-- Go `func (p Psr) MarshalJSON() ([]byte, error)`. -/
def Psr.MarshalJSON (p : Psr) : Bytes × Option GoError := (marshalMap marshalStrings p, none)

/-- The inner loop `arrStr[a] = s.(string)` of `Psr.UnmarshalJSON`: the
strings of the array, or `none` when an element is not a string and the
unchecked type assertion panics. -/
def assertStrings : List JValue → Option (List Bytes)
  | [] => some []
  | .str _ s :: xs => (assertStrings xs).map fun l => s :: l
  | _ :: _ => none

/-- The loop `for k, v := range i` of `Psr.UnmarshalJSON` over the entries
in the order the range visits them, `m` being the map built so far. -/
def Psr.rangeLoop (bytes : Bytes) :
    List (Bytes × JValue) → GoMap (Option (List Bytes)) → Outcome (GoMap (Option (List Bytes)))
  | [], m => .returned m none
  | (k, v) :: rest, m =>
    match v with
    | .arr arrValues =>
      match assertStrings arrValues with
      | some arrStr => Psr.rangeLoop bytes rest (mapInsert k (some arrStr) m)
      | none => .panicked
    | .null => Psr.rangeLoop bytes rest (mapInsert k none m)
    | .str _ arr => Psr.rangeLoop bytes rest (mapInsert k (some [arr]) m)
    | .bool _ => .returned m (some (.new (utf8 "cannot unmarshal psr " ++ bytes)))
    | .number _ => .returned m (some (.new (utf8 "cannot unmarshal psr " ++ bytes)))
    | .obj _ => .returned m (some (.new (utf8 "cannot unmarshal psr " ++ bytes)))

/-- Go `func (p *Psr) UnmarshalJSON(bytes []byte) error`. The order in which
`range` visits a map is not fixed by Go: `order` gives, for the entries of
the map, the sequence in which this run visits them. -/
def Psr.UnmarshalJSON (order : GoMap JValue → List (Bytes × JValue)) (p : Psr) (bytes : Bytes) :
    Outcome Psr :=
  match unmarshal (fun v _ => storeAnyMap v) bytes none with
  | (_, some err) => .returned p (some err)
  | (i, none) =>
    match Psr.rangeLoop bytes (order (i.getD [])) [] with
    | .returned m none => .returned (some m) none
    | .returned _ (some err) => .returned p (some err)
    | .panicked => .panicked

/-- What Go guarantees of a `range` over a map: every entry is visited
exactly once. -/
def RangeOrder {V : Type} (order : GoMap V → List (Bytes × V)) : Prop :=
  ∀ m, (order m).Perm m

/-! ## Repositories -/

/-- Go `type Repository struct`. A `*BoolOrString` is an `Option`, `none`
being the nil pointer; the options are a `map[string]interface{}` whose
generic values are kept as parsed. -/
structure Repository where
  Type_ : Bytes
  Url : Bytes
  Canonical : Bool
  Only : Option (List Bytes)
  Exclude : Option (List Bytes)
  Options : Option (GoMap JValue)
  AllowSslDowngrade : Bool
  ForceLazyProviders : Bool
  NoApi : Bool
  SecureHttp : Bool
  SvnCacheCredentials : Bool
  TrunkPath : Option BoolOrString
  BranchesPath : Option BoolOrString
  TagsPath : Option BoolOrString
  PackagePath : Bytes
  Depot : Bytes
  Branch : Bytes
  UniquePerforceClientName : Bytes
  P4user : Bytes
  P4password : Bytes
  VendorAlias : Bytes

/-- The zero value of `Repository`. -/
def Repository.zero : Repository :=
  { Type_ := [], Url := [], Canonical := false, Only := none, Exclude := none, Options := none,
    AllowSslDowngrade := false, ForceLazyProviders := false, NoApi := false, SecureHttp := false,
    SvnCacheCredentials := false, TrunkPath := none, BranchesPath := none, TagsPath := none,
    PackagePath := [], Depot := [], Branch := [], UniquePerforceClientName := [], P4user := [],
    P4password := [], VendorAlias := [] }

/-- The JSON names of the fields of `Repository`, from the struct tags, in
declaration order. -/
def Repository.fieldNames : List Bytes :=
  [utf8 "type", utf8 "url", utf8 "canonical", utf8 "only", utf8 "exclude", utf8 "options",
    utf8 "allow_ssl_downgrade", utf8 "force-lazy-providers", utf8 "no-api", utf8 "secure-http",
    utf8 "svn-cache-credentials", utf8 "trunk-path", utf8 "branches-path", utf8 "tags-path",
    utf8 "package-path", utf8 "depot", utf8 "branch", utf8 "unique_perforce_client_name",
    utf8 "p4user", utf8 "p4password", utf8 "vendor-alias"]

/-- Go `foldName`, as far as matching against ASCII field names goes: ASCII
letters are upper-cased, U+017F and U+212A fold to `S` and `K`, every other
rune folds to a rune outside ASCII (written here as the rune itself). -/
def foldName : Nat → Bytes → Bytes
  | _, [] => []
  | 0, _ :: _ => []
  | fuel + 1, c :: rest =>
    if c < 0x80 then (if 0x61 ≤ c ∧ c ≤ 0x7A then c - 32 else c) :: foldName fuel rest
    else
      let rs := decodeRune (c :: rest)
      (if rs.1 = 0x17F then [0x53] else if rs.1 = 0x212A then [0x4B] else encodeRune rs.1)
        ++ foldName fuel (rest.drop (rs.2 - 1))

/-- The position of the first name for which `p` holds. -/
def findIndex (p : Bytes → Bool) : List Bytes → Option Nat
  | [] => none
  | n :: ns => if p n then some 0 else (findIndex p ns).map fun i => i + 1

/-- The struct field an object key selects: the field with exactly this
name, else the field whose name is equal under case folding, else none (the
member is skipped). -/
def fieldIndex (names : List Bytes) (key : Bytes) : Option Nat :=
  match findIndex (fun n => decide (n = key)) names with
  | some i => some i
  | none => findIndex (fun n => decide (foldName n.length n = foldName key.length key)) names

/-- The raw bytes a custom `UnmarshalJSON` receives for a scalar value; an
array or an object has none here (its text begins with a bracket or brace). -/
def JValue.rawScalar : JValue → Option Bytes
  | .null => some (utf8 "null")
  | .bool b => some (marshalBool b)
  | .number raw => some raw
  | .str raw _ => some raw
  | .arr _ => none
  | .obj _ => none

/-- Decoding a value into a field of type `Bool`: `Bool.UnmarshalJSON` is
called with the raw bytes, also for `null`. `none` stands for a returned
error; an array or an object is none of the accepted spellings. -/
def storeBool (v : JValue) (cur : Bool) : Option Bool :=
  match v.rawScalar with
  | none => none
  | some raw =>
    match Bool.UnmarshalJSON cur raw with
    | (b, none) => some b
    | (_, some _) => none

/-- Decoding a value into a field of type `*BoolOrString`: `null` sets the
pointer to nil, otherwise a nil pointer is allocated and
`BoolOrString.UnmarshalJSON` is called with the raw bytes. -/
def storeBoolOrStringPtr (v : JValue) (cur : Option BoolOrString) : Option (Option BoolOrString) :=
  match v with
  | .null => some none
  | _ =>
    match v.rawScalar with
    | none => none
    | some raw =>
      match BoolOrString.UnmarshalJSON (cur.getD { Bool := false, String := [] }) raw with
      | (bs, none) => some (some bs)
      | (_, some _) => none

/-- Decoding a value into a `[]string` field holding `cur`, `spare` being the
elements of its array beyond its length, within its capacity. The elements
are decoded over what the array holds: growing the length exposes the old
elements again, and `null` leaves an element as it is; past the capacity the
array is grown with empty strings. What lies beyond the new length stays in
the array. An empty array gives a fresh empty slice, `null` the nil slice.
`none` stands for a returned error. -/
def storeStringsField (v : JValue) (cur : Option (List Bytes)) (spare : List Bytes) :
    Option (Option (List Bytes) × List Bytes) :=
  match v with
  | .null => some (none, [])
  | .arr xs =>
    match firstError (xs.map fun x => (storeString x []).2) with
    | some _ => none
    | none =>
      match xs with
      | [] => some (some [], [])
      | _ :: _ =>
        let old := cur.getD [] ++ spare
        some (some (xs.zipWith (fun x c => (storeString x c).1)
            (old ++ List.replicate (xs.length - old.length) [])),
          old.drop xs.length)
  | _ => none

/-- Decoding a value into a `string` field holding `cur`. -/
def storeStringField (v : JValue) (cur : Bytes) : Option Bytes :=
  match storeString v cur with
  | (s, none) => some s
  | (_, some _) => none

/-- Decoding a value into a `map[string]interface{}` field holding `cur`; a
number literal that `float64` cannot hold is an error. -/
def storeAnyMapField (v : JValue) (cur : Option (GoMap JValue)) : Option (Option (GoMap JValue)) :=
  match v with
  | .null => some none
  | .obj kvs =>
    match badNumberMembers kvs with
    | some _ => none
    | none => some (some (mapOfMembers id kvs (cur.getD [])))
  | _ => none

/-- Decoding the value of one object member into the field with index `i`
of a `Repository`. The state is the `Repository` with the spare elements of
the arrays of `Only` and of `Exclude`. -/
def Repository.storeField (i : Nat) (v : JValue) (st : Repository × List Bytes × List Bytes) :
    Option (Repository × List Bytes × List Bytes) :=
  let r := st.1
  match i with
  | 0 => (storeStringField v r.Type_).map fun x => ({ r with Type_ := x }, st.2)
  | 1 => (storeStringField v r.Url).map fun x => ({ r with Url := x }, st.2)
  | 2 => (storeBool v r.Canonical).map fun x => ({ r with Canonical := x }, st.2)
  | 3 => (storeStringsField v r.Only st.2.1).map fun x => ({ r with Only := x.1 }, x.2, st.2.2)
  | 4 => (storeStringsField v r.Exclude st.2.2).map fun x =>
      ({ r with Exclude := x.1 }, st.2.1, x.2)
  | 5 => (storeAnyMapField v r.Options).map fun x => ({ r with Options := x }, st.2)
  | 6 => (storeBool v r.AllowSslDowngrade).map fun x => ({ r with AllowSslDowngrade := x }, st.2)
  | 7 => (storeBool v r.ForceLazyProviders).map fun x =>
      ({ r with ForceLazyProviders := x }, st.2)
  | 8 => (storeBool v r.NoApi).map fun x => ({ r with NoApi := x }, st.2)
  | 9 => (storeBool v r.SecureHttp).map fun x => ({ r with SecureHttp := x }, st.2)
  | 10 => (storeBool v r.SvnCacheCredentials).map fun x =>
      ({ r with SvnCacheCredentials := x }, st.2)
  | 11 => (storeBoolOrStringPtr v r.TrunkPath).map fun x => ({ r with TrunkPath := x }, st.2)
  | 12 => (storeBoolOrStringPtr v r.BranchesPath).map fun x =>
      ({ r with BranchesPath := x }, st.2)
  | 13 => (storeBoolOrStringPtr v r.TagsPath).map fun x => ({ r with TagsPath := x }, st.2)
  | 14 => (storeStringField v r.PackagePath).map fun x => ({ r with PackagePath := x }, st.2)
  | 15 => (storeStringField v r.Depot).map fun x => ({ r with Depot := x }, st.2)
  | 16 => (storeStringField v r.Branch).map fun x => ({ r with Branch := x }, st.2)
  | 17 => (storeStringField v r.UniquePerforceClientName).map fun x =>
      ({ r with UniquePerforceClientName := x }, st.2)
  | 18 => (storeStringField v r.P4user).map fun x => ({ r with P4user := x }, st.2)
  | 19 => (storeStringField v r.P4password).map fun x => ({ r with P4password := x }, st.2)
  | 20 => (storeStringField v r.VendorAlias).map fun x => ({ r with VendorAlias := x }, st.2)
  | _ => some st

/-- Decoding the members of an object into a `Repository`, in document
order; a key that selects no field is skipped. `none` stands for a returned
error (the target of such a decode is a local that is dropped). -/
def Repository.storeMembers : List (Bytes × JValue) → Repository × List Bytes × List Bytes →
    Option (Repository × List Bytes × List Bytes)
  | [], st => some st
  | (k, v) :: rest, st =>
    match fieldIndex Repository.fieldNames k with
    | none => Repository.storeMembers rest st
    | some i =>
      match Repository.storeField i v st with
      | none => none
      | some st1 => Repository.storeMembers rest st1

/-- Decoding a parsed value into a `Repository` holding `cur`, whose slices
have no spare capacity: `null` changes nothing, an object stores its members,
anything else is a type error. -/
def storeRepository (v : JValue) (cur : Repository) : Option Repository :=
  match v with
  | .null => some cur
  | .obj kvs => (Repository.storeMembers kvs (cur, [], [])).map fun st => st.1
  | _ => none

/-- All the results of a list, when none of them is an error. -/
def allSome {α : Type} : List (Option α) → Option (List α)
  | [] => some []
  | none :: _ => none
  | some a :: rest => (allSome rest).map fun l => a :: l

/-- Go `json.Unmarshal(data, &arr)` for `var arr []Repository`: the new
`arr`, or `none` for a returned error. Every element is decoded into a zero
`Repository`. -/
def unmarshalRepositorySlice (data : Bytes) : Option (Option (List Repository)) :=
  match parseJSON data with
  | some .null => some none
  | some (.arr js) => (allSome (js.map fun j => storeRepository j Repository.zero)).map some
  | _ => none

/-- Go `json.Unmarshal(data, &m)` for `var m map[string]Repository`: the new
`m`, or `none` for a returned error. Every member is decoded into a zero
`Repository` and stored under its key, a repeated key keeping its last value. -/
def unmarshalRepositoryMap (data : Bytes) : Option (Option (GoMap Repository)) :=
  match parseJSON data with
  | some .null => some none
  | some (.obj kvs) =>
    (allSome (kvs.map fun kv => (storeRepository kv.2 Repository.zero).map fun r => (kv.1, r))).map
      fun es => some (mapOfMembers id es [])
  | _ => none

/-- Go `type Repositories []Repository`. -/
abbrev Repositories := Option (List Repository)

/-- Go `func (p *Repositories) UnmarshalJSON(bytes []byte) error`; `order`
is the order in which this run of `range m` visits the entries of the map. -/
def Repositories.UnmarshalJSON (order : GoMap Repository → List (Bytes × Repository))
    (p : Repositories) (bytes : Bytes) : Repositories × Option GoError :=
  match unmarshalRepositorySlice bytes with
  | some arr => (arr, none)
  | none =>
    match unmarshalRepositoryMap bytes with
    | some m => (some ((order (m.getD [])).map fun kv => kv.2), none)
    | none => (p, some (.new (utf8 "cannot unmarshal " ++ bytes)))

/-! ## Specification vocabulary -/

/-- `enc` is a JSON text that the parser reads as `v`, whatever follows it,
given `k` units of fuel and room for `h` more levels of nesting. -/
def ReadsAs (enc : Bytes) (v : JValue) (k h : Nat) : Prop :=
  (∃ c t, enc = c :: t ∧ isSpace c = false ∧ c ≠ 0x5D) ∧
    ∀ f d rest, k ≤ f → d + h ≤ maxNestingDepth →
      parseValue f d (enc ++ rest) = some (v, rest)

/-- The value of the last member with key `k` in a list of members in
document order. -/
def lastValue {V : Type} (k : Bytes) : List (Bytes × V) → Option V
  | [] => none
  | (k1, v) :: rest =>
    match lastValue k rest with
    | some x => some x
    | none => if k = k1 then some v else none

/-- What `Psr.UnmarshalJSON` stores for a value it accepts: the strings of
an array of strings, the one string of a string, the nil slice for `null`. -/
def psrNorm : JValue → Option (List Bytes)
  | .arr js => assertStrings js
  | .str _ s => some [s]
  | _ => none

/-- A parsed value is the JSON string with content `s`. -/
def IsJSONString (j : JValue) (s : Bytes) : Prop := ∃ raw, j = .str raw s

/-- A parsed value is the JSON array of the strings `xs`. -/
def IsJSONStrings (j : JValue) (xs : List Bytes) : Prop :=
  ∃ js, j = .arr js ∧ List.Forall₂ IsJSONString js xs

/-- A member value that `map[string]string` takes without error: a string, or
`null`, which is stored as the empty string. -/
def IsStringOrNull (j : JValue) (s : Bytes) : Prop := IsJSONString j s ∨ (j = .null ∧ s = [])

/-- A value `Psr.UnmarshalJSON` stores without error or panic. -/
def PsrAccepts (v : JValue) : Prop :=
  v = .null ∨ (∃ raw s, v = .str raw s) ∨ (∃ js xs, v = .arr js ∧ assertStrings js = some xs)

/-- How a member of a PSR object and the entry it gives are related: the
value is a JSON array of the strings of the entry, or a JSON string that is
the one string of the entry. -/
def IsPsrMember (kv : Bytes × JValue) (e : Bytes × List Bytes) : Prop :=
  kv.1 = e.1 ∧ (IsJSONStrings kv.2 e.2 ∨ ∃ s, IsJSONString kv.2 s ∧ e.2 = [s])

/-- A parsed value decodes, into a zero `Repository` and without error, to
the entry `e`. -/
def DecodesTo (j : JValue) (e : Repository) : Prop :=
  storeRepository j Repository.zero = some e

/-- The parsed form of what `json.Marshal` writes for a `[]string`: `null`
for the nil slice, else the array of its strings. -/
def psrWire : Option (List Bytes) → JValue
  | none => .null
  | some xs => .arr (xs.map fun s => .str (marshalString s) s)

/-- Every key and every string of the map is valid UTF-8. -/
def ValidPsr (pm : GoMap (Option (List Bytes))) : Prop :=
  ∀ kv ∈ pm, validUTF8 kv.1 = true ∧ ∀ xs, kv.2 = some xs → ∀ s ∈ xs, validUTF8 s = true

/-- How a member of the written object and the entry it comes from are
related: same key, and the value is the JSON array of the strings of a
non-nil sequence, `null` for the nil sequence. -/
def IsPsrWire (kv : Bytes × JValue) (e : Bytes × Option (List Bytes)) : Prop :=
  kv.1 = e.1 ∧ ((∃ xs, e.2 = some xs ∧ IsJSONStrings kv.2 xs) ∨ (e.2 = none ∧ kv.2 = .null))

/-- An ASCII letter or digit. -/
def isAlnum (b : Nat) : Bool :=
  (48 ≤ b && b ≤ 57) || (65 ≤ b && b ≤ 90) || (97 ≤ b && b ≤ 122)

/-- A value shape `Psr.UnmarshalJSON` does not support: an object, a boolean
or a number. -/
def PsrUnsupported (v : JValue) : Prop :=
  (∃ kvs, v = .obj kvs) ∨ (∃ b, v = .bool b) ∨ (∃ raw, v = .number raw)

/-- One step of `parseStr` that is followed by another: the content grows by
the encoding of one rune and the input shrinks. -/
def StrStep (f : Nat) (bs : Bytes) (t : Bytes × Bytes × Bytes) : Prop :=
  ∃ r next u, parseStr f next = some u ∧ t.2.1 = encodeRune r ++ u.2.1 ∧ t.2.2 = u.2.2 ∧
    next.length < bs.length

/-- The contents of the six quoted spellings `Bool.UnmarshalJSON` accepts. -/
def boolWords : List Bytes :=
  [utf8 "true", utf8 "True", utf8 "1", utf8 "false", utf8 "False", utf8 "0"]

/-- Go `err.Error()` where the model fixes it: the message given to
`errors.New`, and the message of a `*json.UnmarshalTypeError` raised for the
top-level value. The text of a `*json.SyntaxError` depends on where the
scanner stopped, which is not modelled: `none`. -/
def GoError.Error : GoError → Option Bytes
  | .new msg => some msg
  | .unmarshalType value type =>
    some (utf8 "json: cannot unmarshal " ++ utf8 value ++ utf8 " into Go value of type "
      ++ utf8 type)
  | .malformed => none

/-! ## `encoding/json`: writing structs -/

/-- What Go `isEmptyValue` looks at in the value of a struct field: its kind
and, by kind, its length (`none` for a nil slice or map), its value, or
whether the pointer is nil. A struct carries whether it is the zero value of
its type, which `isEmptyValue` does not look at. -/
inductive ValueShape where
  | string (len : Nat) : ValueShape
  | bool (b : Bool) : ValueShape
  | int (n : Int) : ValueShape
  | slice (len : Option Nat) : ValueShape
  | map (len : Option Nat) : ValueShape
  | pointer (isNil : Bool) : ValueShape
  | struct (isZero : Bool) : ValueShape
  deriving DecidableEq, Repr

/-- Go `isEmptyValue`: false, 0, a nil pointer, and any string, slice or map
of length zero; a struct is never empty. -/
def ValueShape.isEmptyValue : ValueShape → Bool
  | .string len => len == 0
  | .bool b => !b
  | .int n => n == 0
  | .slice len => len.getD 0 == 0
  | .map len => len.getD 0 == 0
  | .pointer isNil => isNil
  | .struct _ => false

/-- The value is the zero value of its type. -/
def ValueShape.isZero : ValueShape → Bool
  | .string len => len == 0
  | .bool b => !b
  | .int n => n == 0
  | .slice len => len.isNone
  | .map len => len.isNone
  | .pointer isNil => isNil
  | .struct isZero => isZero

/-- The type of the field is a struct. -/
def ValueShape.isStruct : ValueShape → Bool
  | .struct _ => true
  | _ => false

/-- One field of a struct value as `json.Marshal` meets it: the key and the
`omitempty` option of its tag, the shape of its value and the encoding of its
value. -/
structure StructField where
  key : Bytes
  omitEmpty : Bool
  shape : ValueShape
  enc : Bytes

/-- The fields `json.Marshal` writes: all but those tagged `omitempty` whose
value is empty. -/
def written (fs : List StructField) : List StructField :=
  fs.filter fun f => !(f.omitEmpty && f.shape.isEmptyValue)

/-- Go `json.Marshal` of a struct value with the fields `fs`, in declaration
order. -/
def marshalStruct (fs : List StructField) : Bytes :=
  0x7B :: (commaSep ((written fs).map fun f => marshalString f.key ++ 0x3A :: f.enc) ++ [0x7D])

/-- Go `json.Marshal` of a slice whose elements are written by `enc`: `null`
for the nil slice, else an array. -/
def marshalSlice {α : Type} (enc : α → Bytes) : Option (List α) → Bytes
  | none => utf8 "null"
  | some xs => 0x5B :: (commaSep (xs.map enc) ++ [0x5D])

/-- A `string` field tagged `omitempty`. -/
def StructField.string (key : String) (s : Bytes) : StructField :=
  { key := utf8 key, omitEmpty := true, shape := .string s.length, enc := marshalString s }

/-- A `Bool` field tagged `omitempty`, written by `Bool.MarshalJSON`. -/
def StructField.bool (key : String) (b : Bool) : StructField :=
  { key := utf8 key, omitEmpty := true, shape := .bool b, enc := (Bool.MarshalJSON b).1 }

/-- An `int` field tagged `omitempty`, written in decimal. -/
def StructField.int (key : String) (n : Int) : StructField :=
  { key := utf8 key, omitEmpty := true, shape := .int n, enc := utf8 (toString n) }

/-- A slice field tagged `omitempty` whose value is written as `enc`. -/
def StructField.slice {α : Type} (key : String) (xs : Option (List α)) (enc : Bytes) :
    StructField :=
  { key := utf8 key, omitEmpty := true, shape := .slice (xs.map List.length), enc := enc }

/-- A map field tagged `omitempty` whose value is written as `enc`. -/
def StructField.map {α : Type} (key : String) (m : Option (GoMap α)) (enc : Bytes) :
    StructField :=
  { key := utf8 key, omitEmpty := true, shape := .map (m.map List.length), enc := enc }

/-- A pointer field tagged `omitempty` whose value is written as `enc`. -/
def StructField.pointer {α : Type} (key : String) (p : Option α) (enc : Bytes) : StructField :=
  { key := utf8 key, omitEmpty := true, shape := .pointer p.isNone, enc := enc }

/-- A field of struct type tagged `omitempty` whose value is written as `enc`. -/
def StructField.struct (key : String) (isZero : Bool) (enc : Bytes) : StructField :=
  { key := utf8 key, omitEmpty := true, shape := .struct isZero, enc := enc }

/-! ## The records of `manifest.go` -/

/-- Go `type Author struct`. -/
structure Author where
  Name : Bytes
  Email : Bytes
  Homepage : Bytes
  Role : Bytes
  deriving DecidableEq, Repr

/-- The fields of an `Author`, from the struct tags. -/
def Author.fields (a : Author) : List StructField :=
  [.string "name" a.Name, .string "email" a.Email, .string "homepage" a.Homepage,
    .string "role" a.Role]

/-- Go `type Support struct`. -/
structure Support where
  Email : Bytes
  Homepage : Bytes
  Wiki : Bytes
  Irc : Bytes
  Source : Bytes
  Doce : Bytes
  Rss : Bytes
  Chat : Bytes
  deriving DecidableEq, Repr

/-- The fields of a `Support`, from the struct tags. -/
def Support.fields (s : Support) : List StructField :=
  [.string "email" s.Email, .string "issues" s.Homepage, .string "wiki" s.Wiki,
    .string "irc" s.Irc, .string "source" s.Source, .string "docs" s.Doce, .string "rss" s.Rss,
    .string "chat" s.Chat]

/-- The anonymous struct that is the value type of Go `type HttpBasic`. -/
structure HttpBasicEntry where
  Username : Bytes
  Password : Bytes
  deriving DecidableEq, Repr

/-- The fields of an entry of `HttpBasic`, from the struct tags. -/
def HttpBasicEntry.fields (e : HttpBasicEntry) : List StructField :=
  [.string "username" e.Username, .string "password" e.Password]

/-- Go `type HttpBasic map[string]struct`. -/
abbrev HttpBasic := Option (GoMap HttpBasicEntry)

/-- Go `type Autoload struct`. -/
structure Autoload where
  Psr0 : Psr
  Psr4 : Psr
  Classmap : Option (List Bytes)
  Files : Option (List Bytes)
  ExcludeFromClassmap : Option (List Bytes)
  deriving DecidableEq, Repr

/-- The zero value of `Autoload`. -/
def Autoload.zero : Autoload :=
  { Psr0 := none, Psr4 := none, Classmap := none, Files := none, ExcludeFromClassmap := none }

/-- The fields of an `Autoload`, from the struct tags; a `Psr` is written by
`Psr.MarshalJSON`. -/
def Autoload.fields (a : Autoload) : List StructField :=
  [.map "psr-0" a.Psr0 (Psr.MarshalJSON a.Psr0).1, .map "psr-4" a.Psr4 (Psr.MarshalJSON a.Psr4).1,
    .slice "classmap" a.Classmap (marshalStrings a.Classmap),
    .slice "files" a.Files (marshalStrings a.Files),
    .slice "exclude-from-classmap" a.ExcludeFromClassmap (marshalStrings a.ExcludeFromClassmap)]

/-- Go `type Funding struct`; its tags have no `omitempty`. -/
structure Funding where
  Type_ : Bytes
  Url : Bytes
  deriving DecidableEq, Repr

/-- The zero value of `Funding`. -/
def Funding.zero : Funding := { Type_ := [], Url := [] }

/-- The fields of a `Funding`, from the struct tags. -/
def Funding.fields (f : Funding) : List StructField :=
  [{ key := utf8 "type", omitEmpty := false, shape := .string f.Type_.length,
      enc := marshalString f.Type_ },
    { key := utf8 "url", omitEmpty := false, shape := .string f.Url.length,
      enc := marshalString f.Url }]

/-- Go `type Config struct`. -/
structure Config where
  ProcessTimeout : Int
  UseIncludePath : Bool
  PreferredInstall : ValueOrMap
  NotifyOnInstall : Bool
  GithubProtocols : Option (List Bytes)
  GithubOauth : Option (GoMap Bytes)
  GitlabOauth : Option (GoMap Bytes)
  GitlabToken : Option (GoMap Bytes)
  Bearer : Option (GoMap Bytes)
  DisableTls : Bool
  SecureHttp : Bool
  Cafile : Bytes
  Capath : Bytes
  HttpBasic : HttpBasic
  StoreAuths : BoolOrString
  Platform : Option (GoMap Bytes)
  VendorDir : Bytes
  BinDir : Bytes
  DataDir : Bytes
  CacheDir : Bytes
  CacheFilesDir : Bytes
  CacheRepoDir : Bytes
  CacheVcsDir : Bytes
  CacheTtl : Int
  CacheFilesTtl : Int
  CacheFilesMaxsize : IntString
  CacheReadOnly : Bool
  BinCompat : Bytes
  DiscardChanges : BoolOrString
  AutoloaderSuffix : Bytes
  OptimizeAutoloader : Bool
  PrependAutoloader : Bool
  ClassmapAuthoritative : Bool
  ApcuAutoloader : Bool
  GithubDomains : Option (List Bytes)
  GithubExposeHostname : Bool
  GitlabDomains : Option (List Bytes)
  UseGithubApi : Bool
  ArchiveFormat : Bytes
  ArchiveDir : Bytes
  HtaccessProtect : Bool
  SortPackages : Bool
  Lock : Bool
  PlatformCheck : BoolOrString
  deriving DecidableEq

/-- The zero value of `Config`. -/
def Config.zero : Config :=
  { ProcessTimeout := 0, UseIncludePath := false, PreferredInstall := { Value := [], Map := none },
    NotifyOnInstall := false, GithubProtocols := none, GithubOauth := none, GitlabOauth := none,
    GitlabToken := none, Bearer := none, DisableTls := false, SecureHttp := false, Cafile := [],
    Capath := [], HttpBasic := none, StoreAuths := { Bool := false, String := [] },
    Platform := none, VendorDir := [], BinDir := [], DataDir := [], CacheDir := [],
    CacheFilesDir := [], CacheRepoDir := [], CacheVcsDir := [], CacheTtl := 0,
    CacheFilesTtl := 0, CacheFilesMaxsize := [], CacheReadOnly := false, BinCompat := [],
    DiscardChanges := { Bool := false, String := [] }, AutoloaderSuffix := [],
    OptimizeAutoloader := false, PrependAutoloader := false, ClassmapAuthoritative := false,
    ApcuAutoloader := false, GithubDomains := none, GithubExposeHostname := false,
    GitlabDomains := none, UseGithubApi := false, ArchiveFormat := [], ArchiveDir := [],
    HtaccessProtect := false, SortPackages := false, Lock := false,
    PlatformCheck := { Bool := false, String := [] } }

/-- A `map[string]string` field tagged `omitempty`. -/
def StructField.stringMap (key : String) (m : Option (GoMap Bytes)) : StructField :=
  .map key m (marshalMap marshalString m)

/-- A `[]string` field tagged `omitempty`. -/
def StructField.strings (key : String) (xs : Option (List Bytes)) : StructField :=
  .slice key xs (marshalStrings xs)

/-- A `BoolOrString` field tagged `omitempty`, written by
`BoolOrString.MarshalJSON`. -/
def StructField.boolOrString (key : String) (bs : BoolOrString) : StructField :=
  .struct key (decide (bs = { Bool := false, String := [] })) (BoolOrString.MarshalJSON bs).1

/-- The fields of a `Config`, from the struct tags, in declaration order. A
`ValueOrMap` is written by `ValueOrMap.MarshalJSON` and an `IntString` by
`IntString.MarshalJSON`. -/
def Config.fields (c : Config) : List StructField :=
  [.int "process-timeout" c.ProcessTimeout,
    .bool "use-include-path" c.UseIncludePath,
    .struct "preferred-install" (decide (c.PreferredInstall = { Value := [], Map := none }))
      (ValueOrMap.MarshalJSON c.PreferredInstall).1,
    .bool "notify-on-install" c.NotifyOnInstall,
    .strings "github-protocols" c.GithubProtocols,
    .stringMap "github-oauth" c.GithubOauth,
    .stringMap "gitlab-oauth" c.GitlabOauth,
    .stringMap "gitlab-token" c.GitlabToken,
    .stringMap "bearer" c.Bearer,
    .bool "disable-tls" c.DisableTls,
    .bool "secure-http" c.SecureHttp,
    .string "cafile" c.Cafile,
    .string "capath" c.Capath,
    .map "http-basic" c.HttpBasic
      (marshalMap (fun e => marshalStruct (HttpBasicEntry.fields e)) c.HttpBasic),
    .boolOrString "store-auths" c.StoreAuths,
    .stringMap "platform" c.Platform,
    .string "vendor-dir" c.VendorDir,
    .string "bin-dir" c.BinDir,
    .string "data-dir" c.DataDir,
    .string "cache-dir" c.CacheDir,
    .string "cache-files-dir" c.CacheFilesDir,
    .string "cache-repo-dir" c.CacheRepoDir,
    .string "cache-vcs-dir" c.CacheVcsDir,
    .int "cache-ttl" c.CacheTtl,
    .int "cache-files-ttl" c.CacheFilesTtl,
    { key := utf8 "cache-files-maxsize", omitEmpty := true,
      shape := .string c.CacheFilesMaxsize.length,
      enc := (IntString.MarshalJSON c.CacheFilesMaxsize).1 },
    .bool "cache-read-only" c.CacheReadOnly,
    .string "bin-compat" c.BinCompat,
    .boolOrString "discard-changes" c.DiscardChanges,
    .string "autoloader-suffix" c.AutoloaderSuffix,
    .bool "optimize-autoloader" c.OptimizeAutoloader,
    .bool "prepend-autoloader" c.PrependAutoloader,
    .bool "classmap-authoritative" c.ClassmapAuthoritative,
    .bool "apcu-autoloader" c.ApcuAutoloader,
    .strings "github-domains" c.GithubDomains,
    .bool "github-expose-hostname" c.GithubExposeHostname,
    .strings "gitlab-domains" c.GitlabDomains,
    .bool "use-github-api" c.UseGithubApi,
    .string "archive-format" c.ArchiveFormat,
    .string "archive-dir" c.ArchiveDir,
    .bool "htaccess-protect" c.HtaccessProtect,
    .bool "sort-packages" c.SortPackages,
    .bool "lock" c.Lock,
    .boolOrString "platform-check" c.PlatformCheck]

/-- Go `json.Marshal` of a `*BoolOrString`: `null` for the nil pointer, else
what `BoolOrString.MarshalJSON` gives. -/
def marshalBoolOrStringPtr : Option BoolOrString → Bytes
  | none => utf8 "null"
  | some bs => (BoolOrString.MarshalJSON bs).1

/-- The fields of a `Repository`, from the struct tags, in declaration order.
How `json.Marshal` writes a generic value of the options is not modelled:
`encAny` stands for it. -/
def Repository.fields (encAny : JValue → Bytes) (r : Repository) : List StructField :=
  [.string "type" r.Type_,
    .string "url" r.Url,
    .bool "canonical" r.Canonical,
    .strings "only" r.Only,
    .strings "exclude" r.Exclude,
    .map "options" r.Options (marshalMap encAny r.Options),
    .bool "allow_ssl_downgrade" r.AllowSslDowngrade,
    .bool "force-lazy-providers" r.ForceLazyProviders,
    .bool "no-api" r.NoApi,
    .bool "secure-http" r.SecureHttp,
    .bool "svn-cache-credentials" r.SvnCacheCredentials,
    .pointer "trunk-path" r.TrunkPath (marshalBoolOrStringPtr r.TrunkPath),
    .pointer "branches-path" r.BranchesPath (marshalBoolOrStringPtr r.BranchesPath),
    .pointer "tags-path" r.TagsPath (marshalBoolOrStringPtr r.TagsPath),
    .string "package-path" r.PackagePath,
    .string "depot" r.Depot,
    .string "branch" r.Branch,
    .string "unique_perforce_client_name" r.UniquePerforceClientName,
    .string "p4user" r.P4user,
    .string "p4password" r.P4password,
    .string "vendor-alias" r.VendorAlias]

/-- Go `func (p Repositories) MarshalJSON() ([]byte, error)`. -/
def Repositories.MarshalJSON (encAny : JValue → Bytes) (p : Repositories) :
    Bytes × Option GoError :=
  (marshalSlice (fun r => marshalStruct (Repository.fields encAny r)) p, none)

/-- Go `type Manifest struct`. -/
structure Manifest where
  Name : Bytes
  Type_ : Bytes
  TargetDir : Bytes
  Description : Bytes
  Keywords : Option (List Bytes)
  Homepage : Bytes
  Readme : Bytes
  Version : Bytes
  Time : Option (List Bytes)
  License : StringOrStrings
  Authors : Option (List Author)
  Require : Option (GoMap Bytes)
  Replace : Option (GoMap Bytes)
  Conflict : Option (GoMap Bytes)
  Provide : Option (GoMap Bytes)
  RequireDev : Option (GoMap Bytes)
  Suggest : Option (GoMap Bytes)
  Config : Config
  Autoload : Autoload
  AutoloadDev : Composer.Autoload
  Archive : Option (GoMap ValueOrMap)
  Repositories : Repositories
  MinimumStability : Bytes
  PreferStable : Bool
  Bin : StringOrStrings
  IncludePath : Option (List Bytes)
  Scripts : Option (GoMap StringOrStrings)
  ScriptsDescriptions : Option (GoMap Bytes)
  Support : Option (List Support)
  Funding : Funding
  NonFeatureBranches : Option (List Bytes)
  DefaultBranch : Bool
  Abandoned : BoolOrString
  Comment : StringOrStrings

/-- The zero value of `Manifest`. -/
def Manifest.zero : Manifest :=
  { Name := [], Type_ := [], TargetDir := [], Description := [], Keywords := none,
    Homepage := [], Readme := [], Version := [], Time := none, License := none,
    Authors := none, Require := none, Replace := none, Conflict := none, Provide := none,
    RequireDev := none, Suggest := none, Config := Config.zero, Autoload := Autoload.zero,
    AutoloadDev := Autoload.zero, Archive := none, Repositories := none,
    MinimumStability := [], PreferStable := false, Bin := none, IncludePath := none,
    Scripts := none, ScriptsDescriptions := none, Support := none, Funding := Funding.zero,
    NonFeatureBranches := none, DefaultBranch := false,
    Abandoned := { Bool := false, String := [] }, Comment := none }

/-- The fields of a `Manifest`, from the struct tags, in declaration order.
The adapters are written by their `MarshalJSON`, the nested records field by
field. -/
def Manifest.fields (encAny : JValue → Bytes) (m : Manifest) : List StructField :=
  [.string "name" m.Name,
    .string "type" m.Type_,
    .string "target-dir" m.TargetDir,
    .string "description" m.Description,
    .strings "keywords" m.Keywords,
    .string "homepage" m.Homepage,
    .string "readme" m.Readme,
    .string "version" m.Version,
    .strings "time" m.Time,
    .slice "license" m.License (StringOrStrings.MarshalJSON m.License).1,
    .slice "authors" m.Authors (marshalSlice (fun a => marshalStruct (Author.fields a)) m.Authors),
    .stringMap "require" m.Require,
    .stringMap "replace" m.Replace,
    .stringMap "conflict" m.Conflict,
    .stringMap "provide" m.Provide,
    .stringMap "require-dev" m.RequireDev,
    .stringMap "suggest" m.Suggest,
    .struct "config" (decide (m.Config = Config.zero)) (marshalStruct (Config.fields m.Config)),
    .struct "autoload" (decide (m.Autoload = Autoload.zero))
      (marshalStruct (Autoload.fields m.Autoload)),
    .struct "autoload-dev" (decide (m.AutoloadDev = Autoload.zero))
      (marshalStruct (Autoload.fields m.AutoloadDev)),
    .map "archive" m.Archive (marshalMap (fun v => (ValueOrMap.MarshalJSON v).1) m.Archive),
    .slice "repositories" m.Repositories (Repositories.MarshalJSON encAny m.Repositories).1,
    .string "minimum-stability" m.MinimumStability,
    .bool "prefer-stable" m.PreferStable,
    .slice "bin" m.Bin (StringOrStrings.MarshalJSON m.Bin).1,
    .strings "include-path" m.IncludePath,
    .map "scripts" m.Scripts (marshalMap (fun l => (StringOrStrings.MarshalJSON l).1) m.Scripts),
    .stringMap "scripts-descriptions" m.ScriptsDescriptions,
    .slice "support" m.Support (marshalSlice (fun s => marshalStruct (Support.fields s)) m.Support),
    .struct "funding" (decide (m.Funding = Funding.zero))
      (marshalStruct (Funding.fields m.Funding)),
    .strings "non-feature-branches" m.NonFeatureBranches,
    .bool "default-branch" m.DefaultBranch,
    .boolOrString "abandoned" m.Abandoned,
    .slice "_comment" m.Comment (StringOrStrings.MarshalJSON m.Comment).1]

/-- Go `json.Marshal(m)` for a `Manifest`. -/
def marshalManifest (encAny : JValue → Bytes) (m : Manifest) : Bytes :=
  marshalStruct (Manifest.fields encAny m)

/-- The value of one field of a `Repository`, by the kind of the field. -/
inductive EntryValue where
  | string (s : Bytes) : EntryValue
  | bool (b : Bool) : EntryValue
  | strings (xs : Option (List Bytes)) : EntryValue
  | options (m : Option (GoMap JValue)) : EntryValue
  | path (p : Option BoolOrString) : EntryValue

/-- The fields of an entry under their JSON names, in declaration order. -/
def Repository.values (e : Repository) : List (Bytes × EntryValue) :=
  [(utf8 "type", .string e.Type_),
    (utf8 "url", .string e.Url),
    (utf8 "canonical", .bool e.Canonical),
    (utf8 "only", .strings e.Only),
    (utf8 "exclude", .strings e.Exclude),
    (utf8 "options", .options e.Options),
    (utf8 "allow_ssl_downgrade", .bool e.AllowSslDowngrade),
    (utf8 "force-lazy-providers", .bool e.ForceLazyProviders),
    (utf8 "no-api", .bool e.NoApi),
    (utf8 "secure-http", .bool e.SecureHttp),
    (utf8 "svn-cache-credentials", .bool e.SvnCacheCredentials),
    (utf8 "trunk-path", .path e.TrunkPath),
    (utf8 "branches-path", .path e.BranchesPath),
    (utf8 "tags-path", .path e.TagsPath),
    (utf8 "package-path", .string e.PackagePath),
    (utf8 "depot", .string e.Depot),
    (utf8 "branch", .string e.Branch),
    (utf8 "unique_perforce_client_name", .string e.UniquePerforceClientName),
    (utf8 "p4user", .string e.P4user),
    (utf8 "p4password", .string e.P4password),
    (utf8 "vendor-alias", .string e.VendorAlias)]

/-- The JSON value `j` spells out the value of a field: a string as a JSON
string, a boolean as `true` or `false`, a sequence as an array of strings,
the options as an object whose numbers `float64` can hold, and a path that is
a boolean with no string as that boolean, a path that is a string with a
false boolean as a JSON string (`raw` being its literal) other than the
spellings `Bool` accepts. -/
def SpellsOut (j : JValue) : EntryValue → Prop
  | .string s => IsJSONString j s
  | .bool b => j = .bool b
  | .strings xs => ∃ ys, xs = some ys ∧ IsJSONStrings j ys
  | .options m =>
    ∃ kvs, j = .obj kvs ∧ badNumberMembers kvs = none ∧ m = some (mapOfMembers id kvs [])
  | .path p =>
    ∃ bs, p = some bs ∧
      ((j = .bool bs.Bool ∧ bs.String = []) ∨
        (bs.Bool = false ∧ ∃ raw, j = .str raw bs.String ∧
          parseJSON raw = some (.str raw bs.String) ∧ raw ∉ trueTokens ∧ raw ∉ falseTokens))

/-- The JSON value `j` spells out the entry `e`: it is an object with
distinct keys, each key the JSON name of a field and its value spelling out
the value of that field in `e`; a field that the object does not name holds
its zero value in `e`. -/
def IsEntry (j : JValue) (e : Repository) : Prop :=
  ∃ kvs, j = .obj kvs ∧ (kvs.map Prod.fst).Nodup ∧
    (∀ kv ∈ kvs, ∃ v, (kv.1, v) ∈ e.values ∧ SpellsOut kv.2 v) ∧
    (∀ kv ∈ e.values, kv.1 ∉ kvs.map Prod.fst → kv ∈ Repository.zero.values)

/-! ## Reading back what `json.Marshal` writes -/

theorem decodeRune_split (b : Nat) (t : Bytes) (hb : 0x80 ≤ b)
    (h : (decodeRune (b :: t)).2 ≠ 1) :
    ∃ pre post, t = pre ++ post ∧ pre.length + 1 = (decodeRune (b :: t)).2 ∧
      ∀ tail, decodeRune (b :: (pre ++ tail)) = decodeRune (b :: t) := by
  have hb' : ¬ b < 0x80 := by omega
  by_cases h2 : 0xC2 ≤ b ∧ b ≤ 0xDF
  · rcases t with _ | ⟨b1, t⟩
    · simp [decodeRune, hb', h2] at h
    · by_cases c1 : isCont b1 = true
      · exact ⟨[b1], t, rfl, by simp [decodeRune, hb', h2, c1], fun tail => by
          simp [decodeRune, hb', h2, c1]⟩
      · simp [decodeRune, hb', h2, c1] at h
  · by_cases h3 : 0xE0 ≤ b ∧ b ≤ 0xEF
    · rcases t with _ | ⟨b1, _ | ⟨b2, t⟩⟩
      · simp [decodeRune, hb', h2, h3] at h
      · simp [decodeRune, hb', h2, h3] at h
      · by_cases c : (if b = 0xE0 then 0xA0 else 0x80) ≤ b1 ∧
            b1 ≤ (if b = 0xED then 0x9F else 0xBF) ∧ isCont b2 = true
        · exact ⟨[b1, b2], t, rfl, by simp [decodeRune, hb', h2, h3, c], fun tail => by
            simp [decodeRune, hb', h2, h3, c]⟩
        · simp [decodeRune, hb', h2, h3, c] at h
    · by_cases h4 : 0xF0 ≤ b ∧ b ≤ 0xF4
      · rcases t with _ | ⟨b1, _ | ⟨b2, _ | ⟨b3, t⟩⟩⟩
        · simp [decodeRune, hb', h2, h3, h4] at h
        · simp [decodeRune, hb', h2, h3, h4] at h
        · simp [decodeRune, hb', h2, h3, h4] at h
        · by_cases c : (if b = 0xF0 then 0x90 else 0x80) ≤ b1 ∧
              b1 ≤ (if b = 0xF4 then 0x8F else 0xBF) ∧ isCont b2 = true ∧ isCont b3 = true
          · exact ⟨[b1, b2, b3], t, rfl, by simp [decodeRune, hb', h2, h3, h4, c], fun tail => by
              simp [decodeRune, hb', h2, h3, h4, c]⟩
          · simp [decodeRune, hb', h2, h3, h4, c] at h
      · simp [decodeRune, hb', h2, h3, h4] at h

theorem encodeRune_decodeRune (b : Nat) (t : Bytes) (hb : 0x80 ≤ b)
    (h : (decodeRune (b :: t)).2 ≠ 1) :
    encodeRune (decodeRune (b :: t)).1 = (b :: t).take (decodeRune (b :: t)).2 := by
  have hb' : ¬ b < 0x80 := by omega
  by_cases h2 : 0xC2 ≤ b ∧ b ≤ 0xDF
  · rcases t with _ | ⟨b1, t⟩
    · simp [decodeRune, hb', h2] at h
    · by_cases c1 : isCont b1 = true
      · simp only [decodeRune, hb', h2, c1, if_true, if_false, and_self]
        simp only [isCont, Bool.and_eq_true, decide_eq_true_eq] at c1
        simp only [encodeRune, List.take_succ_cons, List.take_zero]
        split_ifs <;> first | omega | (simp only [List.cons.injEq, and_true]; omega)
      · simp [decodeRune, hb', h2, c1] at h
  · by_cases h3 : 0xE0 ≤ b ∧ b ≤ 0xEF
    · rcases t with _ | ⟨b1, _ | ⟨b2, t⟩⟩
      · simp [decodeRune, hb', h2, h3] at h
      · simp [decodeRune, hb', h2, h3] at h
      · by_cases c : (if b = 0xE0 then 0xA0 else 0x80) ≤ b1 ∧
            b1 ≤ (if b = 0xED then 0x9F else 0xBF) ∧ isCont b2 = true
        · simp only [decodeRune, hb', h2, h3, c, if_true, if_false, and_self]
          simp only [isCont, Bool.and_eq_true, decide_eq_true_eq] at c
          simp only [encodeRune, List.take_succ_cons, List.take_zero]
          split_ifs at c <;> split_ifs <;>
            first | omega | (simp only [List.cons.injEq, and_true]; omega)
        · simp [decodeRune, hb', h2, h3, c] at h
    · by_cases h4 : 0xF0 ≤ b ∧ b ≤ 0xF4
      · rcases t with _ | ⟨b1, _ | ⟨b2, _ | ⟨b3, t⟩⟩⟩
        · simp [decodeRune, hb', h2, h3, h4] at h
        · simp [decodeRune, hb', h2, h3, h4] at h
        · simp [decodeRune, hb', h2, h3, h4] at h
        · by_cases c : (if b = 0xF0 then 0x90 else 0x80) ≤ b1 ∧
              b1 ≤ (if b = 0xF4 then 0x8F else 0xBF) ∧ isCont b2 = true ∧ isCont b3 = true
          · simp only [decodeRune, hb', h2, h3, h4, c, if_true, if_false, and_self]
            simp only [isCont, Bool.and_eq_true, decide_eq_true_eq] at c
            simp only [encodeRune, List.take_succ_cons, List.take_zero]
            split_ifs at c <;> split_ifs <;>
              first | omega | (simp only [List.cons.injEq, and_true]; omega)
          · simp [decodeRune, hb', h2, h3, h4, c] at h
      · simp [decodeRune, hb', h2, h3, h4] at h

theorem parseStr_quoteByte (b : Nat) (hb : b < 0x80) (f : Nat) (tail : Bytes) :
    parseStr (f + 1) (quoteByte b ++ tail)
      = (parseStr f tail).map fun t => (quoteByte b ++ t.1, b :: t.2.1, t.2.2) := by
  interval_cases b <;> rfl

theorem quoteByte_length_pos (b : Nat) : 0 < (quoteByte b).length := by
  unfold quoteByte; split_ifs <;> simp

theorem parseStr_multibyte (b : Nat) (pre tail : Bytes) (f : Nat) (hb : 0x80 ≤ b)
    (h1 : (decodeRune (b :: (pre ++ tail))).2 = pre.length + 1) (hp : pre ≠ []) :
    parseStr (f + 1) (b :: (pre ++ tail))
      = (parseStr f tail).map fun t => (b :: (pre ++ t.1), b :: (pre ++ t.2.1), t.2.2) := by
  have hl : 0 < pre.length := List.length_pos.mpr hp
  have e1 : ¬ b = 0x22 := by omega
  have e2 : ¬ b < 0x20 := by omega
  have e3 : ¬ b = 0x5C := by omega
  have e4 : ¬ b < 0x80 := by omega
  have e5 : ¬ pre.length + 1 = 1 := by omega
  simp only [parseStr, e1, e2, e3, e4, h1, e5, if_false, Nat.add_sub_cancel,
    List.drop_left, List.take_succ_cons, List.take_left]
  simp

theorem parseStr_linesep (r : Nat) (hr : r = 0x2028 ∨ r = 0x2029) (tail : Bytes) (f : Nat) :
    parseStr (f + 1) ([0x5C, 0x75, 0x32, 0x30, 0x32, hexDigit (r % 16)] ++ tail)
      = (parseStr f tail).map fun t =>
          ([0x5C, 0x75, 0x32, 0x30, 0x32, hexDigit (r % 16)] ++ t.1, encodeRune r ++ t.2.1, t.2.2) := by
  rcases hr with rfl | rfl <;> rfl

theorem parseStr_appendString (n : Nat) : ∀ (s : Bytes), validRunes n s = true →
    ∀ (f : Nat) (rest : Bytes), (appendString n s).length < f →
      parseStr f (appendString n s ++ 0x22 :: rest) = some (appendString n s ++ [0x22], s, rest) := by
  induction n with
  | zero =>
    intro s hv f rest hf
    cases s with
    | nil =>
      obtain ⟨f, rfl⟩ : ∃ g, f = g + 1 := ⟨f - 1, by omega⟩
      simp [appendString, parseStr]
    | cons b t => simp [validRunes] at hv
  | succ n ih =>
    intro s hv f rest hf
    cases s with
    | nil =>
      obtain ⟨f, rfl⟩ : ∃ g, f = g + 1 := ⟨f - 1, by omega⟩
      simp [appendString, parseStr]
    | cons b t =>
      obtain ⟨f, rfl⟩ : ∃ g, f = g + 1 := ⟨f - 1, by omega⟩
      by_cases hb : b < 0x80
      · simp only [validRunes, hb, if_true] at hv
        simp only [appendString, hb, if_true, List.length_append] at hf ⊢
        have := quoteByte_length_pos b
        rw [List.append_assoc, parseStr_quoteByte b hb, ih t hv f rest (by omega)]
        simp
      · simp only [validRunes, hb, if_false] at hv
        have hsz : (decodeRune (b :: t)).2 ≠ 1 := by
          intro h; simp [h] at hv
        simp only [hsz, if_false] at hv
        obtain ⟨pre, post, rfl, hlen, hdec⟩ := decodeRune_split b t (by omega) hsz
        have hdrop : List.drop ((decodeRune (b :: (pre ++ post))).2 - 1) (pre ++ post) = post := by
          rw [← hlen]; simp
        have htake : List.take (decodeRune (b :: (pre ++ post))).2 (b :: (pre ++ post)) = b :: pre := by
          rw [← hlen]; simp
        have hpre : pre ≠ [] := by
          intro h; subst h; simp at hlen; exact hsz hlen.symm
        rw [hdrop] at hv
        simp only [appendString, hb, if_false, hsz, hdrop, htake] at hf ⊢
        by_cases hl : (decodeRune (b :: (pre ++ post))).1 = 0x2028 ∨
            (decodeRune (b :: (pre ++ post))).1 = 0x2029
        · simp only [hl, if_true, List.length_append] at hf ⊢
          rw [List.append_assoc, parseStr_linesep _ hl, ih post hv f rest (by simp at hf; omega),
            encodeRune_decodeRune b _ (by omega) hsz, htake]
          simp
        · simp only [hl, if_false, List.length_append] at hf ⊢
          have h1 : (decodeRune (b :: (pre ++ (appendString n post ++ 0x22 :: rest)))).2
              = pre.length + 1 := by rw [hdec, hlen]
          have e : (b :: pre) ++ appendString n post ++ 0x22 :: rest
              = b :: (pre ++ (appendString n post ++ 0x22 :: rest)) := by simp
          rw [e, parseStr_multibyte b pre _ f (by omega) h1 hpre,
            ih post hv f rest (by simp at hf; omega)]
          simp

theorem skipWs_cons (c : Nat) (t : Bytes) (h : isSpace c = false) : skipWs (c :: t) = c :: t := by
  simp [skipWs, h]

theorem ReadsAs.skipWs_eq {enc : Bytes} {v : JValue} {k h : Nat} (hr : ReadsAs enc v k h)
    (rest : Bytes) : skipWs (enc ++ rest) = enc ++ rest := by
  obtain ⟨⟨c, t, rfl, hc, _⟩, _⟩ := hr
  exact skipWs_cons c _ hc

theorem ReadsAs.mono {enc : Bytes} {v : JValue} {k h k1 h1 : Nat} (hr : ReadsAs enc v k h)
    (hk : k ≤ k1) (hh : h ≤ h1) : ReadsAs enc v k1 h1 :=
  ⟨hr.1, fun f d rest hf hd => hr.2 f d rest (by omega) (by omega)⟩

theorem appendString_length_lt (s rest : Bytes) :
    (appendString s.length s).length < (appendString s.length s ++ 0x22 :: rest).length := by
  simp

theorem readsAs_marshalString (s : Bytes) (hs : validUTF8 s = true) :
    ReadsAs (marshalString s) (.str (marshalString s) s) 1 0 := by
  refine ⟨⟨0x22, _, rfl, by decide, by decide⟩, fun f d rest hf _ => ?_⟩
  obtain ⟨f, rfl⟩ : ∃ g, f = g + 1 := ⟨f - 1, by omega⟩
  have e : marshalString s ++ rest = 0x22 :: (appendString s.length s ++ 0x22 :: rest) := by
    simp [marshalString]
  rw [e]
  simp only [parseValue, if_true]
  rw [parseStr_appendString s.length s hs _ rest (appendString_length_lt s rest)]
  simp [marshalString]

theorem readsAs_null : ReadsAs (utf8 "null") .null 1 0 := by
  refine ⟨⟨0x6E, _, rfl, by decide, by decide⟩, fun f d rest hf _ => ?_⟩
  obtain ⟨f, rfl⟩ : ∃ g, f = g + 1 := ⟨f - 1, by omega⟩
  rfl

theorem commaSep_cons_cons (x y : Bytes) (l : List Bytes) :
    commaSep (x :: y :: l) = x ++ 0x2C :: commaSep (y :: l) := rfl

theorem commaSep_head (x : Bytes) (l : List Bytes) : ∃ t, commaSep (x :: l) = x ++ t := by
  cases l with
  | nil => exact ⟨[], by simp [commaSep]⟩
  | cons y l => exact ⟨_, commaSep_cons_cons x y l⟩

/-- The elements of an array are read back one by one. -/
theorem parseElems_commaSep {V : Type} (enc : V → Bytes) (dec : V → JValue) (K h : Nat)
    (xs : List V) (hx : ∀ x ∈ xs, ReadsAs (enc x) (dec x) K h) (hne : xs ≠ []) :
    ∀ f d rest, K + xs.length ≤ f → d + h ≤ maxNestingDepth →
      parseElems f d (commaSep (xs.map enc) ++ 0x5D :: rest) = some (xs.map dec, rest) := by
  induction xs with
  | nil => exact absurd rfl hne
  | cons x xs ih =>
    intro f d rest hf hd
    obtain ⟨f, rfl⟩ : ∃ g, f = g + 1 := ⟨f - 1, by simp at hf; omega⟩
    have hx0 := hx x (List.mem_cons_self _ _)
    cases xs with
    | nil =>
      simp only [List.map_cons, List.map_nil, commaSep, parseElems]
      rw [hx0.2 f d _ (by simp at hf; omega) hd]
      simp [skipWs, isSpace]
    | cons y ys =>
      have ih1 := ih (fun z hz => hx z (List.mem_cons_of_mem _ hz)) (by simp) f d rest
        (by simp at hf ⊢; omega) hd
      have hy := hx y (by simp)
      obtain ⟨t, ht⟩ := commaSep_head (enc y) (ys.map enc)
      have hsk : skipWs (commaSep (List.map enc (y :: ys)) ++ 0x5D :: rest)
          = commaSep (List.map enc (y :: ys)) ++ 0x5D :: rest := by
        rw [List.map_cons, ht, List.append_assoc]; exact hy.skipWs_eq _
      simp only [List.map_cons, commaSep_cons_cons, parseElems, List.append_assoc,
        List.cons_append]
      rw [hx0.2 f d _ (by simp at hf; omega) hd]
      simp only [skipWs, isSpace]
      simp only [List.map_cons] at hsk ih1
      simp [hsk, ih1]

theorem parseMembers_step (k e : Bytes) (v : JValue) (K h f d : Nat) (tail : Bytes)
    (hk : validUTF8 k = true) (hv : ReadsAs e v K h) (hf : K ≤ f)
    (hd : d + h ≤ maxNestingDepth) :
    parseMembers (f + 1) d (marshalString k ++ 0x3A :: (e ++ tail)) =
      match skipWs tail with
      | [] => none
      | c2 :: r3 =>
        if c2 = 0x7D then some ([(k, v)], r3)
        else if c2 = 0x2C then
          (parseMembers f d (skipWs r3)).map fun t => ((k, v) :: t.1, t.2)
        else none := by
  have e1 : marshalString k ++ 0x3A :: (e ++ tail)
      = 0x22 :: (appendString k.length k ++ 0x22 :: (0x3A :: (e ++ tail))) := by
    simp [marshalString]
  rw [e1]
  simp only [parseMembers, if_true]
  rw [parseStr_appendString k.length k hk _ _ (appendString_length_lt k _)]
  simp only [skipWs, isSpace]
  simp only [Nat.reduceEqDiff, decide_False, Bool.or_self, if_false, Bool.false_eq_true, if_true]
  rw [hv.skipWs_eq, hv.2 f d tail hf hd]
  try rfl

/-- The members of an object are read back one by one. -/
theorem parseMembers_commaSep {V : Type} (enc : V → Bytes) (dec : V → JValue) (K h : Nat)
    (ms : List (Bytes × V))
    (hm : ∀ kv ∈ ms, validUTF8 kv.1 = true ∧ ReadsAs (enc kv.2) (dec kv.2) K h) (hne : ms ≠ []) :
    ∀ f d rest, K + ms.length ≤ f → d + h ≤ maxNestingDepth →
      parseMembers f d
          (commaSep (ms.map fun kv => marshalString kv.1 ++ 0x3A :: enc kv.2) ++ 0x7D :: rest)
        = some (ms.map fun kv => (kv.1, dec kv.2), rest) := by
  induction ms with
  | nil => exact absurd rfl hne
  | cons x xs ih =>
    intro f d rest hf hd
    obtain ⟨f, rfl⟩ : ∃ g, f = g + 1 := ⟨f - 1, by simp at hf; omega⟩
    obtain ⟨hk, hv⟩ := hm x (List.mem_cons_self _ _)
    cases xs with
    | nil =>
      have e : commaSep (List.map (fun kv => marshalString kv.1 ++ 0x3A :: enc kv.2) [x])
          ++ 0x7D :: rest = marshalString x.1 ++ 0x3A :: (enc x.2 ++ 0x7D :: rest) := by
        simp [commaSep]
      rw [e, parseMembers_step x.1 _ _ K h f d _ hk hv (by simp at hf; omega) hd]
      simp [skipWs, isSpace]
    | cons y ys =>
      have ih1 := ih (fun z hz => hm z (List.mem_cons_of_mem _ hz)) (by simp) f d rest
        (by simp at hf ⊢; omega) hd
      have e : commaSep (List.map (fun kv => marshalString kv.1 ++ 0x3A :: enc kv.2) (x :: y :: ys))
          ++ 0x7D :: rest = marshalString x.1 ++ 0x3A :: (enc x.2 ++ 0x2C ::
            (commaSep (List.map (fun kv => marshalString kv.1 ++ 0x3A :: enc kv.2) (y :: ys))
              ++ 0x7D :: rest)) := by
        simp [commaSep_cons_cons]
      have hsk : skipWs (commaSep (List.map (fun kv => marshalString kv.1 ++ 0x3A :: enc kv.2)
            (y :: ys)) ++ 0x7D :: rest)
          = commaSep (List.map (fun kv => marshalString kv.1 ++ 0x3A :: enc kv.2) (y :: ys))
              ++ 0x7D :: rest := by
        rw [List.map_cons]
        obtain ⟨t, ht⟩ := commaSep_head (marshalString y.1 ++ 0x3A :: enc y.2)
          (ys.map fun kv => marshalString kv.1 ++ 0x3A :: enc kv.2)
        rw [ht]
        exact skipWs_cons 0x22 _ (by decide)
      rw [e, parseMembers_step x.1 _ _ K h f d _ hk hv (by simp at hf; omega) hd]
      simp only [skipWs, isSpace]
      simp only [Nat.reduceEqDiff, decide_False, Bool.or_self, if_false, Bool.false_eq_true,
        if_true, decide_True]
      rw [hsk, ih1]
      simp

theorem readsAs_array {V : Type} (enc : V → Bytes) (dec : V → JValue) (K h : Nat)
    (xs : List V) (hx : ∀ x ∈ xs, ReadsAs (enc x) (dec x) K h) :
    ReadsAs (0x5B :: (commaSep (xs.map enc) ++ [0x5D])) (.arr (xs.map dec))
      (K + xs.length + 1) (h + 1) := by
  refine ⟨⟨0x5B, _, rfl, by decide, by decide⟩, fun f d rest hf hd => ?_⟩
  obtain ⟨f, rfl⟩ : ∃ g, f = g + 1 := ⟨f - 1, by omega⟩
  have hdepth : ¬ maxNestingDepth ≤ d := by omega
  cases xs with
  | nil => simp [parseValue, hdepth, commaSep, skipWs, isSpace]
  | cons x xs =>
    obtain ⟨t, ht⟩ := commaSep_head (enc x) (xs.map enc)
    obtain ⟨⟨c, t1, hc, hsp, hc5⟩, _⟩ := hx x (List.mem_cons_self _ _)
    have e : 0x5B :: (commaSep (List.map enc (x :: xs)) ++ [0x5D]) ++ rest
        = 0x5B :: (c :: (t1 ++ t ++ 0x5D :: rest)) := by
      rw [List.map_cons, ht, hc]; simp
    have e2 : c :: (t1 ++ t ++ 0x5D :: rest)
        = commaSep (List.map enc (x :: xs)) ++ 0x5D :: rest := by
      rw [List.map_cons, ht, hc]; simp
    rw [e]
    simp only [parseValue, skipWs, hsp, hdepth, hc5, if_false, Bool.false_eq_true]
    simp only [Nat.reduceEqDiff, if_false]
    rw [e2, parseElems_commaSep enc dec K h (x :: xs) hx (by simp) f (d + 1) rest
      (by simp at hf ⊢; omega) (by omega)]
    simp

theorem parseJSON_of_readsAs {enc : Bytes} {v : JValue} {k h : Nat} (hr : ReadsAs enc v k h)
    (hk : k ≤ 2 * enc.length + 2) (hh : h ≤ maxNestingDepth) : parseJSON enc = some v := by
  have h1 := hr.skipWs_eq []
  have h2 := hr.2 (2 * enc.length + 2) 0 [] hk (by omega)
  simp only [List.append_nil] at h1 h2
  simp [parseJSON, h1, h2, skipWs]

/-! ## Go maps -/

theorem keyLt_irrefl (a : Bytes) : keyLt a a = false := by
  induction a with
  | nil => rfl
  | cons x xs ih => simp [keyLt, ih]

theorem keyLt_trans : ∀ (a b c : Bytes), keyLt a b = true → keyLt b c = true → keyLt a c = true := by
  intro a
  induction a with
  | nil =>
    intro b c h1 h2
    cases b with
    | nil => simp [keyLt] at h1
    | cons y ys =>
      cases c with
      | nil => simp [keyLt] at h2
      | cons z zs => simp [keyLt]
  | cons x xs ih =>
    intro b c h1 h2
    cases b with
    | nil => simp [keyLt] at h1
    | cons y ys =>
      cases c with
      | nil => simp [keyLt] at h2
      | cons z zs =>
        simp only [keyLt, Bool.or_eq_true, Bool.and_eq_true, decide_eq_true_eq] at h1 h2 ⊢
        rcases h1 with h1 | ⟨h1, h1'⟩
        · rcases h2 with h2 | ⟨h2, _⟩
          · left; omega
          · left; omega
        · rcases h2 with h2 | ⟨h2, h2'⟩
          · left; omega
          · right; exact ⟨by omega, ih ys zs h1' h2'⟩

theorem keyLt_total : ∀ (a b : Bytes), a ≠ b → keyLt a b = false → keyLt b a = true := by
  intro a
  induction a with
  | nil =>
    intro b hne h
    cases b with
    | nil => exact absurd rfl hne
    | cons y ys => simp [keyLt] at h
  | cons x xs ih =>
    intro b hne h
    cases b with
    | nil => simp [keyLt]
    | cons y ys =>
      simp only [keyLt, Bool.or_eq_false_iff, Bool.and_eq_false_imp, decide_eq_false_iff_not,
        decide_eq_true_eq] at h
      simp only [keyLt, Bool.or_eq_true, Bool.and_eq_true, decide_eq_true_eq]
      by_cases hxy : x = y
      · subst hxy
        right
        refine ⟨rfl, ih ys (fun e => hne (by rw [e])) (h.2 rfl)⟩
      · left; omega

theorem keyLt_ne {a b : Bytes} (h : keyLt a b = true) : a ≠ b := by
  intro e; subst e; rw [keyLt_irrefl] at h; exact Bool.noConfusion h

theorem keyLt_asymm {a b : Bytes} (h : keyLt a b = true) : keyLt b a = false := by
  cases hb : keyLt b a with
  | false => rfl
  | true => have := keyLt_trans a b a h hb; rw [keyLt_irrefl] at this; exact Bool.noConfusion this

theorem mapLookup_mapInsert {V : Type} (k k1 : Bytes) (v : V) (m : GoMap V) :
    mapLookup k (mapInsert k1 v m) = if k = k1 then some v else mapLookup k m := by
  induction m with
  | nil => simp [mapInsert, mapLookup]
  | cons x m ih =>
    obtain ⟨k2, v2⟩ := x
    simp only [mapInsert]
    split_ifs with h1 h2 h3 h4 h5
    all_goals simp_all [mapLookup]

theorem mem_mapInsert {V : Type} (k : Bytes) (v : V) (m : GoMap V) (x : Bytes × V)
    (h : x ∈ mapInsert k v m) : x = (k, v) ∨ x ∈ m := by
  induction m with
  | nil => simpa [mapInsert] using h
  | cons y m ih =>
    obtain ⟨k2, v2⟩ := y
    simp only [mapInsert] at h
    split_ifs at h with h1 h2
    · rcases List.mem_cons.mp h with h | h
      · exact Or.inl h
      · exact Or.inr (List.mem_cons_of_mem _ h)
    · rcases List.mem_cons.mp h with h | h
      · exact Or.inl h
      · exact Or.inr h
    · rcases List.mem_cons.mp h with h | h
      · exact Or.inr (h ▸ List.mem_cons_self _ _)
      · rcases ih h with h | h
        · exact Or.inl h
        · exact Or.inr (List.mem_cons_of_mem _ h)

theorem mapSorted_mapInsert {V : Type} (k : Bytes) (v : V) (m : GoMap V) (hm : MapSorted m) :
    MapSorted (mapInsert k v m) := by
  induction m with
  | nil => simp [mapInsert, MapSorted]
  | cons y m ih =>
    obtain ⟨k2, v2⟩ := y
    have hm' : List.Pairwise (fun a b : Bytes × V => keyLt a.1 b.1 = true) ((k2, v2) :: m) := hm
    rw [List.pairwise_cons] at hm'
    obtain ⟨hhead, htail⟩ := hm'
    simp only [mapInsert]
    split_ifs with h1 h2
    · subst h1
      exact List.pairwise_cons.mpr ⟨hhead, htail⟩
    · refine List.pairwise_cons.mpr ⟨fun z hz => ?_, hm⟩
      rcases List.mem_cons.mp hz with hz | hz
      · subst hz; exact h2
      · exact keyLt_trans _ _ _ h2 (hhead z hz)
    · refine List.pairwise_cons.mpr ⟨fun z hz => ?_, ih htail⟩
      rcases mem_mapInsert k v m z hz with hz | hz
      · subst hz
        exact keyLt_total k k2 h1 (by simpa using h2)
      · exact hhead z hz

theorem mapInsert_perm {V : Type} (k : Bytes) (v : V) (m : GoMap V)
    (hk : ∀ x ∈ m, x.1 ≠ k) : (mapInsert k v m).Perm ((k, v) :: m) := by
  induction m with
  | nil => simp [mapInsert]
  | cons y m ih =>
    obtain ⟨k2, v2⟩ := y
    simp only [mapInsert]
    have h1 : ¬ k = k2 := fun e => hk (k2, v2) (List.mem_cons_self _ _) e.symm
    simp only [h1, if_false]
    split_ifs with h2
    · exact List.Perm.refl _
    · exact ((ih fun x hx => hk x (List.mem_cons_of_mem _ hx)).cons (k2, v2)).trans
        (List.Perm.swap _ _ _)

theorem mapOfMembers_cons {V W : Type} (f : V → W) (kv : Bytes × V) (l : List (Bytes × V))
    (m : GoMap W) :
    mapOfMembers f (kv :: l) m = mapOfMembers f l (mapInsert kv.1 (f kv.2) m) := rfl

theorem mapOfMembers_sorted {V W : Type} (f : V → W) (l : List (Bytes × V)) :
    ∀ m : GoMap W, MapSorted m → MapSorted (mapOfMembers f l m) := by
  induction l with
  | nil => intro m hm; exact hm
  | cons kv l ih =>
    intro m hm
    rw [mapOfMembers_cons]
    exact ih _ (mapSorted_mapInsert _ _ _ hm)

theorem mapOfMembers_perm {V W : Type} (f : V → W) (l : List (Bytes × V)) :
    ∀ m : GoMap W, (l.map Prod.fst).Nodup → (∀ x ∈ m, ∀ y ∈ l, x.1 ≠ y.1) →
      (mapOfMembers f l m).Perm (m ++ l.map fun kv => (kv.1, f kv.2)) := by
  induction l with
  | nil => intro m _ _; simp [mapOfMembers]
  | cons kv l ih =>
    intro m hnd hdis
    rw [mapOfMembers_cons]
    rw [List.map_cons, List.nodup_cons] at hnd
    have hp := mapInsert_perm kv.1 (f kv.2) m fun x hx => hdis x hx kv (List.mem_cons_self _ _)
    refine (ih _ hnd.2 ?_).trans ?_
    · intro x hx y hy
      rcases mem_mapInsert _ _ _ _ hx with hx | hx
      · subst hx
        intro e
        exact hnd.1 (List.mem_map.mpr ⟨y, hy, e.symm⟩)
      · exact hdis x hx y (List.mem_cons_of_mem _ hy)
    · rw [List.map_cons]
      exact (hp.append_right _).trans (by
        simpa using (@List.perm_middle _ (kv.1, f kv.2) m
          (List.map (fun kv => (kv.1, f kv.2)) l)).symm)

theorem mapSorted_nodup {V : Type} (m : GoMap V) (hm : MapSorted m) : (m.map Prod.fst).Nodup := by
  induction m with
  | nil => simp
  | cons y m ih =>
    have hm' : List.Pairwise (fun a b : Bytes × V => keyLt a.1 b.1 = true) (y :: m) := hm
    rw [List.pairwise_cons] at hm'
    rw [List.map_cons, List.nodup_cons]
    refine ⟨fun h => ?_, ih hm'.2⟩
    obtain ⟨z, hz, e⟩ := List.mem_map.mp h
    exact keyLt_ne (hm'.1 z hz) e.symm

theorem mapSorted_eq_of_perm {V : Type} (m1 m2 : GoMap V) (hp : m1.Perm m2) (h1 : MapSorted m1)
    (h2 : MapSorted m2) : m1 = m2 := by
  haveI : IsAntisymm (Bytes × V) (fun a b => keyLt a.1 b.1 = true) :=
    ⟨fun a b hab hba => by rw [keyLt_asymm hab] at hba; exact Bool.noConfusion hba⟩
  exact List.eq_of_perm_of_sorted hp h1 h2

/-! ## Objects and arrays read back -/

theorem readsAs_object {V : Type} (enc : V → Bytes) (dec : V → JValue) (K h : Nat)
    (ms : List (Bytes × V))
    (hm : ∀ kv ∈ ms, validUTF8 kv.1 = true ∧ ReadsAs (enc kv.2) (dec kv.2) K h) :
    ReadsAs (0x7B :: (commaSep (ms.map fun kv => marshalString kv.1 ++ 0x3A :: enc kv.2) ++ [0x7D]))
      (.obj (ms.map fun kv => (kv.1, dec kv.2))) (K + ms.length + 1) (h + 1) := by
  refine ⟨⟨0x7B, _, rfl, by decide, by decide⟩, fun f d rest hf hd => ?_⟩
  obtain ⟨f, rfl⟩ : ∃ g, f = g + 1 := ⟨f - 1, by omega⟩
  have hdepth : ¬ maxNestingDepth ≤ d := by omega
  cases ms with
  | nil => simp [parseValue, hdepth, commaSep, skipWs, isSpace]
  | cons x xs =>
    obtain ⟨t, ht⟩ := commaSep_head (marshalString x.1 ++ 0x3A :: enc x.2)
      (xs.map fun kv => marshalString kv.1 ++ 0x3A :: enc kv.2)
    have e : 0x7B :: (commaSep (List.map (fun kv => marshalString kv.1 ++ 0x3A :: enc kv.2)
          (x :: xs)) ++ [0x7D]) ++ rest
        = 0x7B :: (0x22 :: (appendString x.1.length x.1 ++ [0x22] ++ 0x3A :: enc x.2 ++ t
            ++ 0x7D :: rest)) := by
      rw [List.map_cons, ht]; simp [marshalString]
    have e2 : 0x22 :: (appendString x.1.length x.1 ++ [0x22] ++ 0x3A :: enc x.2 ++ t
            ++ 0x7D :: rest)
        = commaSep (List.map (fun kv => marshalString kv.1 ++ 0x3A :: enc kv.2) (x :: xs))
            ++ 0x7D :: rest := by
      rw [List.map_cons, ht]; simp [marshalString]
    rw [e]
    simp only [parseValue, skipWs, isSpace, hdepth, if_false, Bool.false_eq_true]
    simp only [Nat.reduceEqDiff, decide_False, Bool.or_self, if_false, Bool.false_eq_true]
    rw [e2, parseMembers_commaSep enc dec K h (x :: xs) hm (by simp) f (d + 1) rest
      (by simp at hf ⊢; omega) (by omega)]
    simp

theorem length_le_commaSep (encs : List Bytes) (h : ∀ e ∈ encs, 0 < e.length) :
    encs.length ≤ (commaSep encs).length := by
  induction encs with
  | nil => simp [commaSep]
  | cons x l ih =>
    cases l with
    | nil =>
      have := h x (List.mem_cons_self _ _)
      simp [commaSep]; omega
    | cons y l =>
      have := ih fun e he => h e (List.mem_cons_of_mem _ he)
      simp [commaSep_cons_cons] at this ⊢; omega

theorem length_le_commaSep_of_mem (encs : List Bytes) (e : Bytes) (he : e ∈ encs) :
    e.length ≤ (commaSep encs).length := by
  induction encs with
  | nil => simp at he
  | cons x l ih =>
    cases l with
    | nil =>
      simp at he; subst he; simp [commaSep]
    | cons y l =>
      rw [commaSep_cons_cons]
      rcases List.mem_cons.mp he with h | h
      · subst h; simp
      · have := ih h
        simp at this ⊢; omega

theorem marshalString_length_pos (s : Bytes) : 0 < (marshalString s).length := by
  simp [marshalString]

theorem parseJSON_marshalString (s : Bytes) (hs : validUTF8 s = true) :
    parseJSON (marshalString s) = some (.str (marshalString s) s) :=
  parseJSON_of_readsAs (readsAs_marshalString s hs) (by omega) (by decide)

theorem readsAs_marshalStrings (xs : List Bytes) (hv : ∀ s ∈ xs, validUTF8 s = true) :
    ReadsAs (marshalStrings (some xs)) (.arr (xs.map fun s => .str (marshalString s) s))
      (xs.length + 2) 1 :=
  (readsAs_array marshalString (fun s => .str (marshalString s) s) 1 0 xs
    fun s hs => readsAs_marshalString s (hv s hs)).mono (by omega) (by omega)

theorem marshalStrings_length (xs : List Bytes) :
    xs.length + 2 ≤ (marshalStrings (some xs)).length := by
  have := length_le_commaSep (xs.map marshalString) (by
    intro e he
    obtain ⟨s, _, rfl⟩ := List.mem_map.mp he
    exact marshalString_length_pos s)
  simp [marshalStrings] at this ⊢; omega

theorem parseJSON_marshalStrings (xs : List Bytes) (hv : ∀ s ∈ xs, validUTF8 s = true) :
    parseJSON (marshalStrings (some xs)) = some (.arr (xs.map fun s => .str (marshalString s) s)) :=
  parseJSON_of_readsAs (readsAs_marshalStrings xs hv)
    (by have := marshalStrings_length xs; omega) (by decide)

/-! ## StringOrStrings -/

theorem forall₂_isJSONString (xs : List Bytes) :
    List.Forall₂ IsJSONString (xs.map fun s => JValue.str (marshalString s) s) xs := by
  induction xs with
  | nil => exact .nil
  | cons x xs ih => exact .cons ⟨_, rfl⟩ ih

theorem storeStrings_of_strings (js : List JValue) (xs : List Bytes)
    (h : List.Forall₂ IsJSONString js xs) :
    storeStrings (.arr js) = (some xs, none) := by
  have key : (js.map fun x => (storeString x []).1) = xs ∧
      firstError (js.map fun x => (storeString x []).2) = none := by
    induction h with
    | nil => exact ⟨rfl, rfl⟩
    | cons hj _ ih =>
      obtain ⟨raw, rfl⟩ := hj
      exact ⟨by rw [List.map_cons, ih.1]; rfl, by rw [List.map_cons]; exact ih.2⟩
  simp [storeStrings, key.1, key.2]

/-- C1: a JSON string `s` decodes to the one-element sequence `[s]`, and a
JSON array of the strings `xs` decodes to exactly `xs`, in order and of the
same length, whatever the target held before. -/
theorem StringOrStrings.unmarshal_string_or_array (l : StringOrStrings) (bytes : Bytes) :
    (∀ j s, parseJSON bytes = some j → IsJSONString j s →
        StringOrStrings.UnmarshalJSON l bytes = (some [s], none)) ∧
    (∀ j xs, parseJSON bytes = some j → IsJSONStrings j xs →
        StringOrStrings.UnmarshalJSON l bytes = (some xs, none)) := by
  refine ⟨fun j s h hj => ?_, fun j xs h hj => ?_⟩
  · obtain ⟨raw, rfl⟩ := hj
    simp [StringOrStrings.UnmarshalJSON, unmarshal, h, storeString]
  · obtain ⟨js, rfl, hx⟩ := hj
    simp [StringOrStrings.UnmarshalJSON, unmarshal, h, storeString,
      storeStrings_of_strings js xs hx]

theorem StringOrStrings.unmarshal_string_or_array_witness :
    StringOrStrings.UnmarshalJSON none (utf8 "\"test string\"") = (some [utf8 "test string"], none) ∧
    StringOrStrings.UnmarshalJSON none (utf8 "[\"LGPL-2.1-only\", \"GPL-3.0-or-later\"]")
      = (some [utf8 "LGPL-2.1-only", utf8 "GPL-3.0-or-later"], none) :=
  ⟨(StringOrStrings.unmarshal_string_or_array none (utf8 "\"test string\"")).1 _ _ rfl ⟨_, rfl⟩,
   (StringOrStrings.unmarshal_string_or_array none
        (utf8 "[\"LGPL-2.1-only\", \"GPL-3.0-or-later\"]")).2 _ _ rfl
      ⟨_, rfl, .cons ⟨_, rfl⟩ (.cons ⟨_, rfl⟩ .nil)⟩⟩

/-- C2 (as amended): for every non-nil sequence `xs` of valid UTF-8 strings,
`MarshalJSON` writes a JSON array with one string per element, also when
there is exactly one element, and `UnmarshalJSON` of that output succeeds and
yields `xs`. -/
theorem StringOrStrings.strings_round_trip (l : StringOrStrings) (xs : List Bytes)
    (hv : ∀ s ∈ xs, validUTF8 s = true) :
    (StringOrStrings.MarshalJSON (some xs)).2 = none ∧
    (∃ j, parseJSON (StringOrStrings.MarshalJSON (some xs)).1 = some j ∧ IsJSONStrings j xs) ∧
    StringOrStrings.UnmarshalJSON l (StringOrStrings.MarshalJSON (some xs)).1
      = (some xs, none) := by
  have hp := parseJSON_marshalStrings xs hv
  have hj : IsJSONStrings (.arr (xs.map fun s => .str (marshalString s) s)) xs :=
    ⟨_, rfl, forall₂_isJSONString xs⟩
  refine ⟨rfl, ⟨_, hp, hj⟩, ?_⟩
  obtain ⟨js, hjs, hx⟩ := hj
  simp only [StringOrStrings.MarshalJSON, StringOrStrings.UnmarshalJSON, unmarshal, hp, storeString]
  rw [hjs, storeStrings_of_strings js xs hx]

theorem StringOrStrings.strings_round_trip_witness :
    StringOrStrings.UnmarshalJSON none (utf8 "[\"MIT\"]") = (some [utf8 "MIT"], none) :=
  (StringOrStrings.strings_round_trip none [utf8 "MIT"] (by decide)).2.2

/-- C2 (counterexample): the one-element sequence holding the single byte
`0xFF`, which is not valid UTF-8, is written as `["\ufffd"]` and read back as
U+FFFD, not as the byte that went in. -/
theorem StringOrStrings.strings_round_trip_invalid_utf8 :
    StringOrStrings.MarshalJSON (some [[0xFF]]) = (utf8 "[\"\\ufffd\"]", none) ∧
    StringOrStrings.UnmarshalJSON none (StringOrStrings.MarshalJSON (some [[0xFF]])).1
      = (some [[0xEF, 0xBF, 0xBD]], none) ∧
    StringOrStrings.UnmarshalJSON none (StringOrStrings.MarshalJSON (some [[0xFF]])).1
      ≠ (some [[0xFF]], none) := by
  refine ⟨by decide, by decide, by decide⟩

/-! ## Bool -/

theorem or_chain_left {a b c d e f g : Prop} (h : a ∨ b ∨ c ∨ d ∨ e ∨ f) :
    a ∨ b ∨ c ∨ d ∨ e ∨ f ∨ g := by tauto

theorem or_chain_right {a b c d e f g : Prop} (h : g) : a ∨ b ∨ c ∨ d ∨ e ∨ f ∨ g := by tauto

theorem or_chain_split {a b c d e f g : Prop} (h : a ∨ b ∨ c ∨ d ∨ e ∨ f ∨ g) :
    (a ∨ b ∨ c ∨ d ∨ e ∨ f) ∨ g := by tauto

theorem falseTokens_not_true : ∀ t ∈ falseTokens, t ∉ trueTokens := by decide

/-- C3: `Bool.UnmarshalJSON` returns true on the six spellings of true,
false on the six spellings of false, and on every other byte sequence it
returns an error naming the bytes and leaves the target as it was; so it
succeeds exactly on the twelve spellings. -/
theorem Bool.unmarshal_accepts_exactly (b : Bool) (bytes : Bytes) :
    ((bytes = utf8 "true" ∨ bytes = utf8 "True" ∨ bytes = utf8 "\"true\"" ∨
        bytes = utf8 "\"True\"" ∨ bytes = utf8 "1" ∨ bytes = utf8 "\"1\"") →
      Bool.UnmarshalJSON b bytes = (true, none)) ∧
    ((bytes = utf8 "false" ∨ bytes = utf8 "False" ∨ bytes = utf8 "\"false\"" ∨
        bytes = utf8 "\"False\"" ∨ bytes = utf8 "0" ∨ bytes = utf8 "\"0\"") →
      Bool.UnmarshalJSON b bytes = (false, none)) ∧
    (¬ (bytes = utf8 "true" ∨ bytes = utf8 "True" ∨ bytes = utf8 "\"true\"" ∨
        bytes = utf8 "\"True\"" ∨ bytes = utf8 "1" ∨ bytes = utf8 "\"1\"" ∨
        bytes = utf8 "false" ∨ bytes = utf8 "False" ∨ bytes = utf8 "\"false\"" ∨
        bytes = utf8 "\"False\"" ∨ bytes = utf8 "0" ∨ bytes = utf8 "\"0\"") →
      Bool.UnmarshalJSON b bytes
        = (b, some (.new (utf8 "cannot unmarshal bool " ++ bytes)))) ∧
    ((Bool.UnmarshalJSON b bytes).2 = none ↔
      (bytes = utf8 "true" ∨ bytes = utf8 "True" ∨ bytes = utf8 "\"true\"" ∨
        bytes = utf8 "\"True\"" ∨ bytes = utf8 "1" ∨ bytes = utf8 "\"1\"" ∨
        bytes = utf8 "false" ∨ bytes = utf8 "False" ∨ bytes = utf8 "\"false\"" ∨
        bytes = utf8 "\"False\"" ∨ bytes = utf8 "0" ∨ bytes = utf8 "\"0\"")) := by
  have ht : bytes ∈ trueTokens ↔ (bytes = utf8 "true" ∨ bytes = utf8 "True" ∨
      bytes = utf8 "\"true\"" ∨ bytes = utf8 "\"True\"" ∨ bytes = utf8 "1" ∨
      bytes = utf8 "\"1\"") := by
    simp only [trueTokens, List.mem_cons, List.mem_singleton, List.not_mem_nil, or_false]
  have hf : bytes ∈ falseTokens ↔ (bytes = utf8 "false" ∨ bytes = utf8 "False" ∨
      bytes = utf8 "\"false\"" ∨ bytes = utf8 "\"False\"" ∨ bytes = utf8 "0" ∨
      bytes = utf8 "\"0\"") := by
    simp only [falseTokens, List.mem_cons, List.mem_singleton, List.not_mem_nil, or_false]
  have hdis : bytes ∈ falseTokens → bytes ∉ trueTokens := falseTokens_not_true bytes
  refine ⟨fun h => ?_, fun h => ?_, fun h => ?_, ?_⟩
  · simp [Bool.UnmarshalJSON, ht.mpr h]
  · simp [Bool.UnmarshalJSON, hf.mpr h, hdis (hf.mpr h)]
  · have h1 : bytes ∉ trueTokens := fun hm => h (or_chain_left (ht.mp hm))
    have h2 : bytes ∉ falseTokens := fun hm => h (or_chain_right (hf.mp hm))
    simp [Bool.UnmarshalJSON, h1, h2]
  · by_cases h1 : bytes ∈ trueTokens
    · simp only [Bool.UnmarshalJSON, h1, if_true, true_iff]
      exact or_chain_left (ht.mp h1)
    · by_cases h2 : bytes ∈ falseTokens
      · simp only [Bool.UnmarshalJSON, h1, h2, if_true, if_false, true_iff]
        exact or_chain_right (hf.mp h2)
      · simp only [Bool.UnmarshalJSON, h1, h2, if_false]
        constructor
        · intro h; exact absurd h (by simp)
        · intro h
          rcases or_chain_split h with h | h
          · exact absurd (ht.mpr h) h1
          · exact absurd (hf.mpr h) h2

theorem Bool.unmarshal_accepts_exactly_witness :
    Bool.UnmarshalJSON false (utf8 "\"True\"") = (true, none) ∧
    Bool.UnmarshalJSON true (utf8 "0") = (false, none) ∧
    Bool.UnmarshalJSON true (utf8 "TRUE")
      = (true, some (.new (utf8 "cannot unmarshal bool TRUE"))) ∧
    Bool.UnmarshalJSON true (utf8 " true")
      = (true, some (.new (utf8 "cannot unmarshal bool  true"))) ∧
    Bool.UnmarshalJSON false (utf8 "\"maybe\"")
      = (false, some (.new (utf8 "cannot unmarshal bool \"maybe\""))) :=
  ⟨(Bool.unmarshal_accepts_exactly false (utf8 "\"True\"")).1 (by decide),
   (Bool.unmarshal_accepts_exactly true (utf8 "0")).2.1 (by decide),
   (Bool.unmarshal_accepts_exactly true (utf8 "TRUE")).2.2.1 (by decide),
   (Bool.unmarshal_accepts_exactly true (utf8 " true")).2.2.1 (by decide),
   (Bool.unmarshal_accepts_exactly false (utf8 "\"maybe\"")).2.2.1 (by decide)⟩

/-! ## Lookups in decoded maps -/

theorem mapLookup_mapOfMembers {V W : Type} (f : V → W) (k : Bytes) (l : List (Bytes × V)) :
    ∀ m : GoMap W, mapLookup k (mapOfMembers f l m)
      = match lastValue k l with
        | some x => some (f x)
        | none => mapLookup k m := by
  induction l with
  | nil => intro m; rfl
  | cons kv l ih =>
    intro m
    obtain ⟨k1, v1⟩ := kv
    rw [mapOfMembers_cons, ih, mapLookup_mapInsert]
    simp only [lastValue]
    cases lastValue k l with
    | some x => rfl
    | none =>
      by_cases h : k = k1
      · simp [h]
      · simp [h]

theorem firstError_eq_none (es : List (Option GoError)) (h : ∀ e ∈ es, e = none) :
    firstError es = none := by
  induction es with
  | nil => rfl
  | cons e es ih =>
    have := h e (List.mem_cons_self _ _)
    subst this
    exact ih fun e he => h e (List.mem_cons_of_mem _ he)

theorem firstError_ne_none (es : List (Option GoError)) (e : Option GoError) (he : e ∈ es)
    (hne : e ≠ none) : firstError es ≠ none := by
  induction es with
  | nil => simp at he
  | cons x es ih =>
    cases x with
    | some y => simp [firstError]
    | none =>
      rcases List.mem_cons.mp he with h | h
      · exact absurd h hne
      · exact ih h

theorem lastValue_storeString (k : Bytes) (kvs : List (Bytes × JValue)) (es : List (Bytes × Bytes))
    (h : List.Forall₂ (fun kv e => kv.1 = e.1 ∧ IsStringOrNull kv.2 e.2) kvs es) :
    (match lastValue k kvs with
      | some x => some (storeString x []).1
      | none => none) = lastValue k es ∧
    firstError (kvs.map fun kv => (storeString kv.2 []).2) = none := by
  induction h with
  | nil => exact ⟨rfl, rfl⟩
  | @cons kv e kvs es hkv _ ih =>
    obtain ⟨k1, v1⟩ := kv
    obtain ⟨k2, v2⟩ := e
    obtain ⟨hk, hv⟩ := hkv
    simp only at hk hv
    subst hk
    have hs : storeString v1 [] = (v2, none) := by
      rcases hv with ⟨raw, rfl⟩ | ⟨rfl, rfl⟩ <;> rfl
    refine ⟨?_, ?_⟩
    · simp only [lastValue]
      rw [← ih.1]
      cases lastValue k kvs with
      | some x => rfl
      | none =>
        by_cases hkk : k = k1
        · simp [hkk, hs]
        · simp [hkk]
    · rw [List.map_cons]
      simp only [hs, firstError]
      exact ih.2

theorem storeString_obj (kvs : List (Bytes × JValue)) (cur : Bytes) :
    storeString (.obj kvs) cur = (cur, some (.unmarshalType "object" "string")) := rfl

/-! ## ValueOrMap -/

/-- C7 (as amended): decoding into a zero-value `ValueOrMap`. A JSON string
`s` gives `{Value: s, Map: nil}`. A JSON object whose values are all strings
or `null` gives `{Value: "", Map: m}`, `m` holding for each key the string of
its last member (`""` for `null`). `null` is accepted and changes nothing.
Malformed input, a boolean, a number, an array, and an object with a value
that is neither a string nor `null` give the error "cannot unmarshal"
followed by the input. -/
theorem ValueOrMap.valueOrMap_unmarshal_zero (bytes : Bytes) :
    (∀ j s, parseJSON bytes = some j → IsJSONString j s →
      ValueOrMap.UnmarshalJSON { Value := [], Map := none } bytes
        = ({ Value := s, Map := none }, none)) ∧
    (∀ kvs es, parseJSON bytes = some (.obj kvs) →
      List.Forall₂ (fun kv e => kv.1 = e.1 ∧ IsStringOrNull kv.2 e.2) kvs es →
      ∃ m, ValueOrMap.UnmarshalJSON { Value := [], Map := none } bytes
          = ({ Value := [], Map := some m }, none) ∧
        MapSorted m ∧ ∀ k, mapLookup k m = lastValue k es) ∧
    (parseJSON bytes = some .null →
      ValueOrMap.UnmarshalJSON { Value := [], Map := none } bytes
        = ({ Value := [], Map := none }, none)) ∧
    ((parseJSON bytes = none ∨ (∃ b, parseJSON bytes = some (.bool b)) ∨
        (∃ raw, parseJSON bytes = some (.number raw)) ∨
        (∃ js, parseJSON bytes = some (.arr js)) ∨
        (∃ kvs, parseJSON bytes = some (.obj kvs) ∧
          ∃ kv ∈ kvs, kv.2 ≠ .null ∧ ∀ s, ¬ IsJSONString kv.2 s)) →
      (ValueOrMap.UnmarshalJSON { Value := [], Map := none } bytes).2
        = some (.new (utf8 "cannot unmarshal " ++ bytes))) := by
  refine ⟨fun j s h hj => ?_, fun kvs es h hf => ?_, fun h => ?_, fun h => ?_⟩
  · obtain ⟨raw, rfl⟩ := hj
    simp [ValueOrMap.UnmarshalJSON, unmarshal, h, storeString]
  · have key := fun k => lastValue_storeString k kvs es hf
    refine ⟨mapOfMembers (fun x => (storeString x []).1) kvs [], ?_,
      mapOfMembers_sorted _ _ _ List.Pairwise.nil, fun k => ?_⟩
    · simp only [ValueOrMap.UnmarshalJSON, unmarshal, h, storeString_obj, storeStringMap,
        (key []).2, Option.getD_none]
    · rw [mapLookup_mapOfMembers, ← (key k).1]
      cases lastValue k kvs <;> rfl
  · simp [ValueOrMap.UnmarshalJSON, unmarshal, h, storeString]
  · rcases h with h | ⟨b, h⟩ | ⟨raw, h⟩ | ⟨js, h⟩ | ⟨kvs, h, kv, hkv, hnull, hstr⟩
    · simp [ValueOrMap.UnmarshalJSON, unmarshal, h]
    · simp [ValueOrMap.UnmarshalJSON, unmarshal, h, storeString, storeStringMap]
    · simp [ValueOrMap.UnmarshalJSON, unmarshal, h, storeString, storeStringMap]
    · simp [ValueOrMap.UnmarshalJSON, unmarshal, h, storeString, storeStringMap]
    · have hne : firstError (kvs.map fun kv => (storeString kv.2 []).2) ≠ none := by
        refine firstError_ne_none _ (storeString kv.2 []).2 (List.mem_map.mpr ⟨kv, hkv, rfl⟩) ?_
        cases hv : kv.2 with
        | null => exact absurd hv hnull
        | str raw s => exact absurd ⟨raw, hv⟩ (hstr s)
        | bool b => simp [storeString]
        | number raw => simp [storeString]
        | arr js => simp [storeString]
        | obj kvs => simp [storeString]
      obtain ⟨e, he⟩ := Option.ne_none_iff_exists'.mp hne
      simp only [ValueOrMap.UnmarshalJSON, unmarshal, h, storeString_obj, storeStringMap, he]

theorem ValueOrMap.valueOrMap_unmarshal_zero_witness :
    ValueOrMap.UnmarshalJSON { Value := [], Map := none } (utf8 "\"auto\"")
      = ({ Value := utf8 "auto", Map := none }, none) ∧
    (∃ m, ValueOrMap.UnmarshalJSON { Value := [], Map := none }
          (utf8 "\x7b\"one\":\"two\",\"three\":null\x7d")
        = ({ Value := [], Map := some m }, none) ∧ MapSorted m ∧
      ∀ k, mapLookup k m = lastValue k [(utf8 "one", utf8 "two"), (utf8 "three", [])]) ∧
    (ValueOrMap.UnmarshalJSON { Value := [], Map := none } (utf8 "true")).2
      = some (.new (utf8 "cannot unmarshal true")) ∧
    (ValueOrMap.UnmarshalJSON { Value := [], Map := none } (utf8 "\x7b\"a\": 1\x7d")).2
      = some (.new (utf8 "cannot unmarshal \x7b\"a\": 1\x7d")) :=
  ⟨(ValueOrMap.valueOrMap_unmarshal_zero (utf8 "\"auto\"")).1 _ _ rfl ⟨_, rfl⟩,
   (ValueOrMap.valueOrMap_unmarshal_zero (utf8 "\x7b\"one\":\"two\",\"three\":null\x7d")).2.1 _ _ rfl
     (.cons ⟨rfl, Or.inl ⟨_, rfl⟩⟩ (.cons ⟨rfl, Or.inr ⟨rfl, rfl⟩⟩ .nil)),
   (ValueOrMap.valueOrMap_unmarshal_zero (utf8 "true")).2.2.2 (Or.inr (Or.inl ⟨true, rfl⟩)),
   (ValueOrMap.valueOrMap_unmarshal_zero (utf8 "\x7b\"a\": 1\x7d")).2.2.2
     (Or.inr (Or.inr (Or.inr (Or.inr ⟨[(utf8 "a", .number (utf8 "1"))], rfl, _,
       List.mem_singleton.mpr rfl, fun h => JValue.noConfusion h,
       fun _ h => by obtain ⟨_, h⟩ := h; exact JValue.noConfusion h⟩))))⟩

/-- C7 (counterexample): `null` is a wire value that is neither a string nor
an object, and `UnmarshalJSON` returns no error on it; the object `{"a":null}`
has a value that is not a string, and `UnmarshalJSON` returns no error on it
either, storing `""` under `a`. -/
theorem ValueOrMap.valueOrMap_null_accepted :
    parseJSON (utf8 "null") = some .null ∧
    ValueOrMap.UnmarshalJSON { Value := [], Map := none } (utf8 "null")
      = ({ Value := [], Map := none }, none) ∧
    parseJSON (utf8 "\x7b\"a\":null\x7d") = some (.obj [(utf8 "a", .null)]) ∧
    ValueOrMap.UnmarshalJSON { Value := [], Map := none } (utf8 "\x7b\"a\":null\x7d")
      = ({ Value := [], Map := some [(utf8 "a", [])] }, none) :=
  ⟨rfl, by decide, rfl, by decide⟩

theorem readsAs_stringMap (m : GoMap Bytes)
    (hv : ∀ kv ∈ m, validUTF8 kv.1 = true ∧ validUTF8 kv.2 = true) :
    parseJSON (marshalMap marshalString (some m))
      = some (.obj (m.map fun kv => (kv.1, .str (marshalString kv.2) kv.2))) := by
  have hr := readsAs_object marshalString (fun s => JValue.str (marshalString s) s) 1 0 m
    fun kv hkv => ⟨(hv kv hkv).1, readsAs_marshalString kv.2 (hv kv hkv).2⟩
  refine parseJSON_of_readsAs hr ?_ (by decide)
  have := length_le_commaSep (m.map fun kv => marshalString kv.1 ++ 0x3A :: marshalString kv.2)
    (by
      intro e he
      obtain ⟨kv, _, rfl⟩ := List.mem_map.mp he
      simp)
  simp [marshalMap] at this ⊢; omega

/-- C8: when `Value` is not empty the output is `Value` written as a JSON
string, the same whatever `Map` holds (and it reads back as that string when
`Value` is valid UTF-8); when `Value` is empty and `Map` is a non-empty map
the output is the JSON object of the entries of `Map`, in key order (and it
reads back as an object with those members when the strings are valid
UTF-8). -/
theorem ValueOrMap.marshal_value_before_map (pi : ValueOrMap) :
    (pi.Value ≠ [] →
      ValueOrMap.MarshalJSON pi = (marshalString pi.Value, none) ∧
      (∀ m, ValueOrMap.MarshalJSON { Value := pi.Value, Map := m } = ValueOrMap.MarshalJSON pi) ∧
      (validUTF8 pi.Value = true →
        ∃ j, parseJSON (ValueOrMap.MarshalJSON pi).1 = some j ∧ IsJSONString j pi.Value)) ∧
    (pi.Value = [] → ∀ m, pi.Map = some m → m ≠ [] →
      ValueOrMap.MarshalJSON pi
        = (0x7B :: (commaSep (m.map fun kv => marshalString kv.1 ++ 0x3A :: marshalString kv.2)
            ++ [0x7D]), none) ∧
      ((∀ kv ∈ m, validUTF8 kv.1 = true ∧ validUTF8 kv.2 = true) →
        ∃ kvs, parseJSON (ValueOrMap.MarshalJSON pi).1 = some (.obj kvs) ∧
          List.Forall₂ (fun kv e => kv.1 = e.1 ∧ IsJSONString kv.2 e.2) kvs m)) := by
  refine ⟨fun h => ?_, fun h m hm hne => ?_⟩
  · have e : ValueOrMap.MarshalJSON pi = (marshalString pi.Value, none) := by
      simp [ValueOrMap.MarshalJSON, h]
    refine ⟨e, fun m => by simp [ValueOrMap.MarshalJSON, h], fun hv => ?_⟩
    rw [e]
    exact ⟨_, parseJSON_marshalString _ hv, _, rfl⟩
  · have e : ValueOrMap.MarshalJSON pi = (marshalMap marshalString (some m), none) := by
      simp [ValueOrMap.MarshalJSON, h, hm]
    refine ⟨e, fun hv => ?_⟩
    rw [e]
    refine ⟨_, readsAs_stringMap m hv, ?_⟩
    clear hv e hm hne
    induction m with
    | nil => exact .nil
    | cons kv m ih => exact .cons ⟨rfl, _, rfl⟩ ih

theorem ValueOrMap.marshal_value_before_map_witness :
    ValueOrMap.MarshalJSON { Value := utf8 "auto", Map := some [(utf8 "a", utf8 "b")] }
      = (utf8 "\"auto\"", none) ∧
    ValueOrMap.MarshalJSON { Value := [], Map := some [(utf8 "one", utf8 "two"),
        (utf8 "three", utf8 "four")] }
      = (utf8 "\x7b\"one\":\"two\",\"three\":\"four\"\x7d", none) :=
  ⟨((ValueOrMap.marshal_value_before_map
      { Value := utf8 "auto", Map := some [(utf8 "a", utf8 "b")] }).1 (by decide)).1,
   ((ValueOrMap.marshal_value_before_map { Value := [], Map := some [(utf8 "one", utf8 "two"),
        (utf8 "three", utf8 "four")] }).2 rfl _ rfl (by decide)).1⟩

/-! ## BoolOrString -/

theorem Bool.unmarshal_error_keeps (b x : Bool) (bytes : Bytes) (e : GoError)
    (h : Bool.UnmarshalJSON b bytes = (x, some e)) : x = b := by
  unfold Bool.UnmarshalJSON at h
  split_ifs at h
  · exact absurd (congrArg Prod.snd h) (by simp)
  · exact absurd (congrArg Prod.snd h) (by simp)
  · exact (congrArg Prod.fst h).symm

/-- C9 (as amended): decoding into a zero-value `BoolOrString`. A token that
`Bool.UnmarshalJSON` accepts gives `{Bool: that boolean, String: ""}`.
Otherwise a JSON string with content `s` gives `{Bool: false, String: s}`;
`null` is accepted and changes nothing; malformed input, a boolean, a
number, an array and an object give the error "cannot unmarshal" followed by
the input, the target staying zero. -/
theorem BoolOrString.boolOrString_unmarshal_zero (bytes : Bytes) :
    (∀ b, Bool.UnmarshalJSON false bytes = (b, none) →
      BoolOrString.UnmarshalJSON { Bool := false, String := [] } bytes
        = ({ Bool := b, String := [] }, none)) ∧
    ((Bool.UnmarshalJSON false bytes).2 ≠ none →
      (∀ j s, parseJSON bytes = some j → IsJSONString j s →
        BoolOrString.UnmarshalJSON { Bool := false, String := [] } bytes
          = ({ Bool := false, String := s }, none)) ∧
      (parseJSON bytes = some .null →
        BoolOrString.UnmarshalJSON { Bool := false, String := [] } bytes
          = ({ Bool := false, String := [] }, none)) ∧
      ((parseJSON bytes = none ∨ (∃ b, parseJSON bytes = some (.bool b)) ∨
          (∃ raw, parseJSON bytes = some (.number raw)) ∨
          (∃ js, parseJSON bytes = some (.arr js)) ∨
          (∃ kvs, parseJSON bytes = some (.obj kvs))) →
        BoolOrString.UnmarshalJSON { Bool := false, String := [] } bytes
          = ({ Bool := false, String := [] },
              some (.new (utf8 "cannot unmarshal " ++ bytes))))) := by
  refine ⟨fun b h => ?_, fun h => ?_⟩
  · simp [BoolOrString.UnmarshalJSON, h]
  · obtain ⟨e, he⟩ := Option.ne_none_iff_exists'.mp h
    have hb : Bool.UnmarshalJSON false bytes = (false, some e) := by
      have h1 : Bool.UnmarshalJSON false bytes
          = ((Bool.UnmarshalJSON false bytes).1, some e) := by rw [← he]
      rw [Bool.unmarshal_error_keeps false _ bytes e h1] at h1
      exact h1
    refine ⟨fun j s hp hj => ?_, fun hp => ?_, fun hp => ?_⟩
    · obtain ⟨raw, rfl⟩ := hj
      simp [BoolOrString.UnmarshalJSON, hb, unmarshal, hp, storeString]
    · simp [BoolOrString.UnmarshalJSON, hb, unmarshal, hp, storeString]
    · rcases hp with hp | ⟨b, hp⟩ | ⟨raw, hp⟩ | ⟨js, hp⟩ | ⟨kvs, hp⟩ <;>
        simp [BoolOrString.UnmarshalJSON, hb, unmarshal, hp, storeString]

theorem BoolOrString.boolOrString_unmarshal_zero_witness :
    BoolOrString.UnmarshalJSON { Bool := false, String := [] } (utf8 "\"true\"")
      = ({ Bool := true, String := [] }, none) ∧
    BoolOrString.UnmarshalJSON { Bool := false, String := [] } (utf8 "\"prompt\"")
      = ({ Bool := false, String := utf8 "prompt" }, none) ∧
    BoolOrString.UnmarshalJSON { Bool := false, String := [] } (utf8 "[\"error\"]")
      = ({ Bool := false, String := [] }, some (.new (utf8 "cannot unmarshal [\"error\"]"))) ∧
    BoolOrString.UnmarshalJSON { Bool := false, String := [] } (utf8 "12")
      = ({ Bool := false, String := [] }, some (.new (utf8 "cannot unmarshal 12"))) :=
  ⟨(BoolOrString.boolOrString_unmarshal_zero (utf8 "\"true\"")).1 true (by decide),
   ((BoolOrString.boolOrString_unmarshal_zero (utf8 "\"prompt\"")).2 (by decide)).1 _ _ rfl ⟨_, rfl⟩,
   ((BoolOrString.boolOrString_unmarshal_zero (utf8 "[\"error\"]")).2 (by decide)).2.2
     (Or.inr (Or.inr (Or.inr (Or.inl ⟨_, rfl⟩)))),
   ((BoolOrString.boolOrString_unmarshal_zero (utf8 "12")).2 (by decide)).2.2
     (Or.inr (Or.inr (Or.inl ⟨_, rfl⟩)))⟩

/-- C9 (counterexample): `null` is not a token `Bool.UnmarshalJSON` accepts
and is not a JSON string, yet `BoolOrString.UnmarshalJSON` returns no error
on it. -/
theorem BoolOrString.boolOrString_null_accepted :
    (Bool.UnmarshalJSON false (utf8 "null")).2 ≠ none ∧
    parseJSON (utf8 "null") = some .null ∧
    BoolOrString.UnmarshalJSON { Bool := false, String := [] } (utf8 "null")
      = ({ Bool := false, String := [] }, none) :=
  ⟨by decide, rfl, by decide⟩

/-- C10: when `String` is not empty the output is `String` written as a JSON
string, whatever `Bool` holds; when `String` is empty the output is exactly
`true` for a true `Bool` and exactly `false` for a false one, the bytes
`Bool.MarshalJSON` gives. -/
theorem BoolOrString.marshal_string_before_bool (bs : BoolOrString) :
    (bs.String ≠ [] →
      BoolOrString.MarshalJSON bs = (marshalString bs.String, none) ∧
      ∀ b, BoolOrString.MarshalJSON { Bool := b, String := bs.String }
        = BoolOrString.MarshalJSON bs) ∧
    (bs.String = [] →
      BoolOrString.MarshalJSON bs = Bool.MarshalJSON bs.Bool ∧
      (bs.Bool = true → BoolOrString.MarshalJSON bs = (utf8 "true", none)) ∧
      (bs.Bool = false → BoolOrString.MarshalJSON bs = (utf8 "false", none))) := by
  refine ⟨fun h => ⟨by simp [BoolOrString.MarshalJSON, h],
      fun b => by simp [BoolOrString.MarshalJSON, h]⟩, fun h => ?_⟩
  have e : BoolOrString.MarshalJSON bs = Bool.MarshalJSON bs.Bool := by
    simp [BoolOrString.MarshalJSON, h]
  refine ⟨e, fun hb => ?_, fun hb => ?_⟩
  · rw [e, hb]; rfl
  · rw [e, hb]; rfl

theorem BoolOrString.marshal_string_before_bool_witness :
    BoolOrString.MarshalJSON { Bool := true, String := utf8 "prompt" }
      = (utf8 "\"prompt\"", none) ∧
    BoolOrString.MarshalJSON { Bool := true, String := [] } = (utf8 "true", none) ∧
    BoolOrString.MarshalJSON { Bool := false, String := [] } = (utf8 "false", none) :=
  ⟨((BoolOrString.marshal_string_before_bool { Bool := true, String := utf8 "prompt" }).1
      (by decide)).1,
   ((BoolOrString.marshal_string_before_bool { Bool := true, String := [] }).2 rfl).2.1 rfl,
   ((BoolOrString.marshal_string_before_bool { Bool := false, String := [] }).2 rfl).2.2 rfl⟩

/-! ## Psr -/

theorem badNumberList_of_strings (js : List JValue) :
    ∀ xs, assertStrings js = some xs → badNumberList js = none := by
  induction js with
  | nil => intro _ _; rfl
  | cons j js ih =>
    intro xs h
    cases j with
    | str raw s =>
      simp only [assertStrings, Option.map_eq_some'] at h
      obtain ⟨l, hl, _⟩ := h
      simp only [badNumberList, JValue.badNumber]
      exact ih l hl
    | null => simp [assertStrings] at h
    | bool b => simp [assertStrings] at h
    | number raw => simp [assertStrings] at h
    | arr xs => simp [assertStrings] at h
    | obj kvs => simp [assertStrings] at h

theorem badNumber_of_accepts (v : JValue) (h : PsrAccepts v) : v.badNumber = none := by
  rcases h with rfl | ⟨raw, s, rfl⟩ | ⟨js, xs, rfl, hx⟩
  · rfl
  · rfl
  · simp only [JValue.badNumber]
    exact badNumberList_of_strings js xs hx

theorem badNumberMembers_of_accepts (kvs : List (Bytes × JValue))
    (h : ∀ kv ∈ kvs, PsrAccepts kv.2) : badNumberMembers kvs = none := by
  induction kvs with
  | nil => rfl
  | cons kv kvs ih =>
    obtain ⟨k, v⟩ := kv
    simp only [badNumberMembers, badNumber_of_accepts v (h (k, v) (List.mem_cons_self _ _))]
    exact ih fun kv hkv => h kv (List.mem_cons_of_mem _ hkv)

theorem Psr.rangeLoop_accepts (bytes : Bytes) (l : List (Bytes × JValue)) :
    ∀ m, (∀ kv ∈ l, PsrAccepts kv.2) →
      Psr.rangeLoop bytes l m = .returned (mapOfMembers psrNorm l m) none := by
  induction l with
  | nil => intro m _; rfl
  | cons kv l ih =>
    intro m h
    obtain ⟨k, v⟩ := kv
    have ih1 := fun m1 => ih m1 fun kv hkv => h kv (List.mem_cons_of_mem _ hkv)
    rcases h (k, v) (List.mem_cons_self _ _) with hv | ⟨raw, s, hv⟩ | ⟨js, xs, hv, hx⟩
    · simp only at hv; subst hv
      simp only [Psr.rangeLoop, ih1, mapOfMembers_cons, psrNorm]
    · simp only at hv; subst hv
      simp only [Psr.rangeLoop, ih1, mapOfMembers_cons, psrNorm]
    · simp only at hv; subst hv
      simp only [Psr.rangeLoop, hx, ih1, mapOfMembers_cons, psrNorm]

theorem mem_mapOfMembers {V W : Type} (f : V → W) (l : List (Bytes × V)) :
    ∀ (m : GoMap W) (x : Bytes × W), x ∈ mapOfMembers f l m →
      x ∈ m ∨ ∃ kv ∈ l, x = (kv.1, f kv.2) := by
  induction l with
  | nil => intro m x h; exact Or.inl h
  | cons kv l ih =>
    intro m x h
    rw [mapOfMembers_cons] at h
    rcases ih _ x h with h | ⟨kv1, h1, h2⟩
    · rcases mem_mapInsert _ _ _ _ h with h | h
      · exact Or.inr ⟨kv, List.mem_cons_self _ _, h⟩
      · exact Or.inl h
    · exact Or.inr ⟨kv1, List.mem_cons_of_mem _ h1, h2⟩

theorem mapLookup_eq_some_iff {V : Type} (l : GoMap V) (hl : (l.map Prod.fst).Nodup) (k : Bytes)
    (v : V) : mapLookup k l = some v ↔ (k, v) ∈ l := by
  induction l with
  | nil => simp [mapLookup]
  | cons kv l ih =>
    obtain ⟨k1, v1⟩ := kv
    rw [List.map_cons, List.nodup_cons] at hl
    simp only [mapLookup]
    by_cases h : k = k1
    · subst h
      simp only [if_true, Option.some.injEq, List.mem_cons, Prod.mk.injEq, true_and]
      constructor
      · intro e; exact Or.inl e.symm
      · rintro (e | e)
        · exact e.symm
        · exact absurd (List.mem_map.mpr ⟨(k, v), e, rfl⟩) hl.1
    · simp only [h, if_false, List.mem_cons, Prod.mk.injEq, false_and, false_or]
      exact ih hl.2

theorem mapLookup_eq_none {V : Type} (l : GoMap V) (k : Bytes) (h : k ∉ l.map Prod.fst) :
    mapLookup k l = none := by
  induction l with
  | nil => rfl
  | cons kv l ih =>
    obtain ⟨k1, v1⟩ := kv
    rw [List.map_cons, List.mem_cons, not_or] at h
    simp only [mapLookup, h.1, if_false]
    exact ih h.2

theorem lastValue_eq_mapLookup {V : Type} (l : List (Bytes × V)) (hl : (l.map Prod.fst).Nodup)
    (k : Bytes) : lastValue k l = mapLookup k l := by
  induction l with
  | nil => rfl
  | cons kv l ih =>
    obtain ⟨k1, v1⟩ := kv
    rw [List.map_cons, List.nodup_cons] at hl
    simp only [lastValue, mapLookup, ih hl.2]
    by_cases h : k = k1
    · subst h
      simp [mapLookup_eq_none l k hl.1]
    · simp only [h, if_false]
      cases mapLookup k l <;> rfl

theorem mapLookup_perm {V : Type} (l1 l2 : GoMap V) (hp : l1.Perm l2)
    (hl : (l1.map Prod.fst).Nodup) (k : Bytes) : mapLookup k l1 = mapLookup k l2 := by
  have hl2 : (l2.map Prod.fst).Nodup := (hp.map Prod.fst).nodup_iff.mp hl
  apply Option.ext
  intro v
  rw [Option.mem_def, Option.mem_def, mapLookup_eq_some_iff l1 hl, mapLookup_eq_some_iff l2 hl2]
  exact hp.mem_iff

theorem assertStrings_of_strings (js : List JValue) (xs : List Bytes)
    (h : List.Forall₂ IsJSONString js xs) : assertStrings js = some xs := by
  induction h with
  | nil => rfl
  | cons hj _ ih =>
    obtain ⟨raw, rfl⟩ := hj
    simp [assertStrings, ih]

theorem forall₂_exists_right {α β : Type} {R : α → β → Prop} {l1 : List α} {l2 : List β}
    (h : List.Forall₂ R l1 l2) {a : α} (ha : a ∈ l1) : ∃ b, b ∈ l2 ∧ R a b := by
  induction h with
  | nil => simp at ha
  | @cons x y l1 l2 hxy _ ih =>
    rcases List.mem_cons.mp ha with e | e
    · exact ⟨y, List.mem_cons_self _ _, e ▸ hxy⟩
    · obtain ⟨b, hb, hr⟩ := ih e
      exact ⟨b, List.mem_cons_of_mem _ hb, hr⟩

theorem IsPsrMember.norm {kv : Bytes × JValue} {e : Bytes × List Bytes} (h : IsPsrMember kv e) :
    psrNorm kv.2 = some e.2 ∧ PsrAccepts kv.2 := by
  obtain ⟨_, ⟨js, hj, hx⟩ | ⟨s, ⟨raw, hj⟩, he⟩⟩ := h
  · rw [hj]
    exact ⟨assertStrings_of_strings js _ hx, Or.inr (Or.inr ⟨js, _, rfl,
      assertStrings_of_strings js _ hx⟩)⟩
  · rw [hj, he]
    exact ⟨rfl, Or.inr (Or.inl ⟨raw, s, rfl⟩)⟩

theorem lastValue_psrNorm (k : Bytes) (kvs : List (Bytes × JValue))
    (es : List (Bytes × List Bytes)) (h : List.Forall₂ IsPsrMember kvs es) :
    (match lastValue k kvs with
      | some x => some (psrNorm x)
      | none => none) = (lastValue k es).map some := by
  induction h with
  | nil => rfl
  | @cons kv e kvs es hkv _ ih =>
    have hn := hkv.norm.1
    obtain ⟨k1, v1⟩ := kv
    obtain ⟨k2, v2⟩ := e
    have hk : k1 = k2 := hkv.1
    subst hk
    simp only at hn
    simp only [lastValue]
    cases h1 : lastValue k kvs with
    | some x =>
      rw [h1] at ih
      cases h2 : lastValue k es with
      | some y => rw [h2] at ih; exact ih
      | none => rw [h2] at ih; exact absurd ih (by simp)
    | none =>
      rw [h1] at ih
      cases h2 : lastValue k es with
      | some y => rw [h2] at ih; exact absurd ih (by simp)
      | none =>
        by_cases hkk : k = k1
        · simp [hkk, hn]
        · simp [hkk]

/-- C4: for every JSON object whose values are each a string or an array of
strings, `Psr.UnmarshalJSON` succeeds whatever the target held and whatever
order the range over the parsed map takes; the result has exactly the keys
of the object, a key with string value `s` mapped to `[s]` and a key with
array value `xs` mapped to `xs` (for a repeated key, the last member). -/
theorem Psr.unmarshal_normalises (order : GoMap JValue → List (Bytes × JValue))
    (ho : RangeOrder order) (p : Psr) (bytes : Bytes) (kvs : List (Bytes × JValue))
    (es : List (Bytes × List Bytes)) (hp : parseJSON bytes = some (.obj kvs))
    (hs : List.Forall₂ IsPsrMember kvs es) :
    ∃ m, Psr.UnmarshalJSON order p bytes = .returned (some m) none ∧ MapSorted m ∧
      ∀ k, mapLookup k m = (lastValue k es).map some := by
  have hi : MapSorted (mapOfMembers id kvs ([] : GoMap JValue)) :=
    mapOfMembers_sorted _ _ _ List.Pairwise.nil
  have hperm := ho (mapOfMembers id kvs [])
  have hnd : ((order (mapOfMembers id kvs [])).map Prod.fst).Nodup :=
    (hperm.map Prod.fst).nodup_iff.mpr (mapSorted_nodup _ hi)
  have hacc : ∀ kv ∈ order (mapOfMembers id kvs []), PsrAccepts kv.2 := by
    intro kv hkv
    rcases mem_mapOfMembers id kvs [] kv (hperm.mem_iff.mp hkv) with h | ⟨kv1, h1, h2⟩
    · simp at h
    · obtain ⟨e, _, he⟩ := forall₂_exists_right hs h1
      rw [h2]
      exact he.norm.2
  have hbn : badNumberMembers kvs = none :=
    badNumberMembers_of_accepts kvs fun kv hkv => by
      obtain ⟨e, _, he⟩ := forall₂_exists_right hs hkv
      exact he.norm.2
  refine ⟨mapOfMembers psrNorm (order (mapOfMembers id kvs [])) [], ?_,
    mapOfMembers_sorted _ _ _ List.Pairwise.nil, fun k => ?_⟩
  · simp only [Psr.UnmarshalJSON, unmarshal, hp, storeAnyMap, hbn, Option.map_none',
      Option.getD_some, Psr.rangeLoop_accepts bytes _ [] hacc]
  · rw [mapLookup_mapOfMembers, lastValue_eq_mapLookup _ hnd,
      mapLookup_perm _ _ hperm hnd, mapLookup_mapOfMembers, ← lastValue_psrNorm k kvs es hs]
    simp only [mapLookup, id]
    cases lastValue k kvs <;> rfl

theorem Psr.unmarshal_normalises_witness :
    ∃ m, Psr.UnmarshalJSON id (some []) (utf8 "\x7b\"A\": \"x\", \"B\": [\"x\",\"y\"]\x7d")
        = .returned (some m) none ∧ MapSorted m ∧
      ∀ k, mapLookup k m
        = (lastValue k [(utf8 "A", [utf8 "x"]), (utf8 "B", [utf8 "x", utf8 "y"])]).map some :=
  Psr.unmarshal_normalises id (fun m => List.Perm.refl m) (some [])
    (utf8 "\x7b\"A\": \"x\", \"B\": [\"x\",\"y\"]\x7d") _ _ rfl
    (.cons ⟨rfl, Or.inr ⟨_, ⟨_, rfl⟩, rfl⟩⟩
      (.cons ⟨rfl, Or.inl ⟨_, rfl, .cons ⟨_, rfl⟩ (.cons ⟨_, rfl⟩ .nil)⟩⟩ .nil))

/-! ## Repositories -/

theorem allSome_of_forall₂ {α β : Type} (f : α → Option β) (l : List α) (r : List β)
    (h : List.Forall₂ (fun a b => f a = some b) l r) : allSome (l.map f) = some r := by
  induction h with
  | nil => rfl
  | cons hab _ ih => simp [allSome, hab, ih]

theorem allSome_members (kvs : List (Bytes × JValue)) (es : List Repository)
    (hd : List.Forall₂ (fun kv e => DecodesTo kv.2 e) kvs es) :
    ∃ es1 : List (Bytes × Repository),
      allSome (kvs.map fun kv => (storeRepository kv.2 Repository.zero).map fun r => (kv.1, r))
        = some es1 ∧ es1.map Prod.fst = kvs.map Prod.fst ∧ es1.map Prod.snd = es := by
  induction hd with
  | nil => exact ⟨[], rfl, rfl, rfl⟩
  | @cons kv e kvs es hkv _ ih =>
    obtain ⟨es1, h1, h2, h3⟩ := ih
    have : storeRepository kv.2 Repository.zero = some e := hkv
    exact ⟨(kv.1, e) :: es1, by simp [allSome, this, h1], by simp [h2], by simp [h3]⟩

theorem Repositories.unmarshal_decoded
    (order : GoMap Repository → List (Bytes × Repository)) (ho : RangeOrder order)
    (p : Repositories) (bytes : Bytes) :
    (∀ js es, parseJSON bytes = some (.arr js) → List.Forall₂ DecodesTo js es →
      Repositories.UnmarshalJSON order p bytes = (some es, none)) ∧
    (∀ kvs es, parseJSON bytes = some (.obj kvs) → (kvs.map Prod.fst).Nodup →
      List.Forall₂ (fun kv e => DecodesTo kv.2 e) kvs es →
      ∃ res, Repositories.UnmarshalJSON order p bytes = (some res, none) ∧
        res.Perm es ∧ res.length = kvs.length) := by
  refine ⟨fun js es hp hd => ?_, fun kvs es hp hnd hd => ?_⟩
  · have := allSome_of_forall₂ (fun j => storeRepository j Repository.zero) js es hd
    simp [Repositories.UnmarshalJSON, unmarshalRepositorySlice, hp, this]
  · obtain ⟨es1, hall, hkeys, hvals⟩ := allSome_members kvs es hd
    have hperm := mapOfMembers_perm (id : Repository → Repository) es1 []
      (by rw [hkeys]; exact hnd) (by simp)
    have hid : (es1.map fun kv : Bytes × Repository => (kv.1, id kv.2)) = es1 := by simp
    rw [List.nil_append, hid] at hperm
    have hres : ((order (mapOfMembers id es1 [])).map fun kv => kv.2).Perm es := by
      have := ((ho (mapOfMembers id es1 [])).trans hperm).map Prod.snd
      rw [hvals] at this
      exact this
    refine ⟨_, ?_, hres, ?_⟩
    · simp [Repositories.UnmarshalJSON, unmarshalRepositorySlice, unmarshalRepositoryMap, hp, hall]
    · rw [hres.length_eq, ← hd.length_eq]

/-! ## Psr round trip -/

theorem psrNorm_psrWire (v : Option (List Bytes)) : psrNorm (psrWire v) = v := by
  cases v with
  | none => rfl
  | some xs => exact assertStrings_of_strings _ xs (forall₂_isJSONString xs)

theorem psrAccepts_psrWire (v : Option (List Bytes)) : PsrAccepts (psrWire v) := by
  cases v with
  | none => exact Or.inl rfl
  | some xs =>
    exact Or.inr (Or.inr ⟨_, xs, rfl, assertStrings_of_strings _ xs (forall₂_isJSONString xs)⟩)

theorem readsAs_psrWire (v : Option (List Bytes))
    (hv : ∀ xs, v = some xs → ∀ s ∈ xs, validUTF8 s = true) :
    ReadsAs (marshalStrings v) (psrWire v) (marshalStrings v).length 1 := by
  cases v with
  | none => exact readsAs_null.mono (by decide) (by decide)
  | some xs =>
    exact (readsAs_marshalStrings xs (hv xs rfl)).mono (marshalStrings_length xs) (le_refl _)

theorem parseJSON_marshalPsr (pm : GoMap (Option (List Bytes))) (hv : ValidPsr pm) :
    parseJSON (marshalMap marshalStrings (some pm))
      = some (.obj (pm.map fun kv => (kv.1, psrWire kv.2))) := by
  have hK : ∀ kv ∈ pm, (marshalStrings kv.2).length
      ≤ (commaSep (pm.map fun kv => marshalString kv.1 ++ 0x3A :: marshalStrings kv.2)).length := by
    intro kv hkv
    have := length_le_commaSep_of_mem
      (pm.map fun kv => marshalString kv.1 ++ 0x3A :: marshalStrings kv.2)
      (marshalString kv.1 ++ 0x3A :: marshalStrings kv.2) (List.mem_map.mpr ⟨kv, hkv, rfl⟩)
    simp at this ⊢; omega
  have hr := readsAs_object marshalStrings psrWire
    (commaSep (pm.map fun kv => marshalString kv.1 ++ 0x3A :: marshalStrings kv.2)).length 1 pm
    fun kv hkv => ⟨(hv kv hkv).1, (readsAs_psrWire kv.2 (hv kv hkv).2).mono (hK kv hkv) (le_refl _)⟩
  refine parseJSON_of_readsAs hr ?_ (by decide)
  have := length_le_commaSep (pm.map fun kv => marshalString kv.1 ++ 0x3A :: marshalStrings kv.2)
    (by
      intro e he
      obtain ⟨kv, _, rfl⟩ := List.mem_map.mp he
      simp)
  simp [marshalMap] at this ⊢; omega

theorem forall₂_isPsrWire (pm : GoMap (Option (List Bytes))) :
    List.Forall₂ IsPsrWire (pm.map fun kv => (kv.1, psrWire kv.2)) pm := by
  induction pm with
  | nil => exact .nil
  | cons kv pm ih =>
    refine .cons ⟨rfl, ?_⟩ ih
    obtain ⟨k, v⟩ := kv
    cases v with
    | none => exact Or.inr ⟨rfl, rfl⟩
    | some xs => exact Or.inl ⟨xs, rfl, _, rfl, forall₂_isJSONString xs⟩

/-- C5 (as amended): for every non-nil mapping `pm` whose keys and strings
are valid UTF-8, `Psr.MarshalJSON` writes a JSON object with one member per
entry, in key order, whose value is an array for every non-nil sequence
(also for singletons) and `null` for a nil sequence; and `Psr.UnmarshalJSON`
of that output succeeds, whatever the target held and whatever order the
range takes, and yields `pm`. -/
theorem Psr.psr_round_trip (order : GoMap JValue → List (Bytes × JValue))
    (ho : RangeOrder order) (p : Psr) (pm : GoMap (Option (List Bytes))) (hs : MapSorted pm)
    (hv : ValidPsr pm) :
    (Psr.MarshalJSON (some pm)).2 = none ∧
    (∃ kvs, parseJSON (Psr.MarshalJSON (some pm)).1 = some (.obj kvs) ∧
      List.Forall₂ IsPsrWire kvs pm) ∧
    Psr.UnmarshalJSON order p (Psr.MarshalJSON (some pm)).1 = .returned (some pm) none := by
  have hp := parseJSON_marshalPsr pm hv
  refine ⟨rfl, ⟨_, hp, forall₂_isPsrWire pm⟩, ?_⟩
  have hkeys : ((pm.map fun kv => (kv.1, psrWire kv.2)).map Prod.fst) = pm.map Prod.fst := by
    rw [List.map_map]; rfl
  have hnd : ((pm.map fun kv => (kv.1, psrWire kv.2)).map Prod.fst).Nodup := by
    rw [hkeys]; exact mapSorted_nodup pm hs
  have hi0 := mapOfMembers_perm (id : JValue → JValue)
    (pm.map fun kv => (kv.1, psrWire kv.2)) [] hnd (by simp)
  have hid : ((pm.map fun kv => (kv.1, psrWire kv.2)).map
      fun kv : Bytes × JValue => (kv.1, id kv.2)) = pm.map fun kv => (kv.1, psrWire kv.2) := by
    simp
  rw [List.nil_append, hid] at hi0
  have hl := (ho (mapOfMembers id (pm.map fun kv => (kv.1, psrWire kv.2)) [])).trans hi0
  have hlnd : ((order (mapOfMembers id (pm.map fun kv => (kv.1, psrWire kv.2)) [])).map
      Prod.fst).Nodup := (hl.map Prod.fst).nodup_iff.mpr hnd
  have hacc : ∀ kv ∈ order (mapOfMembers id (pm.map fun kv => (kv.1, psrWire kv.2)) []),
      PsrAccepts kv.2 := by
    intro kv hkv
    obtain ⟨e, _, rfl⟩ := List.mem_map.mp (hl.mem_iff.mp hkv)
    exact psrAccepts_psrWire e.2
  have hm := mapOfMembers_perm psrNorm
    (order (mapOfMembers id (pm.map fun kv => (kv.1, psrWire kv.2)) [])) [] hlnd (by simp)
  rw [List.nil_append] at hm
  have hm2 := hm.trans (hl.map fun kv => (kv.1, psrNorm kv.2))
  have hback : ((pm.map fun kv => (kv.1, psrWire kv.2)).map
      fun kv : Bytes × JValue => (kv.1, psrNorm kv.2)) = pm := by
    rw [List.map_map]
    conv_rhs => rw [← List.map_id pm]
    apply List.map_congr_left
    intro kv _
    simp [psrNorm_psrWire]
  rw [hback] at hm2
  have heq := mapSorted_eq_of_perm _ _ hm2 (mapOfMembers_sorted _ _ _ List.Pairwise.nil) hs
  have hbn : badNumberMembers (pm.map fun kv => (kv.1, psrWire kv.2)) = none :=
    badNumberMembers_of_accepts _ fun kv hkv => by
      obtain ⟨x, _, rfl⟩ := List.mem_map.mp hkv
      exact psrAccepts_psrWire _
  simp only [Psr.MarshalJSON, Psr.UnmarshalJSON, unmarshal, hp, storeAnyMap, hbn,
    Option.map_none', Option.getD_some, Psr.rangeLoop_accepts _ _ [] hacc, heq]

theorem Psr.psr_round_trip_witness :
    Psr.UnmarshalJSON id none
        (Psr.MarshalJSON (some [(utf8 "Monolog\\", some [utf8 "src/", utf8 "lib/"])])).1
      = .returned (some [(utf8 "Monolog\\", some [utf8 "src/", utf8 "lib/"])]) none :=
  (Psr.psr_round_trip id (fun m => List.Perm.refl m) none
    [(utf8 "Monolog\\", some [utf8 "src/", utf8 "lib/"])]
    (List.pairwise_singleton _ _) (by
      intro kv hkv
      rw [List.mem_singleton] at hkv
      subst hkv
      refine ⟨by decide, fun xs hxs => ?_⟩
      have : xs = [utf8 "src/", utf8 "lib/"] := (Option.some.inj hxs).symm
      subst this
      decide)).2.2

/-- C5 (counterexample): the nil `Psr` is written as `null`, which is not a
JSON object, and reading that back gives an empty, non-nil map; an entry
with a nil sequence is written with the value `null`, not an array; and a
string that is not valid UTF-8 does not come back. -/
theorem Psr.marshal_nil_not_object :
    Psr.MarshalJSON none = (utf8 "null", none) ∧
    parseJSON (Psr.MarshalJSON none).1 = some .null ∧
    Psr.UnmarshalJSON id none (Psr.MarshalJSON none).1 = .returned (some []) none ∧
    Psr.MarshalJSON (some [(utf8 "a", none)]) = (utf8 "\x7b\"a\":null\x7d", none) ∧
    Psr.UnmarshalJSON id none (Psr.MarshalJSON (some [(utf8 "a", some [[0xFF]])])).1
      = .returned (some [(utf8 "a", some [[0xEF, 0xBF, 0xBD]])]) none :=
  ⟨by decide, rfl, by decide, by decide, by decide⟩

/-! ## IntString -/

theorem stripQuotes_foldl (bytes : Bytes) : ∀ acc : Bytes,
    bytes.foldl (fun r b => if b = 0x22 then r else r ++ [b]) acc
      = acc ++ bytes.filter (fun b => decide (b ≠ 0x22)) := by
  induction bytes with
  | nil => intro acc; simp
  | cons b bs ih =>
    intro acc
    by_cases hb : b = 0x22
    · simp [List.foldl_cons, hb, ih]
    · simp [List.foldl_cons, hb, ih]

theorem IntString.unmarshal_eq_filter (c : IntString) (bytes : Bytes) :
    IntString.UnmarshalJSON c bytes = (bytes.filter (fun b => decide (b ≠ 0x22)), none) := by
  simp [IntString.UnmarshalJSON, stripQuotes_foldl]

theorem quoteByte_alnum (b : Nat) (h : isAlnum b = true) : quoteByte b = [b] := by
  simp only [isAlnum, Bool.or_eq_true, Bool.and_eq_true, decide_eq_true_eq] at h
  have h1 : ¬ (b = 0x22 ∨ b = 0x5C) := by omega
  have h2 : ¬ b = 8 := by omega
  have h3 : ¬ b = 12 := by omega
  have h4 : ¬ b = 10 := by omega
  have h5 : ¬ b = 13 := by omega
  have h6 : ¬ b = 9 := by omega
  have h7 : ¬ (b < 0x20 ∨ b = 0x3C ∨ b = 0x3E ∨ b = 0x26) := by omega
  simp only [quoteByte, h1, h2, h3, h4, h5, h6, h7, if_false]

theorem appendString_alnum (n : Nat) : ∀ s : Bytes, s.length ≤ n →
    (∀ b ∈ s, isAlnum b = true) → appendString n s = s := by
  induction n with
  | zero =>
    intro s hn _
    cases s with
    | nil => rfl
    | cons b rest => simp at hn
  | succ n ih =>
    intro s hn hs
    cases s with
    | nil => rfl
    | cons b rest =>
      have hb := hs b (List.mem_cons_self _ _)
      have hlt : b < 0x80 := by
        simp only [isAlnum, Bool.or_eq_true, Bool.and_eq_true, decide_eq_true_eq] at hb
        omega
      have hr := ih rest (by simpa using hn) fun x hx => hs x (List.mem_cons_of_mem _ hx)
      simp only [appendString, hlt, if_true, quoteByte_alnum b hb, hr]
      rfl

theorem filter_quote_free (s : Bytes) (h : 0x22 ∉ s) :
    s.filter (fun b => decide (b ≠ 0x22)) = s := by
  rw [List.filter_eq_self]
  intro a ha
  simp only [ne_eq, decide_not, Bool.not_eq_true', decide_eq_false_iff_not]
  rintro rfl
  exact h ha

theorem alnum_quote_free (s : Bytes) (hs : ∀ b ∈ s, isAlnum b = true) : 0x22 ∉ s := by
  intro h
  have := hs _ h
  simp [isAlnum] at this

/-- C11: `IntString.UnmarshalJSON` never fails and is exactly quote stripping:
whatever the bytes and the target, it returns no error and leaves the bytes
without their double quotes, the others in their order; so `300`, `"300"`
and `"300MiB"` give `300`, `300` and `300MiB`. -/
theorem IntString.unmarshal_strips_quotes (c : IntString) (bytes : Bytes) :
    IntString.UnmarshalJSON c bytes = (bytes.filter (fun b => decide (b ≠ 0x22)), none)
      ∧ IntString.UnmarshalJSON c (utf8 "300") = (utf8 "300", none)
      ∧ IntString.UnmarshalJSON c (utf8 "\"300\"") = (utf8 "300", none)
      ∧ IntString.UnmarshalJSON c (utf8 "\"300MiB\"") = (utf8 "300MiB", none) :=
  ⟨IntString.unmarshal_eq_filter c bytes,
    by rw [IntString.unmarshal_eq_filter]; decide,
    by rw [IntString.unmarshal_eq_filter]; decide,
    by rw [IntString.unmarshal_eq_filter]; decide⟩

/-- C12: for a string `s` of ASCII letters and digits, `IntString.MarshalJSON`
writes `s` between double quotes, and `IntString.UnmarshalJSON` of that output
gives `s` again, whatever the target held. -/
theorem IntString.alnum_round_trip (c s : IntString) (hs : ∀ b ∈ s, isAlnum b = true) :
    IntString.MarshalJSON s = (0x22 :: (s ++ [0x22]), none)
      ∧ IntString.UnmarshalJSON c (IntString.MarshalJSON s).1 = (s, none) := by
  have e : IntString.MarshalJSON s = (0x22 :: (s ++ [0x22]), none) := by
    simp only [IntString.MarshalJSON, marshalString, appendString_alnum s.length s (le_refl _) hs]
  refine ⟨e, ?_⟩
  rw [e, IntString.unmarshal_eq_filter]
  simp only [List.filter_cons, List.filter_append, filter_quote_free s (alnum_quote_free s hs)]
  simp

theorem IntString.alnum_round_trip_witness :
    (∀ b ∈ utf8 "300MiB", isAlnum b = true)
      ∧ IntString.MarshalJSON (utf8 "300MiB") = (utf8 "\"300MiB\"", none)
      ∧ IntString.UnmarshalJSON (utf8 "x") (IntString.MarshalJSON (utf8 "300MiB")).1
          = (utf8 "300MiB", none) :=
  ⟨by decide, IntString.alnum_round_trip (utf8 "x") (utf8 "300MiB") (by decide)⟩

theorem quoteByte_quote_free (b : Nat) (hb : b ≠ 0x22) : 0x22 ∉ quoteByte b := by
  unfold quoteByte hexDigit
  split_ifs <;> simp <;> omega

theorem appendString_quote_free (n : Nat) : ∀ s : Bytes, 0x22 ∉ s → 0x22 ∉ appendString n s := by
  induction n with
  | zero => intro s _; cases s <;> simp [appendString]
  | succ n ih =>
    intro s hs
    cases s with
    | nil => simp [appendString]
    | cons b rest =>
      have hb : b ≠ 0x22 := fun h => hs (h ▸ List.mem_cons_self _ _)
      have hrest : 0x22 ∉ rest := fun h => hs (List.mem_cons_of_mem _ h)
      have hdrop : ∀ k, 0x22 ∉ rest.drop k := fun k h => hrest (List.mem_of_mem_drop h)
      have htake : ∀ k, 0x22 ∉ (b :: rest).take k := fun k h => hs (List.mem_of_mem_take h)
      simp only [appendString]
      split_ifs
      · exact fun h => (List.mem_append.mp h).elim (quoteByte_quote_free b hb) (ih rest hrest)
      · intro h
        rcases List.mem_append.mp h with h | h
        · simp at h
        · exact ih rest hrest h
      · intro h
        rcases List.mem_append.mp h with h | h
        · have : hexDigit ((decodeRune (b :: rest)).1 % 16) ≠ 0x22 := by
            unfold hexDigit; split_ifs <;> omega
          simp at h
          exact this h.symm
        · exact ih _ (hdrop _) h
      · intro h
        rcases List.mem_append.mp h with h | h
        · exact htake _ h
        · exact ih _ (hdrop _) h

theorem stripQuotes_quote_free (bytes : Bytes) :
    0x22 ∉ bytes.filter (fun b => decide (b ≠ 0x22)) := by
  intro h
  have := (List.mem_filter.mp h).2
  simp at this

theorem IntString.unmarshal_marshal (c : IntString) (v : Bytes) (hv : 0x22 ∉ v) :
    IntString.UnmarshalJSON c (IntString.MarshalJSON v).1 = (appendString v.length v, none) := by
  rw [IntString.unmarshal_eq_filter]
  simp only [IntString.MarshalJSON, marshalString, List.filter_cons, List.filter_append,
    filter_quote_free _ (appendString_quote_free v.length v hv)]
  simp

/-- C14 (counterexample): the JSON string token `"\n"`, a backslash escape,
decodes to the two bytes backslash and `n`; `IntString.MarshalJSON` writes
them as `"\\n"`, doubling the backslash, and decoding that gives three bytes,
not the two that went in. -/
theorem IntString.escape_not_round_trip :
    IntString.UnmarshalJSON [] (utf8 "\"\\n\"") = (utf8 "\\n", none) ∧
    IntString.MarshalJSON (utf8 "\\n") = (utf8 "\"\\\\n\"", none) ∧
    IntString.UnmarshalJSON [] (IntString.MarshalJSON (utf8 "\\n")).1 = (utf8 "\\\\n", none) ∧
    IntString.UnmarshalJSON []
        (IntString.MarshalJSON (IntString.UnmarshalJSON [] (utf8 "\"\\n\"")).1).1
      ≠ IntString.UnmarshalJSON [] (utf8 "\"\\n\"") := by
  refine ⟨by decide, by decide, by decide, by decide⟩

/-- C14 (amended): for every wire token `x`, with `v` the `IntString` decoded
from `x`, decoding `IntString.MarshalJSON v` gives `v` again exactly when
`IntString.MarshalJSON v` is `v` between double quotes, that is when the
encoder escapes nothing in `v`. -/
theorem IntString.canonical_round_trip (c c1 : IntString) (x : Bytes) :
    IntString.UnmarshalJSON c1 (IntString.MarshalJSON (IntString.UnmarshalJSON c x).1).1
        = ((IntString.UnmarshalJSON c x).1, none)
      ↔ IntString.MarshalJSON (IntString.UnmarshalJSON c x).1
        = (0x22 :: ((IntString.UnmarshalJSON c x).1 ++ [0x22]), none) := by
  rw [IntString.unmarshal_eq_filter c x]
  simp only []
  rw [IntString.unmarshal_marshal c1 _ (stripQuotes_quote_free x)]
  simp only [IntString.MarshalJSON, marshalString, Prod.mk.injEq, and_true, List.cons.injEq,
    true_and, List.append_cancel_right_eq]

theorem IntString.canonical_round_trip_witness :
    IntString.UnmarshalJSON (utf8 "x")
        (IntString.MarshalJSON (IntString.UnmarshalJSON [] (utf8 "\"300MiB\"")).1).1
      = ((IntString.UnmarshalJSON [] (utf8 "\"300MiB\"")).1, none) :=
  (IntString.canonical_round_trip [] (utf8 "x") (utf8 "\"300MiB\"")).mpr (by decide)

/-! ## Error paths -/

/-- C16: in the object `{"a":[1]}` the value of `a` is an array whose element
is a number. `Psr.UnmarshalJSON` does not return an error on it: the unchecked
assertion `s.(string)` panics, whatever the target held; the same happens for
an element that is a boolean, `null`, an array or an object. -/
theorem Psr.unmarshal_panics_on_non_string_element (p : Psr) :
    parseJSON (utf8 "\x7b\"a\":[1]\x7d") = some (.obj [(utf8 "a", .arr [.number (utf8 "1")])]) ∧
    Psr.UnmarshalJSON id p (utf8 "\x7b\"a\":[1]\x7d") = .panicked ∧
    Psr.UnmarshalJSON id p (utf8 "\x7b\"a\":[\"x\",true]\x7d") = .panicked ∧
    Psr.UnmarshalJSON id p (utf8 "\x7b\"a\":[null]\x7d") = .panicked ∧
    Psr.UnmarshalJSON id p (utf8 "\x7b\"a\":[[]]\x7d") = .panicked ∧
    Psr.UnmarshalJSON id p (utf8 "\x7b\"a\":[\x7b\x7d]\x7d") = .panicked :=
  ⟨rfl, rfl, rfl, rfl, rfl, rfl⟩

/-- C19: on the object `{"a": 1}` `ValueOrMap.UnmarshalJSON` returns an
error, yet the `Map` of a zero target is no longer nil after the call: the
second attempt decoded straight into the field and left the key `a` with the
empty string there. -/
theorem ValueOrMap.unmarshal_error_mutates_map :
    parseJSON (utf8 "\x7b\"a\": 1\x7d") = some (.obj [(utf8 "a", .number (utf8 "1"))]) ∧
    ValueOrMap.UnmarshalJSON { Value := [], Map := none } (utf8 "\x7b\"a\": 1\x7d")
      = ({ Value := [], Map := some [(utf8 "a", [])] },
          some (.new (utf8 "cannot unmarshal \x7b\"a\": 1\x7d"))) ∧
    (ValueOrMap.UnmarshalJSON { Value := [], Map := none } (utf8 "\x7b\"a\": 1\x7d")).1
      ≠ { Value := [], Map := none } :=
  ⟨rfl, by decide, by decide⟩

/-- C20 (counterexample): the nil `StringOrStrings` is written as `null`,
which is not a JSON array; and a string that is not valid UTF-8 is written as
an element that reads back as U+FFFD, not as the string of the sequence. -/
theorem StringOrStrings.marshal_nil_is_null :
    StringOrStrings.MarshalJSON none = (utf8 "null", none) ∧
    parseJSON (StringOrStrings.MarshalJSON none).1 = some .null ∧
    parseJSON (StringOrStrings.MarshalJSON (some [[0xFF]])).1
      = some (.arr [.str (utf8 "\"\\ufffd\"") [0xEF, 0xBF, 0xBD]]) :=
  ⟨by decide, rfl, rfl⟩

/-- C20 (amended): for every non-nil `StringOrStrings` of valid UTF-8
strings, the empty and the one-element sequence included,
`StringOrStrings.MarshalJSON` returns no error and its output is a JSON array
whose elements are the strings of the sequence, in order. -/
theorem StringOrStrings.marshal_emits_array (xs : List Bytes)
    (hv : ∀ s ∈ xs, validUTF8 s = true) :
    (StringOrStrings.MarshalJSON (some xs)).2 = none ∧
    ∃ js, parseJSON (StringOrStrings.MarshalJSON (some xs)).1 = some (.arr js) ∧
      List.Forall₂ IsJSONString js xs :=
  ⟨rfl, _, parseJSON_marshalStrings xs hv, forall₂_isJSONString xs⟩

theorem StringOrStrings.marshal_emits_array_witness :
    (∃ js, parseJSON (StringOrStrings.MarshalJSON (some [])).1 = some (.arr js) ∧
      List.Forall₂ IsJSONString js []) ∧
    (∃ js, parseJSON (StringOrStrings.MarshalJSON (some [utf8 "MIT"])).1 = some (.arr js) ∧
      List.Forall₂ IsJSONString js [utf8 "MIT"]) :=
  ⟨(StringOrStrings.marshal_emits_array [] (by decide)).2,
   (StringOrStrings.marshal_emits_array [utf8 "MIT"] (by decide)).2⟩

/-! ## Psr: error paths -/

theorem Psr.rangeLoop_unsupported (bytes : Bytes) (l : List (Bytes × JValue)) :
    ∀ m, (∀ kv ∈ l, ∀ js, kv.2 = .arr js → ∃ xs, assertStrings js = some xs) →
      (∃ kv ∈ l, PsrUnsupported kv.2) →
      ∃ m1, Psr.rangeLoop bytes l m
        = .returned m1 (some (.new (utf8 "cannot unmarshal psr " ++ bytes))) := by
  induction l with
  | nil => intro m _ h; obtain ⟨kv, hkv, _⟩ := h; simp at hkv
  | cons kv l ih =>
    intro m harr hbad
    obtain ⟨k, v⟩ := kv
    have hrest : ∀ kv ∈ l, ∀ js, kv.2 = .arr js → ∃ xs, assertStrings js = some xs :=
      fun kv h => harr kv (List.mem_cons_of_mem _ h)
    have hbad1 : (¬ PsrUnsupported v) → ∃ kv ∈ l, PsrUnsupported kv.2 := by
      intro hv
      obtain ⟨kv, hkv, hu⟩ := hbad
      rcases List.mem_cons.mp hkv with h | h
      · subst h; exact absurd hu hv
      · exact ⟨kv, h, hu⟩
    cases v with
    | null => exact ih _ hrest (hbad1 (by simp [PsrUnsupported]))
    | str raw s => exact ih _ hrest (hbad1 (by simp [PsrUnsupported]))
    | arr js =>
      obtain ⟨xs, hxs⟩ := harr (k, .arr js) (List.mem_cons_self _ _) js rfl
      simp only [Psr.rangeLoop, hxs]
      exact ih _ hrest (hbad1 (by simp [PsrUnsupported]))
    | bool b => exact ⟨m, rfl⟩
    | number raw => exact ⟨m, rfl⟩
    | obj kvs => exact ⟨m, rfl⟩

theorem mem_mapOfMembers_iff (kvs : List (Bytes × JValue)) (k : Bytes) (v : JValue) :
    (k, v) ∈ mapOfMembers id kvs ([] : GoMap JValue) ↔ lastValue k kvs = some v := by
  have hs : MapSorted (mapOfMembers id kvs ([] : GoMap JValue)) :=
    mapOfMembers_sorted _ _ _ List.Pairwise.nil
  rw [← mapLookup_eq_some_iff _ (mapSorted_nodup _ hs), mapLookup_mapOfMembers]
  cases lastValue k kvs <;> simp [mapLookup]

/-- C15: for every JSON object in which the value of some key is an object,
a boolean or a number and in which every value that is an array holds only
strings (the value of a repeated key being that of its last member),
`Psr.UnmarshalJSON` returns an error and leaves the target as it was,
whatever the target held and whatever order the range over the parsed map
takes. -/
theorem Psr.unmarshal_unsupported_shape (order : GoMap JValue → List (Bytes × JValue))
    (ho : RangeOrder order) (p : Psr) (bytes : Bytes) (kvs : List (Bytes × JValue))
    (hp : parseJSON bytes = some (.obj kvs))
    (hbad : ∃ k v, lastValue k kvs = some v ∧ PsrUnsupported v)
    (harr : ∀ k js, lastValue k kvs = some (.arr js) → ∃ xs, IsJSONStrings (.arr js) xs) :
    ∃ err, Psr.UnmarshalJSON order p bytes = .returned p (some err) := by
  have hperm := ho (mapOfMembers id kvs [])
  have h1 : ∀ kv ∈ order (mapOfMembers id kvs []), ∀ js, kv.2 = .arr js →
      ∃ xs, assertStrings js = some xs := by
    intro kv hkv js hjs
    obtain ⟨k, v⟩ := kv
    have hv : v = .arr js := hjs
    subst hv
    obtain ⟨xs, js1, hjs1, hf⟩ := harr k js ((mem_mapOfMembers_iff kvs k _).mp (hperm.mem_iff.mp hkv))
    cases hjs1
    exact ⟨xs, assertStrings_of_strings js xs hf⟩
  have h2 : ∃ kv ∈ order (mapOfMembers id kvs []), PsrUnsupported kv.2 := by
    obtain ⟨k, v, hkv, hu⟩ := hbad
    exact ⟨(k, v), hperm.mem_iff.mpr ((mem_mapOfMembers_iff kvs k v).mpr hkv), hu⟩
  obtain ⟨m1, hm1⟩ := Psr.rangeLoop_unsupported bytes _ [] h1 h2
  cases hbn : badNumberMembers kvs with
  | some raw =>
    exact ⟨rangeError raw,
      by simp only [Psr.UnmarshalJSON, unmarshal, hp, storeAnyMap, hbn, Option.map_some']⟩
  | none =>
    exact ⟨.new (utf8 "cannot unmarshal psr " ++ bytes),
      by simp only [Psr.UnmarshalJSON, unmarshal, hp, storeAnyMap, hbn, Option.map_none',
        Option.getD_some, hm1]⟩

theorem Psr.unmarshal_unsupported_shape_witness :
    ∃ err, Psr.UnmarshalJSON id (some [(utf8 "k", some [utf8 "v"])])
        (utf8 "\x7b\"Monolog\\\\\":true, \"src\":[\"a\"]\x7d")
      = .returned (some [(utf8 "k", some [utf8 "v"])]) (some err) :=
  Psr.unmarshal_unsupported_shape id (fun m => List.Perm.refl m) _
    (utf8 "\x7b\"Monolog\\\\\":true, \"src\":[\"a\"]\x7d")
    [(utf8 "Monolog\\", .bool true), (utf8 "src", .arr [.str (utf8 "\"a\"") (utf8 "a")])] rfl
    ⟨utf8 "Monolog\\", .bool true, rfl, Or.inr (Or.inl ⟨_, rfl⟩)⟩
    (by
      intro k js h
      have hk : js = [.str (utf8 "\"a\"") (utf8 "a")] := by
        simp only [lastValue] at h
        split_ifs at h <;> simp_all
      subst hk
      exact ⟨[utf8 "a"], _, rfl, .cons ⟨_, rfl⟩ .nil⟩)

/-- C17 (counterexample): `null` is a well-formed wire value that is not an
object, and `Psr.UnmarshalJSON` returns no error on it; a target that held an
entry is replaced by the empty map. -/
theorem Psr.psr_null_accepted :
    parseJSON (utf8 "null") = some .null ∧
    Psr.UnmarshalJSON id (some [(utf8 "a", some [utf8 "b"])]) (utf8 "null")
      = .returned (some []) none :=
  ⟨rfl, rfl⟩

/-- C17 (amended): for every well-formed wire value that is a bare string, a
number, a boolean or an array, `Psr.UnmarshalJSON` returns an error and
leaves the target as it was; for the wire value `null` it returns no error
and sets the target to the empty map. -/
theorem Psr.unmarshal_top_level (order : GoMap JValue → List (Bytes × JValue))
    (ho : RangeOrder order) (p : Psr) (bytes : Bytes) (v : JValue)
    (hp : parseJSON bytes = some v) :
    (((∃ raw s, v = .str raw s) ∨ (∃ raw, v = .number raw) ∨ (∃ b, v = .bool b) ∨
        (∃ js, v = .arr js)) →
      ∃ err, Psr.UnmarshalJSON order p bytes = .returned p (some err)) ∧
    (v = .null → Psr.UnmarshalJSON order p bytes = .returned (some []) none) := by
  constructor
  · rintro (⟨raw, s, rfl⟩ | ⟨raw, rfl⟩ | ⟨b, rfl⟩ | ⟨js, rfl⟩) <;>
      exact ⟨_, by simp only [Psr.UnmarshalJSON, unmarshal, hp, storeAnyMap]; rfl⟩
  · rintro rfl
    have h0 : order [] = [] := (ho []).eq_nil
    simp only [Psr.UnmarshalJSON, unmarshal, hp, storeAnyMap, Option.getD_none, h0,
      Psr.rangeLoop]

theorem Psr.unmarshal_top_level_witness :
    (∃ err, Psr.UnmarshalJSON id (some []) (utf8 "\"Monolog\"") = .returned (some []) (some err)) ∧
    (∃ err, Psr.UnmarshalJSON id (some []) (utf8 "[\"a\"]") = .returned (some []) (some err)) :=
  ⟨(Psr.unmarshal_top_level id (fun m => List.Perm.refl m) (some []) (utf8 "\"Monolog\"")
      (.str (utf8 "\"Monolog\"") (utf8 "Monolog")) rfl).1 (Or.inl ⟨_, _, rfl⟩),
   (Psr.unmarshal_top_level id (fun m => List.Perm.refl m) (some []) (utf8 "[\"a\"]")
      (.arr [.str (utf8 "\"a\"") (utf8 "a")]) rfl).1 (Or.inr (Or.inr (Or.inr ⟨_, rfl⟩)))⟩

/-! ## Wrong top-level shape -/

theorem allSome_eq_none {α : Type} (l : List (Option α)) (h : none ∈ l) : allSome l = none := by
  induction l with
  | nil => simp at h
  | cons x l ih =>
    cases x with
    | none => rfl
    | some a =>
      have : none ∈ l := by simpa using h
      simp [allSome, ih this]

theorem storeString_error (j : JValue) (cur : Bytes) (h0 : j ≠ .null)
    (h1 : ∀ raw s, j ≠ .str raw s) : (storeString j cur).2 ≠ none := by
  cases j with
  | null => exact absurd rfl h0
  | str raw s => exact absurd rfl (h1 raw s)
  | bool b => simp [storeString]
  | number raw => simp [storeString]
  | arr js => simp [storeString]
  | obj kvs => simp [storeString]

/-- C18 (counterexample): `null` is neither a string nor an array of
strings, yet `StringOrStrings.UnmarshalJSON` returns no error on it and sets
the target to the one empty string, and likewise on the array `[null]`;
`null` is neither an array nor an object of entries, yet
`Repositories.UnmarshalJSON` returns no error on it and sets a target that
held an entry to nil. -/
theorem StringOrStrings.wrong_shape_null_accepted :
    StringOrStrings.UnmarshalJSON none (utf8 "null") = (some [[]], none) ∧
    StringOrStrings.UnmarshalJSON none (utf8 "[null]") = (some [[]], none) ∧
    Repositories.UnmarshalJSON id (some [Repository.zero]) (utf8 "null") = (none, none) :=
  ⟨rfl, rfl, rfl⟩

/-- C18 (amended): `StringOrStrings.UnmarshalJSON` returns an error and
leaves the target as it was for every input that is malformed, a number, a
boolean, an object, or an array with an element that is neither a string nor
`null`. `Repositories.UnmarshalJSON` returns an error and leaves the target
as it was for every input that is malformed, a bare string, a number, a
boolean, an array with an element that does not decode as an entry, or an
object with a value that does not decode as an entry. -/
theorem wrong_shape_rejected (bytes : Bytes) :
    (∀ l : StringOrStrings,
      (parseJSON bytes = none ∨ (∃ raw, parseJSON bytes = some (.number raw)) ∨
        (∃ b, parseJSON bytes = some (.bool b)) ∨ (∃ kvs, parseJSON bytes = some (.obj kvs)) ∨
        (∃ js, parseJSON bytes = some (.arr js) ∧
          ∃ j ∈ js, j ≠ .null ∧ ∀ raw s, j ≠ .str raw s)) →
      StringOrStrings.UnmarshalJSON l bytes
        = (l, some (.new (utf8 "cannot unmarshal " ++ bytes)))) ∧
    (∀ (order : GoMap Repository → List (Bytes × Repository)) (p : Repositories),
      (parseJSON bytes = none ∨ (∃ raw s, parseJSON bytes = some (.str raw s)) ∨
        (∃ raw, parseJSON bytes = some (.number raw)) ∨
        (∃ b, parseJSON bytes = some (.bool b)) ∨
        (∃ js, parseJSON bytes = some (.arr js) ∧ ∃ j ∈ js, ∀ e, ¬ DecodesTo j e) ∨
        (∃ kvs, parseJSON bytes = some (.obj kvs) ∧ ∃ kv ∈ kvs, ∀ e, ¬ DecodesTo kv.2 e)) →
      Repositories.UnmarshalJSON order p bytes
        = (p, some (.new (utf8 "cannot unmarshal " ++ bytes)))) := by
  constructor
  · intro l h
    rcases h with h | ⟨raw, h⟩ | ⟨b, h⟩ | ⟨kvs, h⟩ | ⟨js, h, j, hj, h0, h1⟩
    · simp only [StringOrStrings.UnmarshalJSON, unmarshal, h]
    · simp only [StringOrStrings.UnmarshalJSON, unmarshal, h, storeString, storeStrings]
    · simp only [StringOrStrings.UnmarshalJSON, unmarshal, h, storeString, storeStrings]
    · simp only [StringOrStrings.UnmarshalJSON, unmarshal, h, storeString, storeStrings]
    · have hne : firstError (js.map fun x => (storeString x []).2) ≠ none :=
        firstError_ne_none _ _ (List.mem_map.mpr ⟨j, hj, rfl⟩) (storeString_error j [] h0 h1)
      cases hfe : firstError (js.map fun x => (storeString x []).2) with
      | none => exact absurd hfe hne
      | some e =>
        have hs : storeStrings (.arr js)
            = (some (js.map fun x => (storeString x []).1), some e) := by
          simp only [storeStrings, hfe]
        have hs1 : storeString (.arr js) []
            = ([], some (.unmarshalType "array" "string")) := rfl
        simp only [StringOrStrings.UnmarshalJSON, unmarshal, h, hs, hs1]
  · intro order p h
    rcases h with h | ⟨raw, s, h⟩ | ⟨raw, h⟩ | ⟨b, h⟩ | ⟨js, h, j, hj, hd⟩ | ⟨kvs, h, kv, hkv, hd⟩
    · simp only [Repositories.UnmarshalJSON, unmarshalRepositorySlice, unmarshalRepositoryMap, h]
    · simp only [Repositories.UnmarshalJSON, unmarshalRepositorySlice, unmarshalRepositoryMap, h]
    · simp only [Repositories.UnmarshalJSON, unmarshalRepositorySlice, unmarshalRepositoryMap, h]
    · simp only [Repositories.UnmarshalJSON, unmarshalRepositorySlice, unmarshalRepositoryMap, h]
    · have hn : storeRepository j Repository.zero = none := by
        cases hr : storeRepository j Repository.zero with
        | none => rfl
        | some e => exact absurd hr (hd e)
      have ha : allSome (js.map fun j => storeRepository j Repository.zero) = none :=
        allSome_eq_none _ (List.mem_map.mpr ⟨j, hj, hn⟩)
      simp only [Repositories.UnmarshalJSON, unmarshalRepositorySlice, unmarshalRepositoryMap, h,
        ha, Option.map_none']
    · have hn : storeRepository kv.2 Repository.zero = none := by
        cases hr : storeRepository kv.2 Repository.zero with
        | none => rfl
        | some e => exact absurd hr (hd e)
      have ha : allSome (kvs.map fun kv =>
          (storeRepository kv.2 Repository.zero).map fun r => (kv.1, r)) = none :=
        allSome_eq_none _ (List.mem_map.mpr ⟨kv, hkv, by rw [hn]; rfl⟩)
      simp only [Repositories.UnmarshalJSON, unmarshalRepositorySlice, unmarshalRepositoryMap, h,
        ha, Option.map_none']

theorem wrong_shape_rejected_witness :
    StringOrStrings.UnmarshalJSON (some [[]]) (utf8 "12345")
        = (some [[]], some (.new (utf8 "cannot unmarshal 12345"))) ∧
    Repositories.UnmarshalJSON id (some []) (utf8 "\"Nothing\"")
        = (some [], some (.new (utf8 "cannot unmarshal \"Nothing\""))) :=
  ⟨(wrong_shape_rejected (utf8 "12345")).1 (some [[]]) (Or.inr (Or.inl ⟨utf8 "12345", rfl⟩)),
   (wrong_shape_rejected (utf8 "\"Nothing\"")).2 id (some [])
     (Or.inr (Or.inl ⟨utf8 "\"Nothing\"", utf8 "Nothing", rfl⟩))⟩

/-! ## Strings the parser returns are valid UTF-8 -/

theorem triple_content {α β γ : Type} (a : α) (b : β) (c : γ) : (a, b, c).2.1 = b := rfl

theorem triple_rest {α β γ : Type} (a : α) (b : β) (c : γ) : (a, b, c).2.2 = c := rfl

theorem parseStr_step_plain (f : Nat) (b : Nat) (rest : Bytes) (t : Bytes × Bytes × Bytes)
    (h1 : ¬ b = 0x22) (h3 : ¬ b = 0x5C)
    (h : parseStr (f + 1) (b :: rest) = some t) : StrStep f (b :: rest) t := by
  simp only [parseStr, h1, h3, if_false] at h
  by_cases h2 : b < 0x20
  · simp [h2] at h
  · simp only [h2, if_false] at h
    by_cases h4 : b < 0x80
    · simp only [h4, if_true] at h
      obtain ⟨u, hu, rfl⟩ := Option.map_eq_some'.mp h
      exact ⟨b, rest, u, hu, by simp [encodeRune, h4], rfl, by simp only [List.length_cons]; omega⟩
    · simp only [h4, if_false] at h
      by_cases h5 : (decodeRune (b :: rest)).2 = 1
      · simp only [h5, if_true] at h
        obtain ⟨u, hu, rfl⟩ := Option.map_eq_some'.mp h
        exact ⟨0xFFFD, rest, u, hu, rfl, rfl, by simp only [List.length_cons]; omega⟩
      · simp only [h5, if_false] at h
        obtain ⟨u, hu, rfl⟩ := Option.map_eq_some'.mp h
        exact ⟨(decodeRune (b :: rest)).1, _, u, hu,
          by rw [encodeRune_decodeRune b rest (by omega) h5], rfl, by simp only [List.length_cons, List.length_drop]; omega⟩

theorem parseStr_step_u (f : Nat) (a1 a2 a3 a4 r : Nat) (rest2 : Bytes)
    (t : Bytes × Bytes × Bytes) (hx : hex4 a1 a2 a3 a4 = some r)
    (hs : ¬ (0xD800 ≤ r ∧ r < 0xDC00))
    (h : parseStr (f + 1) (0x5C :: 0x75 :: a1 :: a2 :: a3 :: a4 :: rest2) = some t) :
    StrStep f (0x5C :: 0x75 :: a1 :: a2 :: a3 :: a4 :: rest2) t := by
  simp only [parseStr, hx, hs] at h
  simp only [Nat.reduceEqDiff, Nat.reduceLT, if_false, if_true] at h
  obtain ⟨u, hu, rfl⟩ := Option.map_eq_some'.mp h
  exact ⟨r, rest2, u, hu, rfl, rfl, by simp only [List.length_cons, List.length_drop]; omega⟩

theorem parseStr_step_lone (f : Nat) (a1 a2 a3 a4 r : Nat) (rest2 : Bytes)
    (t : Bytes × Bytes × Bytes) (hx : hex4 a1 a2 a3 a4 = some r)
    (hs : 0xD800 ≤ r ∧ r < 0xDC00) (hl : lowSurrogate rest2 = none)
    (h : parseStr (f + 1) (0x5C :: 0x75 :: a1 :: a2 :: a3 :: a4 :: rest2) = some t) :
    StrStep f (0x5C :: 0x75 :: a1 :: a2 :: a3 :: a4 :: rest2) t := by
  simp only [parseStr, hx, hs, hl] at h
  simp only [Nat.reduceEqDiff, Nat.reduceLT, if_false, if_true, and_self] at h
  obtain ⟨u, hu, rfl⟩ := Option.map_eq_some'.mp h
  exact ⟨0xFFFD, rest2, u, hu, rfl, rfl, by simp only [List.length_cons, List.length_drop]; omega⟩

theorem parseStr_step_pair (f : Nat) (a1 a2 a3 a4 r r2 : Nat) (rest2 : Bytes)
    (t : Bytes × Bytes × Bytes) (hx : hex4 a1 a2 a3 a4 = some r)
    (hs : 0xD800 ≤ r ∧ r < 0xDC00) (hl : lowSurrogate rest2 = some r2)
    (h : parseStr (f + 1) (0x5C :: 0x75 :: a1 :: a2 :: a3 :: a4 :: rest2) = some t) :
    StrStep f (0x5C :: 0x75 :: a1 :: a2 :: a3 :: a4 :: rest2) t := by
  simp only [parseStr, hx, hs, hl] at h
  simp only [Nat.reduceEqDiff, Nat.reduceLT, if_false, if_true, and_self] at h
  obtain ⟨u, hu, rfl⟩ := Option.map_eq_some'.mp h
  exact ⟨_, rest2.drop 6, u, hu, triple_content _ _ _, triple_rest _ _ _,
    by simp only [List.length_cons, List.length_drop]; omega⟩

theorem parseStr_step_short (f : Nat) (e : Nat) (rest1 : Bytes) (t : Bytes × Bytes × Bytes)
    (h6 : ¬ e = 0x75) (h : parseStr (f + 1) (0x5C :: e :: rest1) = some t) :
    StrStep f (0x5C :: e :: rest1) t := by
  simp only [parseStr, h6] at h
  simp only [Nat.reduceEqDiff, Nat.reduceLT, if_false, if_true] at h
  split at h
  · exact absurd h (by simp)
  · rename_i x hx
    obtain ⟨u, hu, rfl⟩ := Option.map_eq_some'.mp h
    refine ⟨x, rest1, u, hu, ?_, rfl, by simp only [List.length_cons]; omega⟩
    have hx128 : x < 0x80 := by
      split_ifs at hx <;> (simp at hx; omega)
    simp [encodeRune, hx128]

theorem validRunes_adequate (n : Nat) : ∀ (s : Bytes) (m : Nat), validRunes n s = true →
    s.length ≤ m → validRunes m s = true := by
  induction n with
  | zero =>
    intro s m h _
    cases s with
    | nil => cases m <;> rfl
    | cons b rest => simp [validRunes] at h
  | succ n ih =>
    intro s m h hm
    cases s with
    | nil => cases m <;> rfl
    | cons b rest =>
      obtain ⟨m, rfl⟩ : ∃ k, m = k + 1 := ⟨m - 1, by simp at hm; omega⟩
      simp only [List.length_cons, Nat.add_le_add_iff_right] at hm
      simp only [validRunes] at h ⊢
      by_cases hb : b < 0x80
      · simp only [hb, if_true] at h ⊢
        exact ih rest m h hm
      · simp only [hb, if_false] at h ⊢
        by_cases h1 : (decodeRune (b :: rest)).2 = 1
        · simp [h1] at h
        · simp only [h1, if_false] at h ⊢
          exact ih _ m h (by simp only [List.length_drop]; omega)

theorem decodeRune_width2 (b0 b1 : Nat) (s : Bytes) (h0 : 0xC2 ≤ b0 ∧ b0 ≤ 0xDF)
    (h1 : isCont b1 = true) : (decodeRune (b0 :: b1 :: s)).2 = 2 := by
  have hb : ¬ b0 < 0x80 := by omega
  simp only [decodeRune, hb, h0, h1, if_true, if_false, and_self]

theorem decodeRune_width3 (b0 b1 b2 : Nat) (s : Bytes) (h0 : 0xE0 ≤ b0 ∧ b0 ≤ 0xEF)
    (h1 : (if b0 = 0xE0 then 0xA0 else 0x80) ≤ b1 ∧ b1 ≤ (if b0 = 0xED then 0x9F else 0xBF)
      ∧ isCont b2 = true) : (decodeRune (b0 :: b1 :: b2 :: s)).2 = 3 := by
  have hb : ¬ b0 < 0x80 := by omega
  have hc : ¬ (0xC2 ≤ b0 ∧ b0 ≤ 0xDF) := by omega
  simp only [decodeRune, hb, hc, h0, if_false, and_self, if_true]
  rw [if_pos h1]

theorem decodeRune_width4 (b0 b1 b2 b3 : Nat) (s : Bytes) (h0 : 0xF0 ≤ b0 ∧ b0 ≤ 0xF4)
    (h1 : (if b0 = 0xF0 then 0x90 else 0x80) ≤ b1 ∧ b1 ≤ (if b0 = 0xF4 then 0x8F else 0xBF)
      ∧ isCont b2 = true ∧ isCont b3 = true) : (decodeRune (b0 :: b1 :: b2 :: b3 :: s)).2 = 4 := by
  have hb : ¬ b0 < 0x80 := by omega
  have hc : ¬ (0xC2 ≤ b0 ∧ b0 ≤ 0xDF) := by omega
  have hd : ¬ (0xE0 ≤ b0 ∧ b0 ≤ 0xEF) := by omega
  simp only [decodeRune, hb, hc, hd, h0, if_false, and_self, if_true]
  rw [if_pos h1]

theorem validRunes_cons_multi (n b : Nat) (pre s : Bytes) (hb : 0x80 ≤ b)
    (hw : (decodeRune (b :: (pre ++ s))).2 = pre.length + 1) (hp : pre ≠ [])
    (h : validRunes n s = true) : validRunes (n + 1) (b :: (pre ++ s)) = true := by
  have hl : 0 < pre.length := List.length_pos.mpr hp
  have e1 : ¬ b < 0x80 := by omega
  have e2 : ¬ pre.length + 1 = 1 := by omega
  simp only [validRunes, e1, if_false, hw, e2, Nat.add_sub_cancel, List.drop_left]
  exact h

theorem validRunes_encodeRune (r n : Nat) (s : Bytes) (h : validRunes n s = true) :
    validRunes (n + 1) (encodeRune r ++ s) = true := by
  unfold encodeRune
  split_ifs with h1 h2 h3 h4 h5
  · simpa [validRunes, h1] using h
  · exact validRunes_cons_multi n _ [0x80 + r % 64] s (by omega)
      (decodeRune_width2 _ _ s (by omega)
        (by simp only [isCont, Bool.and_eq_true, decide_eq_true_eq]; omega))
      (by simp) h
  · exact validRunes_cons_multi n 0xEF [0xBF, 0xBD] s (by omega)
      (decodeRune_width3 _ _ _ s (by omega) (by decide)) (by simp) h
  · exact validRunes_cons_multi n _ [0x80 + r / 64 % 64, 0x80 + r % 64] s (by omega)
      (decodeRune_width3 _ _ _ s (by omega)
        (by
          simp only [isCont, Bool.and_eq_true, decide_eq_true_eq]
          refine ⟨?_, ?_, ?_⟩
          · split_ifs <;> omega
          · split_ifs <;> omega
          · omega))
      (by simp) h
  · exact validRunes_cons_multi n _ [0x80 + r / 4096 % 64, 0x80 + r / 64 % 64, 0x80 + r % 64] s
      (by omega)
      (decodeRune_width4 _ _ _ _ s (by omega)
        (by
          simp only [isCont, Bool.and_eq_true, decide_eq_true_eq]
          refine ⟨?_, ?_, ?_, ?_⟩
          · split_ifs <;> omega
          · split_ifs <;> omega
          · omega
          · omega))
      (by simp) h
  · exact validRunes_cons_multi n 0xEF [0xBF, 0xBD] s (by omega)
      (decodeRune_width3 _ _ _ s (by omega) (by decide)) (by simp) h

theorem parseStr_step (f : Nat) (bs : Bytes) (t : Bytes × Bytes × Bytes)
    (h : parseStr (f + 1) bs = some t) : t.2.1 = [] ∨ StrStep f bs t := by
  cases bs with
  | nil => simp [parseStr] at h
  | cons b rest =>
    by_cases h1 : b = 0x22
    · left
      subst h1
      simp only [parseStr, if_true] at h
      cases h
      rfl
    · right
      by_cases h3 : b = 0x5C
      · subst h3
        cases rest with
        | nil => simp [parseStr] at h
        | cons e rest1 =>
          by_cases h6 : e = 0x75
          · subst h6
            rcases rest1 with _ | ⟨a1, _ | ⟨a2, _ | ⟨a3, _ | ⟨a4, rest2⟩⟩⟩⟩
            · simp [parseStr] at h
            · simp [parseStr] at h
            · simp [parseStr] at h
            · simp [parseStr] at h
            · cases hx : hex4 a1 a2 a3 a4 with
              | none => simp [parseStr, hx] at h
              | some r =>
                by_cases hs : 0xD800 ≤ r ∧ r < 0xDC00
                · cases hl : lowSurrogate rest2 with
                  | none => exact parseStr_step_lone f a1 a2 a3 a4 r rest2 t hx hs hl h
                  | some r2 => exact parseStr_step_pair f a1 a2 a3 a4 r r2 rest2 t hx hs hl h
                · exact parseStr_step_u f a1 a2 a3 a4 r rest2 t hx hs h
          · exact parseStr_step_short f e rest1 t h6 h
      · exact parseStr_step_plain f b rest t h1 h3 h

theorem parseStr_content_valid (f : Nat) : ∀ (bs : Bytes) (t : Bytes × Bytes × Bytes),
    parseStr f bs = some t → ∃ n, validRunes n t.2.1 = true := by
  induction f with
  | zero => intro bs t h; cases bs <;> simp [parseStr] at h
  | succ f ih =>
    intro bs t h
    rcases parseStr_step f bs t h with h0 | ⟨r, next, u, hu, hc, _, _⟩
    · exact ⟨0, by rw [h0]; rfl⟩
    · obtain ⟨n, hn⟩ := ih next u hu
      exact ⟨n + 1, by rw [hc]; exact validRunes_encodeRune r n _ hn⟩

theorem parseStr_validUTF8 (f : Nat) (bs : Bytes) (t : Bytes × Bytes × Bytes)
    (h : parseStr f bs = some t) : validUTF8 t.2.1 = true := by
  obtain ⟨n, hn⟩ := parseStr_content_valid f bs t h
  exact validRunes_adequate n _ _ hn (le_refl _)

theorem parseValue_str_valid (f d : Nat) (bs raw s r : Bytes)
    (h : parseValue f d bs = some (.str raw s, r)) : validUTF8 s = true := by
  cases f with
  | zero => simp [parseValue] at h
  | succ f =>
    cases bs with
    | nil => simp [parseValue] at h
    | cons b rest =>
      simp only [parseValue] at h
      by_cases h1 : b = 0x22
      · simp only [h1, if_true] at h
        obtain ⟨t, ht, he⟩ := Option.map_eq_some'.mp h
        have hs : t.2.1 = s := by
          injection he with he1 _
          injection he1
        rw [← hs]
        exact parseStr_validUTF8 _ _ _ ht
      · simp only [h1, if_false] at h
        exfalso
        split_ifs at h
        all_goals first
          | (simp only [Option.map_eq_some', Prod.mk.injEq, reduceCtorEq, false_and, and_false,
              exists_false, exists_const] at h)
          | (split at h
             · contradiction
             · split_ifs at h <;> simp [Option.map_eq_some'] at h)

theorem parseJSON_str_valid (bytes raw s : Bytes) (h : parseJSON bytes = some (.str raw s)) :
    validUTF8 s = true := by
  unfold parseJSON at h
  split at h
  · exact absurd h (by simp)
  · rename_i v r hv
    split_ifs at h
    cases h
    exact parseValue_str_valid _ _ _ _ _ _ hv

/-! ## BoolOrString: canonical round trip -/

theorem marshalString_eq_quoted (s q w : Bytes) (hs : validUTF8 s = true)
    (hq : parseJSON q = some (.str q w)) (h : marshalString s = q) : s = w := by
  have h1 := parseJSON_marshalString s hs
  rw [h, hq] at h1
  injection h1 with h2
  injection h2 with _ h3
  exact h3.symm

theorem marshalString_ne_bare (s w : Bytes) (hw : w.head? ≠ some 0x22) : marshalString s ≠ w := by
  intro h
  apply hw
  rw [← h]
  rfl

theorem marshalString_mem_tokens (s : Bytes) (hs : validUTF8 s = true)
    (h : marshalString s ∈ trueTokens ∨ marshalString s ∈ falseTokens) : s ∈ boolWords := by
  simp only [trueTokens, falseTokens, boolWords, List.mem_cons, List.mem_singleton,
    List.not_mem_nil, or_false] at h ⊢
  rcases h with (h | h | h | h | h | h) | (h | h | h | h | h | h)
  · exact absurd h (marshalString_ne_bare s _ (by decide))
  · exact absurd h (marshalString_ne_bare s _ (by decide))
  · exact Or.inl (marshalString_eq_quoted s (utf8 "\"true\"") (utf8 "true") hs rfl h)
  · exact Or.inr (Or.inl (marshalString_eq_quoted s (utf8 "\"True\"") (utf8 "True") hs rfl h))
  · exact absurd h (marshalString_ne_bare s _ (by decide))
  · exact Or.inr (Or.inr (Or.inl (marshalString_eq_quoted s (utf8 "\"1\"") (utf8 "1") hs rfl h)))
  · exact absurd h (marshalString_ne_bare s _ (by decide))
  · exact absurd h (marshalString_ne_bare s _ (by decide))
  · exact Or.inr (Or.inr (Or.inr (Or.inl (marshalString_eq_quoted s (utf8 "\"false\"") (utf8 "false") hs rfl h))))
  · exact Or.inr (Or.inr (Or.inr (Or.inr (Or.inl
      (marshalString_eq_quoted s (utf8 "\"False\"") (utf8 "False") hs rfl h)))))
  · exact absurd h (marshalString_ne_bare s _ (by decide))
  · exact Or.inr (Or.inr (Or.inr (Or.inr (Or.inr
      (marshalString_eq_quoted s (utf8 "\"0\"") (utf8 "0") hs rfl h)))))

theorem BoolOrString.unmarshal_marshalString (s : Bytes) (hs : validUTF8 s = true)
    (hw : s ∉ boolWords) :
    BoolOrString.UnmarshalJSON { Bool := false, String := [] } (marshalString s)
      = ({ Bool := false, String := s }, none) := by
  have h1 : marshalString s ∉ trueTokens :=
    fun h => hw (marshalString_mem_tokens s hs (Or.inl h))
  have h2 : marshalString s ∉ falseTokens :=
    fun h => hw (marshalString_mem_tokens s hs (Or.inr h))
  simp only [BoolOrString.UnmarshalJSON, Bool.UnmarshalJSON, h1, h2, if_false, unmarshal,
    parseJSON_marshalString s hs, storeString]

theorem boolOrString_empty_round_trip (b : Bool) :
    BoolOrString.UnmarshalJSON { Bool := false, String := [] }
        (BoolOrString.MarshalJSON { Bool := b, String := [] }).1
      = ({ Bool := b, String := [] }, none) := by
  cases b <;> decide

/-- C13 (counterexample): the wire token `"\u0074rue"` is a JSON string that
`Bool.UnmarshalJSON` does not accept, so it decodes to the string `true` with
a false `Bool`; `MarshalJSON` writes that value as `"true"`, which decodes to
a true `Bool` with an empty string, a different value. -/
theorem BoolOrString.escaped_true_not_round_trip :
    BoolOrString.UnmarshalJSON { Bool := false, String := [] } (utf8 "\"\\u0074rue\"")
      = ({ Bool := false, String := utf8 "true" }, none) ∧
    BoolOrString.MarshalJSON { Bool := false, String := utf8 "true" }
      = (utf8 "\"true\"", none) ∧
    BoolOrString.UnmarshalJSON { Bool := false, String := [] }
        (BoolOrString.MarshalJSON { Bool := false, String := utf8 "true" }).1
      = ({ Bool := true, String := [] }, none) := by
  refine ⟨by decide, by decide, by decide⟩

/-- C13 (amended): for every wire token `x` on which
`BoolOrString.UnmarshalJSON` succeeds from a zero target with result `v`, when
the string of `v` is not one of `true`, `True`, `1`, `false`, `False`, `0`,
decoding `MarshalJSON v` into a zero target succeeds and gives `v`. -/
theorem BoolOrString.boolOrString_round_trip (x : Bytes) (v : BoolOrString)
    (hx : BoolOrString.UnmarshalJSON { Bool := false, String := [] } x = (v, none))
    (hv : v.String ∉ boolWords) :
    BoolOrString.UnmarshalJSON { Bool := false, String := [] } (BoolOrString.MarshalJSON v).1
      = (v, none) := by
  simp only [BoolOrString.UnmarshalJSON, Bool.UnmarshalJSON] at hx
  by_cases h1 : x ∈ trueTokens
  · simp only [h1, if_true] at hx
    cases hx
    exact boolOrString_empty_round_trip true
  · by_cases h2 : x ∈ falseTokens
    · simp only [h1, h2, if_true, if_false] at hx
      cases hx
      exact boolOrString_empty_round_trip false
    · simp only [h1, h2, if_false, unmarshal] at hx
      cases hp : parseJSON x with
      | none => simp [hp] at hx
      | some j =>
        simp only [hp] at hx
        cases j with
        | null =>
          simp only [storeString] at hx
          cases hx
          exact boolOrString_empty_round_trip false
        | str raw s =>
          simp only [storeString] at hx
          cases hx
          by_cases hs : s = []
          · subst hs
            exact boolOrString_empty_round_trip false
          · have hm : BoolOrString.MarshalJSON { Bool := false, String := s }
                = (marshalString s, none) := by
              simp only [BoolOrString.MarshalJSON, ne_eq, hs, not_false_eq_true, if_true]
            rw [hm]
            exact BoolOrString.unmarshal_marshalString s (parseJSON_str_valid x raw s hp) hv
        | bool b => simp [storeString] at hx
        | number raw => simp [storeString] at hx
        | arr js => simp [storeString] at hx
        | obj kvs => simp [storeString] at hx

theorem BoolOrString.boolOrString_round_trip_witness :
    BoolOrString.UnmarshalJSON { Bool := false, String := [] }
        (BoolOrString.MarshalJSON { Bool := false, String := utf8 "dev-main" }).1
      = ({ Bool := false, String := utf8 "dev-main" }, none) :=
  BoolOrString.boolOrString_round_trip (utf8 "\"dev-main\"")
    { Bool := false, String := utf8 "dev-main" } (by decide) (by decide)

/-! ## ValueOrMap: empty map -/

/-- C21 (counterexample): the zero-value `ValueOrMap`, whose `Map` is nil, is
written as `null`, not as the empty object. -/
theorem ValueOrMap.marshal_zero_is_null :
    ValueOrMap.MarshalJSON { Value := [], Map := none } = (utf8 "null", none) ∧
    ValueOrMap.MarshalJSON { Value := [], Map := none } ≠ (utf8 "\x7b\x7d", none) :=
  ⟨by decide, by decide⟩

/-- C21 (amended): with an empty `Value`, a `Map` that is allocated and holds
no entries is written as the empty object `{}`; a nil `Map`, as in the
zero-value `ValueOrMap`, is written as `null`. -/
theorem ValueOrMap.marshal_empty_map (v : ValueOrMap) (hv : v.Value = []) :
    (v.Map = some [] → ValueOrMap.MarshalJSON v = (utf8 "\x7b\x7d", none)) ∧
    (v.Map = none → ValueOrMap.MarshalJSON v = (utf8 "null", none)) := by
  obtain ⟨val, map⟩ := v
  simp only at hv
  subst hv
  constructor
  · intro hm
    simp only at hm
    subst hm
    decide
  · intro hm
    simp only at hm
    subst hm
    decide

theorem ValueOrMap.marshal_empty_map_witness :
    ValueOrMap.MarshalJSON { Value := [], Map := some [] } = (utf8 "\x7b\x7d", none) :=
  (ValueOrMap.marshal_empty_map { Value := [], Map := some [] } rfl).1 rfl

/-! ## BoolOrString: reused target -/

/-- C24: for every target `t` and every token `Bool.UnmarshalJSON` accepts,
`BoolOrString.UnmarshalJSON` returns no error and changes only the `Bool`
field, to the boolean of the token; `String` stays as it was. When that
string is not empty, `MarshalJSON` of the decoded target writes the string,
not the boolean just decoded. -/
theorem BoolOrString.unmarshal_bool_keeps_string (t : BoolOrString) (tok : Bytes)
    (h : (Bool.UnmarshalJSON t.Bool tok).2 = none) :
    BoolOrString.UnmarshalJSON t tok
        = ({ Bool := (Bool.UnmarshalJSON t.Bool tok).1, String := t.String }, none) ∧
    (t.String ≠ [] →
      BoolOrString.MarshalJSON (BoolOrString.UnmarshalJSON t tok).1
          = (marshalString t.String, none) ∧
      (BoolOrString.MarshalJSON (BoolOrString.UnmarshalJSON t tok).1).1
          ≠ (Bool.MarshalJSON (Bool.UnmarshalJSON t.Bool tok).1).1) := by
  have e : BoolOrString.UnmarshalJSON t tok
      = ({ Bool := (Bool.UnmarshalJSON t.Bool tok).1, String := t.String }, none) := by
    cases hb : Bool.UnmarshalJSON t.Bool tok with
    | mk b err =>
      rw [hb] at h
      simp only at h
      subst h
      simp only [BoolOrString.UnmarshalJSON, hb]
  refine ⟨e, fun hs => ?_⟩
  have hm : BoolOrString.MarshalJSON (BoolOrString.UnmarshalJSON t tok).1
      = (marshalString t.String, none) := by
    rw [e]
    simp only [BoolOrString.MarshalJSON, ne_eq, hs, not_false_eq_true, if_true]
  refine ⟨hm, ?_⟩
  rw [hm]
  simp only [Bool.MarshalJSON, marshalBool]
  split_ifs
  · exact marshalString_ne_bare _ _ (by decide)
  · exact marshalString_ne_bare _ _ (by decide)

theorem BoolOrString.unmarshal_bool_keeps_string_witness :
    BoolOrString.UnmarshalJSON { Bool := false, String := utf8 "stash" } (utf8 "true")
        = ({ Bool := true, String := utf8 "stash" }, none) ∧
    BoolOrString.MarshalJSON
        (BoolOrString.UnmarshalJSON { Bool := false, String := utf8 "stash" } (utf8 "true")).1
      = (utf8 "\"stash\"", none) :=
  ⟨(BoolOrString.unmarshal_bool_keeps_string { Bool := false, String := utf8 "stash" }
      (utf8 "true") (by decide)).1,
   ((BoolOrString.unmarshal_bool_keeps_string { Bool := false, String := utf8 "stash" }
      (utf8 "true") (by decide)).2 (by decide)).1⟩

/-! ## Psr: null values -/

/-- C25: for every JSON object whose values are each `null`, a string or an
array of strings, `Psr.UnmarshalJSON` returns no error, whatever the target
held and whatever order the range takes, and every key whose value is `null`
(for a repeated key, in its last member) is in the result, mapped to the nil
sequence. -/
theorem Psr.unmarshal_null_value (order : GoMap JValue → List (Bytes × JValue))
    (ho : RangeOrder order) (p : Psr) (bytes : Bytes) (kvs : List (Bytes × JValue))
    (hp : parseJSON bytes = some (.obj kvs))
    (hs : ∀ kv ∈ kvs, kv.2 = .null ∨ (∃ s, IsJSONString kv.2 s) ∨
      (∃ xs, IsJSONStrings kv.2 xs)) :
    ∃ m, Psr.UnmarshalJSON order p bytes = .returned (some m) none ∧
      ∀ k, lastValue k kvs = some .null → mapLookup k m = some none := by
  have hi : MapSorted (mapOfMembers id kvs ([] : GoMap JValue)) :=
    mapOfMembers_sorted _ _ _ List.Pairwise.nil
  have hperm := ho (mapOfMembers id kvs [])
  have hnd : ((order (mapOfMembers id kvs [])).map Prod.fst).Nodup :=
    (hperm.map Prod.fst).nodup_iff.mpr (mapSorted_nodup _ hi)
  have hacc : ∀ kv ∈ order (mapOfMembers id kvs []), PsrAccepts kv.2 := by
    intro kv hkv
    rcases mem_mapOfMembers id kvs [] kv (hperm.mem_iff.mp hkv) with h | ⟨kv1, h1, h2⟩
    · simp at h
    · rw [h2]
      rcases hs kv1 h1 with h | ⟨s, raw, h⟩ | ⟨xs, js, h, hf⟩
      · exact Or.inl h
      · exact Or.inr (Or.inl ⟨raw, s, h⟩)
      · exact Or.inr (Or.inr ⟨js, xs, h, assertStrings_of_strings js xs hf⟩)
  have hbn : badNumberMembers kvs = none :=
    badNumberMembers_of_accepts kvs fun kv hkv => by
      rcases hs kv hkv with h | ⟨s, raw, h⟩ | ⟨xs, js, h, hf⟩
      · exact Or.inl h
      · exact Or.inr (Or.inl ⟨raw, s, h⟩)
      · exact Or.inr (Or.inr ⟨js, xs, h, assertStrings_of_strings js xs hf⟩)
  refine ⟨mapOfMembers psrNorm (order (mapOfMembers id kvs [])) [], ?_, fun k hk => ?_⟩
  · simp only [Psr.UnmarshalJSON, unmarshal, hp, storeAnyMap, hbn, Option.map_none',
      Option.getD_some, Psr.rangeLoop_accepts bytes _ [] hacc]
  · rw [mapLookup_mapOfMembers, lastValue_eq_mapLookup _ hnd,
      mapLookup_perm _ _ hperm hnd, mapLookup_mapOfMembers, hk]
    rfl

theorem Psr.unmarshal_null_value_witness :
    ∃ m, Psr.UnmarshalJSON id none (utf8 "\x7b\"a\":null,\"b\":\"x\"\x7d")
        = .returned (some m) none ∧
      ∀ k, lastValue k [(utf8 "a", JValue.null), (utf8 "b", .str (utf8 "\"x\"") (utf8 "x"))]
        = some .null → mapLookup k m = some none :=
  Psr.unmarshal_null_value id (fun m => List.Perm.refl m) none
    (utf8 "\x7b\"a\":null,\"b\":\"x\"\x7d")
    [(utf8 "a", JValue.null), (utf8 "b", .str (utf8 "\"x\"") (utf8 "x"))] rfl
    (by
      intro kv hkv
      simp only [List.mem_cons, List.mem_singleton, List.not_mem_nil, or_false] at hkv
      rcases hkv with rfl | rfl
      · exact Or.inl rfl
      · exact Or.inr (Or.inl ⟨_, _, rfl⟩))

/-! ## Error messages -/

theorem new_names_input (pre bytes : Bytes) :
    ∃ msg, GoError.Error (.new (pre ++ bytes)) = some msg ∧ bytes <:+: msg :=
  ⟨_, rfl, (List.suffix_append pre bytes).isInfix⟩

theorem Psr.rangeLoop_error (bytes : Bytes) (l : List (Bytes × JValue)) :
    ∀ (m m1 : GoMap (Option (List Bytes))) (e : GoError),
      Psr.rangeLoop bytes l m = .returned m1 (some e) →
      e = .new (utf8 "cannot unmarshal psr " ++ bytes) := by
  induction l with
  | nil => intro m m1 e h; simp [Psr.rangeLoop] at h
  | cons kv l ih =>
    intro m m1 e h
    obtain ⟨k, v⟩ := kv
    cases v with
    | null => exact ih _ _ _ h
    | str raw s => exact ih _ _ _ h
    | arr js =>
      simp only [Psr.rangeLoop] at h
      split at h
      · exact ih _ _ _ h
      · simp at h
    | bool b => simp only [Psr.rangeLoop, Outcome.returned.injEq, Option.some.injEq] at h; exact h.2.symm
    | number raw => simp only [Psr.rangeLoop, Outcome.returned.injEq, Option.some.injEq] at h; exact h.2.symm
    | obj kvs => simp only [Psr.rangeLoop, Outcome.returned.injEq, Option.some.injEq] at h; exact h.2.symm

/-- C23: on the bare string `"Monolog"`, which is not an object,
`Psr.UnmarshalJSON` returns the error of `json.Unmarshal` as it is;
its message tells the kinds that do not match and does not contain the text
passed to the call. -/
theorem Psr.top_level_error_omits_input :
    Psr.UnmarshalJSON id (some []) (utf8 "\"Monolog\"")
      = .returned (some []) (some (.unmarshalType "string" "map[string]interface {}")) ∧
    GoError.Error (.unmarshalType "string" "map[string]interface {}")
      = some (utf8 "json: cannot unmarshal string into Go value of type map[string]interface {}") ∧
    ¬ (utf8 "\"Monolog\""
        <:+: utf8 "json: cannot unmarshal string into Go value of type map[string]interface {}") :=
  ⟨rfl, rfl, fun h => absurd (h.subset (List.mem_cons_self _ _)) (by decide)⟩

/-- Whenever `UnmarshalJSON` of `StringOrStrings`, `Bool`, `ValueOrMap`,
`BoolOrString` or `Repositories` returns an error, and whenever
`Psr.UnmarshalJSON` returns an error after its `json.Unmarshal` has
succeeded, the message of the error contains the bytes passed to the call. -/
theorem errors_name_input (bytes : Bytes) :
    (∀ (l r : StringOrStrings) (e : GoError),
      StringOrStrings.UnmarshalJSON l bytes = (r, some e) →
      ∃ msg, e.Error = some msg ∧ bytes <:+: msg) ∧
    (∀ (b r : Bool) (e : GoError), Bool.UnmarshalJSON b bytes = (r, some e) →
      ∃ msg, e.Error = some msg ∧ bytes <:+: msg) ∧
    (∀ (t r : ValueOrMap) (e : GoError), ValueOrMap.UnmarshalJSON t bytes = (r, some e) →
      ∃ msg, e.Error = some msg ∧ bytes <:+: msg) ∧
    (∀ (t r : BoolOrString) (e : GoError), BoolOrString.UnmarshalJSON t bytes = (r, some e) →
      ∃ msg, e.Error = some msg ∧ bytes <:+: msg) ∧
    (∀ (order : GoMap Repository → List (Bytes × Repository)) (p r : Repositories)
      (e : GoError), Repositories.UnmarshalJSON order p bytes = (r, some e) →
      ∃ msg, e.Error = some msg ∧ bytes <:+: msg) ∧
    (∀ (order : GoMap JValue → List (Bytes × JValue)) (p r : Psr) (e : GoError),
      (unmarshal (fun v _ => storeAnyMap v) bytes none).2 = none →
      Psr.UnmarshalJSON order p bytes = .returned r (some e) →
      ∃ msg, e.Error = some msg ∧ bytes <:+: msg) := by
  refine ⟨?_, ?_, ?_, ?_, ?_, ?_⟩
  · intro l r e h
    unfold StringOrStrings.UnmarshalJSON at h
    split at h
    · simp at h
    · split at h
      · simp at h
      · simp only [Prod.mk.injEq, Option.some.injEq] at h
        rw [← h.2]
        exact new_names_input _ _
  · intro b r e h
    unfold Bool.UnmarshalJSON at h
    split_ifs at h
    · simp at h
    · simp at h
    · simp only [Prod.mk.injEq, Option.some.injEq] at h
      rw [← h.2]
      exact new_names_input _ _
  · intro t r e h
    unfold ValueOrMap.UnmarshalJSON at h
    split at h
    · simp at h
    · split at h
      · simp at h
      · simp only [Prod.mk.injEq, Option.some.injEq] at h
        rw [← h.2]
        exact new_names_input _ _
  · intro t r e h
    unfold BoolOrString.UnmarshalJSON at h
    split at h
    · simp at h
    · split at h
      · simp at h
      · simp only [Prod.mk.injEq, Option.some.injEq] at h
        rw [← h.2]
        exact new_names_input _ _
  · intro order p r e h
    unfold Repositories.UnmarshalJSON at h
    split at h
    · simp at h
    · split at h
      · simp at h
      · simp only [Prod.mk.injEq, Option.some.injEq] at h
        rw [← h.2]
        exact new_names_input _ _
  · intro order p r e hu h
    unfold Psr.UnmarshalJSON at h
    cases hum : unmarshal (fun v _ => storeAnyMap v) bytes none with
    | mk i err =>
      rw [hum] at hu h
      simp only at hu
      subst hu
      simp only at h
      split at h
      · simp at h
      · rename_i m1 err hr
        simp only [Outcome.returned.injEq, Option.some.injEq] at h
        rw [← h.2, Psr.rangeLoop_error bytes _ _ _ _ hr]
        exact new_names_input _ _
      · simp at h

theorem errors_name_input_witness :
    ∃ msg, GoError.Error (.new (utf8 "cannot unmarshal bool maybe")) = some msg ∧
      utf8 "maybe" <:+: msg :=
  (errors_name_input (utf8 "maybe")).2.1 false false _ (by decide)

/-! ## Manifest: which fields are written -/

theorem shape_zero_empty (s : ValueShape) (hs : s.isStruct = false) (hz : s.isZero = true) :
    s.isEmptyValue = true := by
  cases s <;> simp_all [ValueShape.isStruct, ValueShape.isZero, ValueShape.isEmptyValue]

theorem not_written_of_empty (fs : List StructField) (hnd : (fs.map StructField.key).Nodup)
    (f : StructField) (hf : f ∈ fs) (ho : f.omitEmpty = true)
    (he : f.shape.isEmptyValue = true) : f.key ∉ (written fs).map StructField.key := by
  intro h
  obtain ⟨g, hg, hk⟩ := List.mem_map.mp h
  obtain ⟨hg1, hg2⟩ := List.mem_filter.mp hg
  have hgf : g = f := List.inj_on_of_nodup_map hnd hg1 hf hk
  subst hgf
  simp [ho, he] at hg2

theorem written_of_struct (fs : List StructField) (f : StructField) (hf : f ∈ fs)
    (hs : f.shape.isStruct = true) : f ∈ written fs := by
  refine List.mem_filter.mpr ⟨hf, ?_⟩
  cases hsh : f.shape <;> simp_all [ValueShape.isStruct, ValueShape.isEmptyValue]

theorem omitted_of_zero (fs : List StructField) (hnd : (fs.map StructField.key).Nodup)
    (ho : ∀ b ∈ fs.map StructField.omitEmpty, b = true) :
    ∀ f ∈ fs, f.shape.isStruct = false → f.shape.isZero = true →
      f.key ∉ (written fs).map StructField.key :=
  fun f hf hs hz => not_written_of_empty fs hnd f hf (ho _ (List.mem_map_of_mem _ hf))
    (shape_zero_empty _ hs hz)

theorem Manifest.manifest_fields_keys (encAny : JValue → Bytes) (m : Manifest) :
    ((Manifest.fields encAny m).map StructField.key).Nodup ∧
    ∀ b ∈ (Manifest.fields encAny m).map StructField.omitEmpty, b = true := by
  have e1 : (Manifest.fields encAny m).map StructField.key
      = (Manifest.fields (fun _ => []) Manifest.zero).map StructField.key := rfl
  have e2 : (Manifest.fields encAny m).map StructField.omitEmpty
      = (Manifest.fields (fun _ => []) Manifest.zero).map StructField.omitEmpty := rfl
  rw [e1, e2]
  exact ⟨by decide, by decide⟩

theorem Config.config_fields_keys (c : Config) :
    ((Config.fields c).map StructField.key).Nodup ∧
    ∀ b ∈ (Config.fields c).map StructField.omitEmpty, b = true := by
  have e1 : (Config.fields c).map StructField.key
      = (Config.fields Config.zero).map StructField.key := rfl
  have e2 : (Config.fields c).map StructField.omitEmpty
      = (Config.fields Config.zero).map StructField.omitEmpty := rfl
  rw [e1, e2]
  exact ⟨by decide, by decide⟩

theorem Autoload.autoload_fields_keys (a : Autoload) :
    ((Autoload.fields a).map StructField.key).Nodup ∧
    ∀ b ∈ (Autoload.fields a).map StructField.omitEmpty, b = true := by
  have e1 : (Autoload.fields a).map StructField.key
      = (Autoload.fields Autoload.zero).map StructField.key := rfl
  have e2 : (Autoload.fields a).map StructField.omitEmpty
      = (Autoload.fields Autoload.zero).map StructField.omitEmpty := rfl
  rw [e1, e2]
  exact ⟨by decide, by decide⟩

theorem Repository.repository_fields_keys (encAny : JValue → Bytes) (r : Repository) :
    ((Repository.fields encAny r).map StructField.key).Nodup ∧
    ∀ b ∈ (Repository.fields encAny r).map StructField.omitEmpty, b = true := by
  have e1 : (Repository.fields encAny r).map StructField.key
      = (Repository.fields (fun _ => []) Repository.zero).map StructField.key := rfl
  have e2 : (Repository.fields encAny r).map StructField.omitEmpty
      = (Repository.fields (fun _ => []) Repository.zero).map StructField.omitEmpty := rfl
  rw [e1, e2]
  exact ⟨by decide, by decide⟩

set_option maxRecDepth 10000 in
theorem marshalManifest_zero (encAny : JValue → Bytes) :
    marshalManifest encAny Manifest.zero
      = utf8 "\x7b\"config\":\x7b\"preferred-install\":null,\"store-auths\":false,\"discard-changes\":false,\"platform-check\":false\x7d,\"autoload\":\x7b\x7d,\"autoload-dev\":\x7b\x7d,\"funding\":\x7b\"type\":\"\",\"url\":\"\"\x7d,\"abandoned\":false\x7d" := by
  rfl

/-- C22: the zero-value `Manifest` is not written as `{}`. Its fields of
struct type are written although they hold their zero value and their tags
say `omitempty`:
`config` (with `preferred-install`, `store-auths`, `discard-changes` and
`platform-check` inside), `autoload`, `autoload-dev`, `funding` (with its
`type` and `url`, which have no `omitempty`) and `abandoned`. The zero value
has no repositories, so how generic values are written plays no part. -/
theorem zero_manifest_not_empty_object :
    marshalManifest (fun _ => []) Manifest.zero
      = utf8 "\x7b\"config\":\x7b\"preferred-install\":null,\"store-auths\":false,\"discard-changes\":false,\"platform-check\":false\x7d,\"autoload\":\x7b\x7d,\"autoload-dev\":\x7b\x7d,\"funding\":\x7b\"type\":\"\",\"url\":\"\"\x7d,\"abandoned\":false\x7d" ∧
    marshalManifest (fun _ => []) Manifest.zero ≠ utf8 "\x7b\x7d" := by
  refine ⟨marshalManifest_zero _, ?_⟩
  rw [marshalManifest_zero]
  decide

/-- In the encoding of a `Manifest`, of a `Config`, of an `Autoload` and of a
`Repository`, a field whose type is not a struct and that holds the zero
value of its type has no key. A field of struct type (`config`,
`autoload`, `autoload-dev`, `funding`, `abandoned`, `preferred-install`,
`store-auths`, `discard-changes`, `platform-check`) is always written, and so
are the two fields of a `Funding`. -/
theorem omit_if_zero (encAny : JValue → Bytes) (m : Manifest) (c : Config) (a : Autoload)
    (r : Repository) (fd : Funding) :
    (∀ f ∈ Manifest.fields encAny m, f.shape.isStruct = false → f.shape.isZero = true →
      f.key ∉ (written (Manifest.fields encAny m)).map StructField.key) ∧
    (∀ f ∈ Config.fields c, f.shape.isStruct = false → f.shape.isZero = true →
      f.key ∉ (written (Config.fields c)).map StructField.key) ∧
    (∀ f ∈ Autoload.fields a, f.shape.isStruct = false → f.shape.isZero = true →
      f.key ∉ (written (Autoload.fields a)).map StructField.key) ∧
    (∀ f ∈ Repository.fields encAny r, f.shape.isStruct = false → f.shape.isZero = true →
      f.key ∉ (written (Repository.fields encAny r)).map StructField.key) ∧
    (∀ f ∈ Manifest.fields encAny m, f.shape.isStruct = true →
      f ∈ written (Manifest.fields encAny m)) ∧
    (∀ f ∈ Config.fields c, f.shape.isStruct = true → f ∈ written (Config.fields c)) ∧
    written (Funding.fields fd) = Funding.fields fd :=
  ⟨omitted_of_zero _ (Manifest.manifest_fields_keys encAny m).1 (Manifest.manifest_fields_keys encAny m).2,
   omitted_of_zero _ (Config.config_fields_keys c).1 (Config.config_fields_keys c).2,
   omitted_of_zero _ (Autoload.autoload_fields_keys a).1 (Autoload.autoload_fields_keys a).2,
   omitted_of_zero _ (Repository.repository_fields_keys encAny r).1 (Repository.repository_fields_keys encAny r).2,
   fun f hf hs => written_of_struct _ f hf hs,
   fun f hf hs => written_of_struct _ f hf hs,
   rfl⟩

theorem omit_if_zero_witness :
    utf8 "name" ∉ (written (Manifest.fields (fun _ => []) Manifest.zero)).map StructField.key ∧
    utf8 "process-timeout" ∉ (written (Config.fields Config.zero)).map StructField.key :=
  ⟨(omit_if_zero (fun _ => []) Manifest.zero Config.zero Autoload.zero Repository.zero
      Funding.zero).1 (.string "name" []) (List.mem_cons_self _ _) rfl rfl,
   (omit_if_zero (fun _ => []) Manifest.zero Config.zero Autoload.zero Repository.zero
      Funding.zero).2.1 (.int "process-timeout" 0) (List.mem_cons_self _ _) rfl rfl⟩

/-! ## Repositories: entries spelled out by a JSON object -/

theorem storeBool_bool (b cur : Bool) : storeBool (.bool b) cur = some b := by
  cases b <;> rfl

theorem storeStringsField_spells (j : JValue) (ys : List Bytes) (cur : Option (List Bytes))
    (sp : List Bytes) (h : IsJSONStrings j ys) :
    ∃ sp1, storeStringsField j cur sp = some (some ys, sp1) := by
  obtain ⟨js, rfl, hf⟩ := h
  have he : firstError (js.map fun x => (storeString x []).2) = none := by
    apply firstError_eq_none
    intro e he
    obtain ⟨x, hx, rfl⟩ := List.mem_map.mp he
    obtain ⟨y, _, raw, rfl⟩ := forall₂_exists_right hf hx
    rfl
  have hz : ∀ (old : List Bytes), js.length ≤ old.length →
      js.zipWith (fun x c => (storeString x c).1) old = ys := by
    clear he
    induction hf with
    | nil => intro old _; rfl
    | @cons j y js ys hj _ ih =>
      intro old hl
      obtain ⟨raw, rfl⟩ := hj
      cases old with
      | nil => simp at hl
      | cons c old =>
        simp only [List.zipWith_cons_cons, storeString, List.cons.injEq, true_and]
        exact ih old (by simpa using hl)
  cases js with
  | nil =>
    cases hf
    exact ⟨[], by simp only [storeStringsField, List.map_nil, firstError]⟩
  | cons j js =>
    refine ⟨(cur.getD [] ++ sp).drop (j :: js).length, ?_⟩
    simp only [storeStringsField, he]
    rw [hz _ (by simp only [List.length_append, List.length_replicate]; omega)]

theorem storeBoolOrStringPtr_spells (j : JValue) (bs : BoolOrString)
    (h : (j = .bool bs.Bool ∧ bs.String = []) ∨
      (bs.Bool = false ∧ ∃ raw, j = .str raw bs.String ∧
        parseJSON raw = some (.str raw bs.String) ∧ raw ∉ trueTokens ∧ raw ∉ falseTokens)) :
    storeBoolOrStringPtr j none = some (some bs) := by
  obtain ⟨b, s⟩ := bs
  rcases h with ⟨rfl, hs⟩ | ⟨hb, raw, rfl, hp, h1, h2⟩
  · simp only at hs
    subst hs
    cases b <;> rfl
  · simp only at hb
    subst hb
    simp only at hp
    simp only [storeBoolOrStringPtr, JValue.rawScalar, Option.getD_none,
      BoolOrString.UnmarshalJSON, Bool.UnmarshalJSON, h1, h2, if_false, unmarshal, hp,
      storeString]

theorem storeField_spells (e r : Repository) (sp : List Bytes × List Bytes) (jv : JValue)
    (k : Bytes) (v : EntryValue) (hs : SpellsOut jv v) :
    ∀ i, e.values[i]? = some (k, v) → r.values[i]? = Repository.zero.values[i]? →
      ∃ st, Repository.storeField i jv (r, sp) = some st ∧ st.1.values = r.values.set i (k, v)
  | 0, hk, hz => by
    have hk1 : some (utf8 "type", EntryValue.string e.Type_) = some (k, v) := hk
    cases hk1
    obtain ⟨raw, rfl⟩ := hs
    exact ⟨_, rfl, rfl⟩
  | 1, hk, hz => by
    have hk1 : some (utf8 "url", EntryValue.string e.Url) = some (k, v) := hk
    cases hk1
    obtain ⟨raw, rfl⟩ := hs
    exact ⟨_, rfl, rfl⟩
  | 2, hk, hz => by
    have hk1 : some (utf8 "canonical", EntryValue.bool e.Canonical) = some (k, v) := hk
    cases hk1
    have hj : jv = .bool e.Canonical := hs
    subst hj
    refine ⟨({ r with Canonical := e.Canonical }, sp), ?_, rfl⟩
    simp only [Repository.storeField, storeBool_bool, Option.map_some']
  | 3, hk, hz => by
    have hk1 : some (utf8 "only", EntryValue.strings e.Only) = some (k, v) := hk
    cases hk1
    obtain ⟨ys, hy, hj⟩ := hs
    obtain ⟨sp1, h1⟩ := storeStringsField_spells jv ys r.Only sp.1 hj
    refine ⟨({ r with Only := some ys }, sp1, sp.2), ?_, by rw [hy]; rfl⟩
    simp only [Repository.storeField, h1, Option.map_some']
  | 4, hk, hz => by
    have hk1 : some (utf8 "exclude", EntryValue.strings e.Exclude) = some (k, v) := hk
    cases hk1
    obtain ⟨ys, hy, hj⟩ := hs
    obtain ⟨sp1, h1⟩ := storeStringsField_spells jv ys r.Exclude sp.2 hj
    refine ⟨({ r with Exclude := some ys }, sp.1, sp1), ?_, by rw [hy]; rfl⟩
    simp only [Repository.storeField, h1, Option.map_some']
  | 5, hk, hz => by
    have hk1 : some (utf8 "options", EntryValue.options e.Options) = some (k, v) := hk
    cases hk1
    obtain ⟨kvs, rfl, hb, hm⟩ := hs
    have hz1 : some (utf8 "options", EntryValue.options r.Options)
        = some (utf8 "options", EntryValue.options none) := hz
    have hr : r.Options = none := by
      injection hz1 with h1
      injection h1 with _ h2
      injection h2
    refine ⟨({ r with Options := some (mapOfMembers id kvs []) }, sp), ?_, by rw [hm]; rfl⟩
    simp only [Repository.storeField, hr, storeAnyMapField, hb, Option.getD_none, Option.map_some']
  | 6, hk, hz => by
    have hk1 : some (utf8 "allow_ssl_downgrade", EntryValue.bool e.AllowSslDowngrade) = some (k, v) := hk
    cases hk1
    have hj : jv = .bool e.AllowSslDowngrade := hs
    subst hj
    refine ⟨({ r with AllowSslDowngrade := e.AllowSslDowngrade }, sp), ?_, rfl⟩
    simp only [Repository.storeField, storeBool_bool, Option.map_some']
  | 7, hk, hz => by
    have hk1 : some (utf8 "force-lazy-providers", EntryValue.bool e.ForceLazyProviders) = some (k, v) := hk
    cases hk1
    have hj : jv = .bool e.ForceLazyProviders := hs
    subst hj
    refine ⟨({ r with ForceLazyProviders := e.ForceLazyProviders }, sp), ?_, rfl⟩
    simp only [Repository.storeField, storeBool_bool, Option.map_some']
  | 8, hk, hz => by
    have hk1 : some (utf8 "no-api", EntryValue.bool e.NoApi) = some (k, v) := hk
    cases hk1
    have hj : jv = .bool e.NoApi := hs
    subst hj
    refine ⟨({ r with NoApi := e.NoApi }, sp), ?_, rfl⟩
    simp only [Repository.storeField, storeBool_bool, Option.map_some']
  | 9, hk, hz => by
    have hk1 : some (utf8 "secure-http", EntryValue.bool e.SecureHttp) = some (k, v) := hk
    cases hk1
    have hj : jv = .bool e.SecureHttp := hs
    subst hj
    refine ⟨({ r with SecureHttp := e.SecureHttp }, sp), ?_, rfl⟩
    simp only [Repository.storeField, storeBool_bool, Option.map_some']
  | 10, hk, hz => by
    have hk1 : some (utf8 "svn-cache-credentials", EntryValue.bool e.SvnCacheCredentials) = some (k, v) := hk
    cases hk1
    have hj : jv = .bool e.SvnCacheCredentials := hs
    subst hj
    refine ⟨({ r with SvnCacheCredentials := e.SvnCacheCredentials }, sp), ?_, rfl⟩
    simp only [Repository.storeField, storeBool_bool, Option.map_some']
  | 11, hk, hz => by
    have hk1 : some (utf8 "trunk-path", EntryValue.path e.TrunkPath) = some (k, v) := hk
    cases hk1
    obtain ⟨bs, hp, hj⟩ := hs
    have hz1 : some (utf8 "trunk-path", EntryValue.path r.TrunkPath)
        = some (utf8 "trunk-path", EntryValue.path none) := hz
    have hr : r.TrunkPath = none := by
      injection hz1 with h1
      injection h1 with _ h2
      injection h2
    refine ⟨({ r with TrunkPath := some bs }, sp), ?_, by rw [hp]; rfl⟩
    simp only [Repository.storeField, hr, storeBoolOrStringPtr_spells jv bs hj, Option.map_some']
  | 12, hk, hz => by
    have hk1 : some (utf8 "branches-path", EntryValue.path e.BranchesPath) = some (k, v) := hk
    cases hk1
    obtain ⟨bs, hp, hj⟩ := hs
    have hz1 : some (utf8 "branches-path", EntryValue.path r.BranchesPath)
        = some (utf8 "branches-path", EntryValue.path none) := hz
    have hr : r.BranchesPath = none := by
      injection hz1 with h1
      injection h1 with _ h2
      injection h2
    refine ⟨({ r with BranchesPath := some bs }, sp), ?_, by rw [hp]; rfl⟩
    simp only [Repository.storeField, hr, storeBoolOrStringPtr_spells jv bs hj, Option.map_some']
  | 13, hk, hz => by
    have hk1 : some (utf8 "tags-path", EntryValue.path e.TagsPath) = some (k, v) := hk
    cases hk1
    obtain ⟨bs, hp, hj⟩ := hs
    have hz1 : some (utf8 "tags-path", EntryValue.path r.TagsPath)
        = some (utf8 "tags-path", EntryValue.path none) := hz
    have hr : r.TagsPath = none := by
      injection hz1 with h1
      injection h1 with _ h2
      injection h2
    refine ⟨({ r with TagsPath := some bs }, sp), ?_, by rw [hp]; rfl⟩
    simp only [Repository.storeField, hr, storeBoolOrStringPtr_spells jv bs hj, Option.map_some']
  | 14, hk, hz => by
    have hk1 : some (utf8 "package-path", EntryValue.string e.PackagePath) = some (k, v) := hk
    cases hk1
    obtain ⟨raw, rfl⟩ := hs
    exact ⟨_, rfl, rfl⟩
  | 15, hk, hz => by
    have hk1 : some (utf8 "depot", EntryValue.string e.Depot) = some (k, v) := hk
    cases hk1
    obtain ⟨raw, rfl⟩ := hs
    exact ⟨_, rfl, rfl⟩
  | 16, hk, hz => by
    have hk1 : some (utf8 "branch", EntryValue.string e.Branch) = some (k, v) := hk
    cases hk1
    obtain ⟨raw, rfl⟩ := hs
    exact ⟨_, rfl, rfl⟩
  | 17, hk, hz => by
    have hk1 : some (utf8 "unique_perforce_client_name", EntryValue.string e.UniquePerforceClientName) = some (k, v) := hk
    cases hk1
    obtain ⟨raw, rfl⟩ := hs
    exact ⟨_, rfl, rfl⟩
  | 18, hk, hz => by
    have hk1 : some (utf8 "p4user", EntryValue.string e.P4user) = some (k, v) := hk
    cases hk1
    obtain ⟨raw, rfl⟩ := hs
    exact ⟨_, rfl, rfl⟩
  | 19, hk, hz => by
    have hk1 : some (utf8 "p4password", EntryValue.string e.P4password) = some (k, v) := hk
    cases hk1
    obtain ⟨raw, rfl⟩ := hs
    exact ⟨_, rfl, rfl⟩
  | 20, hk, hz => by
    have hk1 : some (utf8 "vendor-alias", EntryValue.string e.VendorAlias) = some (k, v) := hk
    cases hk1
    obtain ⟨raw, rfl⟩ := hs
    exact ⟨_, rfl, rfl⟩
  | n + 21, hk, _ => absurd hk (by simp [Repository.values])

theorem findIndex_of_getElem? (names : List Bytes) (hn : names.Nodup) :
    ∀ i k, names[i]? = some k → findIndex (fun n => decide (n = k)) names = some i := by
  induction names with
  | nil => intro i k h; simp at h
  | cons n names ih =>
    intro i k h
    rw [List.nodup_cons] at hn
    cases i with
    | zero =>
      simp only [List.getElem?_cons_zero, Option.some.injEq] at h
      subst h
      simp [findIndex]
    | succ i =>
      simp only [List.getElem?_cons_succ] at h
      have hne : n ≠ k := fun hnk => hn.1 (hnk ▸ List.getElem?_mem h)
      simp [findIndex, hne, ih hn.2 i k h]

theorem fieldIndex_values (e : Repository) (i : Nat) (k : Bytes) (v : EntryValue)
    (h : e.values[i]? = some (k, v)) : fieldIndex Repository.fieldNames k = some i := by
  have hn : Repository.fieldNames[i]? = some k := by
    have e1 : Repository.fieldNames = e.values.map Prod.fst := rfl
    rw [e1, List.getElem?_map, h]
    rfl
  have hnd : Repository.fieldNames.Nodup := by decide
  simp only [fieldIndex, findIndex_of_getElem? _ hnd i k hn]

theorem values_index_unique (e x : Repository) (i j : Nat) (k : Bytes) (v w : EntryValue)
    (hi : e.values[i]? = some (k, v)) (hj : x.values[j]? = some (k, w)) : i = j :=
  Option.some.inj ((fieldIndex_values e i k v hi).symm.trans (fieldIndex_values x j k w hj))

theorem storeMembers_spells (e : Repository) :
    ∀ (kvs : List (Bytes × JValue)) (r : Repository) (sp : List Bytes × List Bytes),
      (kvs.map Prod.fst).Nodup →
      (∀ kv ∈ kvs, ∃ v, (kv.1, v) ∈ e.values ∧ SpellsOut kv.2 v) →
      (∀ (i : Nat) (k : Bytes) (v : EntryValue), e.values[i]? = some (k, v) →
        k ∈ kvs.map Prod.fst → r.values[i]? = Repository.zero.values[i]?) →
      ∃ st, Repository.storeMembers kvs (r, sp) = some st ∧
        ∀ (i : Nat) (k : Bytes) (v : EntryValue), e.values[i]? = some (k, v) →
          st.1.values[i]? = if k ∈ kvs.map Prod.fst then some (k, v) else r.values[i]? := by
  intro kvs
  induction kvs with
  | nil => intro r sp _ _ _; exact ⟨(r, sp), rfl, fun i k v _ => by simp⟩
  | cons kv kvs ih =>
    intro r sp hnd hs hz
    obtain ⟨k0, j0⟩ := kv
    rw [List.map_cons, List.nodup_cons] at hnd
    obtain ⟨v0, hm0, hs0⟩ := hs (k0, j0) (List.mem_cons_self _ _)
    obtain ⟨i0, hi0⟩ := List.getElem?_of_mem hm0
    have hfi := fieldIndex_values e i0 k0 v0 hi0
    obtain ⟨st1, hst1, hv1⟩ := storeField_spells e r sp j0 k0 v0 hs0 i0 hi0
      (hz i0 k0 v0 hi0 (List.mem_cons_self _ _))
    obtain ⟨r1, sp1⟩ := st1
    have hv1' : r1.values = r.values.set i0 (k0, v0) := hv1
    have hlen : i0 < r.values.length := by
      have h21 : r.values.length = e.values.length := rfl
      rw [h21]
      exact (List.getElem?_eq_some_iff.mp hi0).1
    obtain ⟨st, hst, hv⟩ := ih r1 sp1 hnd.2
      (fun kv hkv => hs kv (List.mem_cons_of_mem _ hkv)) (by
        intro i k v hi hk
        have hne : i0 ≠ i := by
          rintro rfl
          rw [hi0] at hi
          cases hi
          exact hnd.1 hk
        rw [hv1', List.getElem?_set_ne hne]
        exact hz i k v hi (List.mem_cons_of_mem _ hk))
    refine ⟨st, by simp only [Repository.storeMembers, hfi, hst1, hst], fun i k v hi => ?_⟩
    rw [hv i k v hi]
    by_cases hk : k ∈ kvs.map Prod.fst
    · simp [hk]
    · simp only [hk, if_false, hv1']
      by_cases hii : i0 = i
      · subst hii
        rw [hi0] at hi
        cases hi
        simp [hlen]
      · rw [List.getElem?_set_ne hii]
        have hkk : k ≠ k0 := by
          rintro rfl
          exact hii (values_index_unique e e i0 i k v0 v hi0 hi)
        simp [hkk, hk]

theorem Repository.values_inj (r e : Repository) (h : r.values = e.values) : r = e := by
  cases r
  cases e
  simp only [Repository.values, List.cons.injEq, Prod.mk.injEq, true_and, and_true,
    EntryValue.string.injEq, EntryValue.bool.injEq, EntryValue.strings.injEq,
    EntryValue.options.injEq, EntryValue.path.injEq] at h
  simp only [Repository.mk.injEq]
  tauto

theorem isEntry_decodes (j : JValue) (e : Repository) (h : IsEntry j e) : DecodesTo j e := by
  obtain ⟨kvs, rfl, hnd, hs, ha⟩ := h
  obtain ⟨st, hst, hv⟩ := storeMembers_spells e kvs Repository.zero ([], []) hnd hs
    (fun _ _ _ _ _ => rfl)
  have hvals : st.1.values = e.values := by
    apply List.ext_getElem?
    intro i
    cases hi : e.values[i]? with
    | none =>
      have h1 : e.values.length ≤ i := List.getElem?_eq_none_iff.mp hi
      have h2 : st.1.values.length = e.values.length := rfl
      exact List.getElem?_eq_none (by omega)
    | some kv =>
      obtain ⟨k, v⟩ := kv
      rw [hv i k v hi]
      by_cases hk : k ∈ kvs.map Prod.fst
      · simp [hk]
      · simp only [hk, if_false]
        obtain ⟨j, hj⟩ := List.getElem?_of_mem (ha (k, v) (List.getElem?_mem hi) hk)
        have hji := values_index_unique Repository.zero e j i k v v hj hi
        subst hji
        exact hj
  show storeRepository (.obj kvs) Repository.zero = some e
  simp only [storeRepository, hst, Option.map_some']
  exact congrArg some (Repository.values_inj _ _ hvals)

/-- C6 (counterexample): the entry whose `TrunkPath` holds both the boolean
`true` and the string `x` is written as `{"trunk-path":"x"}`, the string
alone; decoding the JSON array of that entry gives an entry whose `TrunkPath`
holds `false` and `x`, not the entry that was written. -/
theorem Repositories.path_not_round_trip :
    (Repositories.MarshalJSON (fun _ => [])
        (some [{ Repository.zero with
          TrunkPath := some { Bool := true, String := utf8 "x" } }])).1
      = utf8 "[\x7b\"trunk-path\":\"x\"\x7d]" ∧
    Repositories.UnmarshalJSON id none (utf8 "[\x7b\"trunk-path\":\"x\"\x7d]")
      = (some [{ Repository.zero with
          TrunkPath := some { Bool := false, String := utf8 "x" } }], none) ∧
    Repositories.UnmarshalJSON id none
        (Repositories.MarshalJSON (fun _ => [])
          (some [{ Repository.zero with
            TrunkPath := some { Bool := true, String := utf8 "x" } }])).1
      ≠ (some [{ Repository.zero with
          TrunkPath := some { Bool := true, String := utf8 "x" } }], none) := by
  have h1 : (Repositories.MarshalJSON (fun _ => [])
        (some [{ Repository.zero with
          TrunkPath := some { Bool := true, String := utf8 "x" } }])).1
      = utf8 "[\x7b\"trunk-path\":\"x\"\x7d]" := rfl
  have h2 : Repositories.UnmarshalJSON id none (utf8 "[\x7b\"trunk-path\":\"x\"\x7d]")
      = (some [{ Repository.zero with
          TrunkPath := some { Bool := false, String := utf8 "x" } }], none) := rfl
  refine ⟨h1, h2, ?_⟩
  rw [h1, h2]
  intro h
  have h3 := congrArg (fun x : Repositories × Option GoError =>
    (x.1.getD []).map fun r => r.TrunkPath) h
  exact absurd h3 (by decide)

/-- C6 (amended): a JSON array whose elements spell out the entries `es`,
each an object with distinct keys that names fields by their JSON names and
gives each named field the value it has in the entry, the other fields of the
entry being zero, decodes to `es` in the same order; a JSON object with
distinct keys whose values spell out the entries `es` in that way decodes,
whatever order the range over the map takes, to a permutation of `es` with
one entry per key, the keys being dropped. -/
theorem Repositories.unmarshal_array_or_object
    (order : GoMap Repository → List (Bytes × Repository)) (ho : RangeOrder order)
    (p : Repositories) (bytes : Bytes) :
    (∀ js es, parseJSON bytes = some (.arr js) → List.Forall₂ IsEntry js es →
      Repositories.UnmarshalJSON order p bytes = (some es, none)) ∧
    (∀ kvs es, parseJSON bytes = some (.obj kvs) → (kvs.map Prod.fst).Nodup →
      List.Forall₂ (fun kv e => IsEntry kv.2 e) kvs es →
      ∃ res, Repositories.UnmarshalJSON order p bytes = (some res, none) ∧
        res.Perm es ∧ res.length = kvs.length) :=
  ⟨fun js es hp hd => (Repositories.unmarshal_decoded order ho p bytes).1 js es hp
      (hd.imp fun j e h => isEntry_decodes j e h),
   fun kvs es hp hnd hd => (Repositories.unmarshal_decoded order ho p bytes).2 kvs es hp hnd
      (hd.imp fun kv e h => isEntry_decodes kv.2 e h)⟩

theorem isEntry_type_only (raw t : Bytes) :
    IsEntry (.obj [(utf8 "type", .str raw t)]) { Repository.zero with Type_ := t } := by
  refine ⟨_, rfl, by simp, ?_, ?_⟩
  · intro kv hkv
    rw [List.mem_singleton] at hkv
    subst hkv
    exact ⟨.string t, List.mem_cons_self _ _, raw, rfl⟩
  · intro kv hkv hk
    have hv : ({ Repository.zero with Type_ := t } : Repository).values
        = (utf8 "type", .string t) :: Repository.zero.values.tail := rfl
    rw [hv] at hkv
    rcases List.mem_cons.mp hkv with rfl | h
    · exact absurd (List.mem_singleton.mpr rfl) hk
    · exact List.mem_of_mem_tail h

theorem Repositories.unmarshal_array_or_object_witness :
    Repositories.UnmarshalJSON id (some []) (utf8 "[\x7b\"type\":\"test\"\x7d]")
      = (some [{ Repository.zero with Type_ := utf8 "test" }], none) ∧
    ∃ res, Repositories.UnmarshalJSON id (some []) (utf8 "\x7b\"1\":\x7b\"type\":\"test\"\x7d\x7d")
        = (some res, none) ∧
      res.Perm [{ Repository.zero with Type_ := utf8 "test" }] ∧ res.length = 1 :=
  ⟨(Repositories.unmarshal_array_or_object id (fun m => List.Perm.refl m) (some [])
      (utf8 "[\x7b\"type\":\"test\"\x7d]")).1 _ _ rfl (.cons (isEntry_type_only _ _) .nil),
   (Repositories.unmarshal_array_or_object id (fun m => List.Perm.refl m) (some [])
      (utf8 "\x7b\"1\":\x7b\"type\":\"test\"\x7d\x7d")).2 _ _ rfl (by decide)
      (.cons (isEntry_type_only _ _) .nil)⟩

end Composer
